import Mathlib

/-!
# Queens puzzle generator (`queens.cpp`): shallow embedding and verified properties

The C++ program is embedded as pure functions.  Mutable objects are passed and
returned explicitly, `std::vector::at` is a fallible lookup, the recursive
searches take a recursion budget (fuel) that the top-level entry points choose
themselves, and the process-wide random generator is an explicit state `G`
together with an arbitrary `RandomSource G` (every shuffle returns some
permutation of its input, every uniform draw some value of the range).
The C++ `int` is modelled by the integers: every value the program computes is
bounded by `width * width`, which is taken to fit the machine type.  Output to
`std::cout` and `std::cerr` is not modelled.
-/

namespace Queens

/-! ## Results of fallible code -/

/-- Failures of the embedded code: `outOfRange` is the `std::out_of_range`
exception of `std::vector::at`; `outOfFuel` is the exhaustion of the recursion
budget of the embedding (it has no counterpart in the program). -/
inductive Err where
  | outOfRange
  | outOfFuel
  deriving DecidableEq, Repr

deriving instance DecidableEq for Except

/-- Result type of the embedded code. -/
abbrev M := Except Err

/-- The checked element access `std::vector::at(i)`.  A negative `int` index
converts to a huge `size_t`, which is out of range for every vector. -/
def vecAt {α : Type} (v : List α) (i : Int) : M α :=
  if i < 0 then Except.error Err.outOfRange
  else
    match v[i.toNat]? with
    | some a => Except.ok a
    | none => Except.error Err.outOfRange

/-- The checked element write `v.at(i) = a`. -/
def vecSet {α : Type} (v : List α) (i : Int) (a : α) : M (List α) :=
  if i < 0 then Except.error Err.outOfRange
  else if i.toNat < v.length then Except.ok (v.set i.toNat a)
  else Except.error Err.outOfRange

/-! ## Data structures -/

/-- The x offsets of the four directions (`dirsX`). -/
def dirsX : List Int := [1, 0, -1, 0]

/-- The y offsets of the four directions (`dirsY`). -/
def dirsY : List Int := [0, 1, 0, -1]

/-- The four directions in the order of the loops `for dir = 0 .. 3`. -/
def dirs : List (Int × Int) := List.zip dirsX dirsY

/-- A cell coordinate (`struct Point`). -/
structure Point where
  x : Int
  y : Int
  deriving DecidableEq, Repr

/-- The method `Point::inBoard`. -/
def Point.inBoard (p : Point) (boardWidth : Int) : Bool :=
  decide (p.x ≥ 0) && decide (p.x < boardWidth) && decide (p.y ≥ 0) && decide (p.y < boardWidth)

/-- The neighbour of `p` in direction `d`. -/
def Point.shift (p : Point) (d : Int × Int) : Point := ⟨p.x + d.1, p.y + d.2⟩

/-- A cell together with a colour (`struct ColoredPoint`). -/
structure ColoredPoint where
  x : Int
  y : Int
  color : Int
  deriving DecidableEq, Repr

/-- The method `ColoredPoint::p`. -/
def ColoredPoint.p (c : ColoredPoint) : Point := ⟨c.x, c.y⟩

/-- The function `pointInVector` (`std::find` over the vector). -/
def pointInVector (p : Point) (vec : List Point) : Bool := decide (p ∈ vec)

/-- The values `0, 1, .., n-1` of a loop `for (int i = 0; i < n; i++)`. -/
def loopRange (n : Int) : List Int := (List.range n.toNat).map Int.ofNat

/-! ## Random utilities -/

/-- The process-wide random generator, as an explicit state `G`.  `shuffle`
stands for `shuffleVector` (`std::shuffle`), which may return any permutation;
`uniformInt` stands for a draw from `std::uniform_int_distribution<>(lo, hi)`. -/
structure RandomSource (G : Type) where
  shuffle : {α : Type} → G → List α → List α × G
  shuffle_perm : ∀ {α : Type} (g : G) (l : List α), List.Perm (shuffle g l).1 l
  uniformInt : G → Int → Int → Int × G
  uniformInt_mem : ∀ (g : G) (lo hi : Int), lo ≤ hi →
    lo ≤ (uniformInt g lo hi).1 ∧ (uniformInt g lo hi).1 ≤ hi

/-! ## Colour map -/

/-- The class `ColorMap`: a width and the flat label matrix. -/
structure ColorMap where
  width : Int
  matrix : List Int
  deriving DecidableEq, Repr

/-- The method `ColorMap::getPointColor`: `matrix.at(p.y*width + p.x)`. -/
def ColorMap.getPointColor (cm : ColorMap) (p : Point) : M Int :=
  vecAt cm.matrix (p.y * cm.width + p.x)

/-- The method `ColorMap::setMatrixValue`: `matrix.at(p.y*width + p.x) = color`. -/
def ColorMap.setMatrixValue (cm : ColorMap) (p : Point) (color : Int) : M ColorMap :=
  match vecSet cm.matrix (p.y * cm.width + p.x) color with
  | Except.ok m => Except.ok ⟨cm.width, m⟩
  | Except.error e => Except.error e

/-- The method `ColorMap::fillColor`. -/
def ColorMap.fillColor (cm : ColorMap) (oldColor newColor : Int) : ColorMap :=
  ⟨cm.width, cm.matrix.map (fun color => if color = oldColor then newColor else color)⟩

/-- The method `ColorMap::fill`. -/
def ColorMap.fill (cm : ColorMap) (color : Int) : ColorMap :=
  ⟨cm.width, List.replicate (cm.width * cm.width).toNat color⟩

/-! ## Board -/

/-- The class `Board`. -/
structure Board where
  width : Int
  queens : List Point
  queenColors : List Int
  colorMap : ColorMap
  deriving DecidableEq, Repr

/-- The loop of the constructor `Board(colorMap, queens)` that collects the colour
of every queen. -/
def ColorMap.queenColors (colorMap : ColorMap) : List Point → M (List Int)
  | [] => Except.ok []
  | queen :: rest =>
    match colorMap.getPointColor queen with
    | Except.error e => Except.error e
    | Except.ok color =>
      match colorMap.queenColors rest with
      | Except.error e => Except.error e
      | Except.ok colors => Except.ok (color :: colors)

/-- The constructor `Board(colorMap, queens)`. -/
def Board.new (colorMap : ColorMap) (queens : List Point) : M Board :=
  match colorMap.queenColors queens with
  | Except.error e => Except.error e
  | Except.ok queenColors => Except.ok ⟨(queens.length : Int), queens, queenColors, colorMap⟩

/-- The method `Board::getPointColor`. -/
def Board.getPointColor (b : Board) (p : Point) : M Int := b.colorMap.getPointColor p

/-- The method `Board::setPointColor`. -/
def Board.setPointColor (b : Board) (p : Point) (color : Int) : M Board :=
  match b.colorMap.setMatrixValue p color with
  | Except.ok cm => Except.ok ⟨b.width, b.queens, b.queenColors, cm⟩
  | Except.error e => Except.error e

/-- The method `Board::pointIsQueen`. -/
def Board.pointIsQueen (b : Board) (p : Point) : Bool := decide (p ∈ b.queens)

/-- The loop over the four neighbours in the recursive `pointsAreConnected`;
`rec` is the recursive call. -/
def connectedDirLoop (rec : Point → List Point → M (Bool × List Point)) (start : Point) :
    List (Int × Int) → List Point → M (Bool × List Point)
  | [], visitedPoints => Except.ok (false, visitedPoints)
  | d :: ds, visitedPoints =>
    let adjP := start.shift d
    if pointInVector adjP visitedPoints then connectedDirLoop rec start ds visitedPoints
    else
      match rec adjP (visitedPoints ++ [adjP]) with
      | Except.error e => Except.error e
      | Except.ok (true, visited) => Except.ok (true, visited)
      | Except.ok (false, visited) => connectedDirLoop rec start ds visited

/-- The recursive method `Board::pointsAreConnected(start, target, visitedPoints)`;
the visited list is returned together with the result. -/
def Board.pointsAreConnectedAux (b : Board) (target : Point) :
    Nat → Point → List Point → M (Bool × List Point)
  | 0, _, _ => Except.error Err.outOfFuel
  | fuel + 1, start, visitedPoints =>
    if !start.inBoard b.width then Except.ok (false, visitedPoints)
    else
      match b.getPointColor start, b.getPointColor target with
      | Except.error e, _ => Except.error e
      | Except.ok _, Except.error e => Except.error e
      | Except.ok cs, Except.ok ct =>
        if cs ≠ ct then Except.ok (false, visitedPoints)
        else if start = target then Except.ok (true, visitedPoints)
        else connectedDirLoop (b.pointsAreConnectedAux target fuel) start dirs visitedPoints

/-- The recursion budget of the connectivity search: one more than the number of
cells of the board extended by a one-cell border. -/
def Board.connectFuel (b : Board) : Nat := ((b.width + 2) * (b.width + 2)).toNat + 1

/-- The method `Board::pointsAreConnected(start, target)`. -/
def Board.pointsAreConnected (b : Board) (start target : Point) : M Bool :=
  match b.pointsAreConnectedAux target b.connectFuel start [] with
  | Except.ok r => Except.ok r.1
  | Except.error e => Except.error e

/-- The method `Board::pointConnectsToQueen`.  When no queen carries the colour,
the local `queen` is never assigned; `uninit` is the indeterminate value it then
holds. -/
def Board.pointConnectsToQueen (b : Board) (uninit : Point) (p : Point) : M Bool :=
  match b.getPointColor p with
  | Except.error e => Except.error e
  | Except.ok color =>
    let index := b.queenColors.indexOf color
    if index < b.queenColors.length then
      match vecAt b.queens (index : Int) with
      | Except.error e => Except.error e
      | Except.ok queen => b.pointsAreConnected p queen
    else b.pointsAreConnected p uninit

/-- The loop over the four neighbours in `colorChangeBreaksContinuity`, entered
after `p` has been recoloured; both exits restore `originalColor`. -/
def Board.colorChangeLoop (b : Board) (uninit p : Point) (color originalColor : Int) :
    List (Int × Int) → M (Bool × Board)
  | [] =>
    match b.setPointColor p originalColor with
    | Except.error e => Except.error e
    | Except.ok b2 => Except.ok (false, b2)
  | d :: ds =>
    let adjP := p.shift d
    if adjP.inBoard b.width then
      match b.getPointColor adjP with
      | Except.error e => Except.error e
      | Except.ok c =>
        if c ≠ color then
          match b.pointConnectsToQueen uninit adjP with
          | Except.error e => Except.error e
          | Except.ok false =>
            match b.setPointColor p originalColor with
            | Except.error e => Except.error e
            | Except.ok b2 => Except.ok (true, b2)
          | Except.ok true => b.colorChangeLoop uninit p color originalColor ds
        else b.colorChangeLoop uninit p color originalColor ds
    else b.colorChangeLoop uninit p color originalColor ds

/-- The method `Board::colorChangeBreaksContinuity`; returns the result and the
board as it is left. -/
def Board.colorChangeBreaksContinuity (b : Board) (uninit p : Point) (color : Int) :
    M (Bool × Board) :=
  match b.getPointColor p with
  | Except.error e => Except.error e
  | Except.ok originalColor =>
    match b.setPointColor p color with
    | Except.error e => Except.error e
    | Except.ok b1 => b1.colorChangeLoop uninit p color originalColor dirs

/-! ## Incomplete board -/

/-- The class `IncompleteBoard`. -/
structure IncompleteBoard where
  width : Int
  colorMap : ColorMap
  queens : List Point
  xDepth : Int
  deriving DecidableEq, Repr

/-- The constructor `IncompleteBoard(width, queens)`. -/
def IncompleteBoard.new (width : Int) (queens : List Point) : IncompleteBoard :=
  ⟨width, (ColorMap.mk width []).fill (-1), queens, (queens.length : Int)⟩

/-- The constructor `IncompleteBoard(Board &board)`. -/
def IncompleteBoard.ofBoard (board : Board) : IncompleteBoard :=
  ⟨board.width, board.colorMap, [], 0⟩

/-- The method `IncompleteBoard::fillColor`. -/
def IncompleteBoard.fillColor (b : IncompleteBoard) (color newColor : Int) : IncompleteBoard :=
  ⟨b.width, b.colorMap.fillColor color newColor, b.queens, b.xDepth⟩

/-- The method `IncompleteBoard::getPointColor`. -/
def IncompleteBoard.getPointColor (b : IncompleteBoard) (p : Point) : M Int :=
  b.colorMap.getPointColor p

/-- The method `IncompleteBoard::setPointColor`. -/
def IncompleteBoard.setPointColor (b : IncompleteBoard) (p : Point) (color : Int) :
    M IncompleteBoard :=
  match b.colorMap.setMatrixValue p color with
  | Except.ok cm => Except.ok ⟨b.width, cm, b.queens, b.xDepth⟩
  | Except.error e => Except.error e

/-- The method `IncompleteBoard::isComplete`. -/
def IncompleteBoard.isComplete (b : IncompleteBoard) : Bool := decide (b.xDepth = b.width)

/-- The method `IncompleteBoard::makeBoard`. -/
def IncompleteBoard.makeBoard (b : IncompleteBoard) : M Board := Board.new b.colorMap b.queens

/-- The first loop of `queenIsValid`: `true` when some placed queen shares the
row or (with `checkColor`) the colour of `newQueen`. -/
def IncompleteBoard.queenClashes (b : IncompleteBoard) (newQueen : Point) (checkColor : Bool) :
    List Point → M Bool
  | [] => Except.ok false
  | queen :: rest =>
    if newQueen.y = queen.y then Except.ok true
    else if checkColor then
      match b.getPointColor newQueen, b.getPointColor queen with
      | Except.error e, _ => Except.error e
      | Except.ok _, Except.error e => Except.error e
      | Except.ok c1, Except.ok c2 =>
        if c1 = c2 then Except.ok true else b.queenClashes newQueen checkColor rest
    else b.queenClashes newQueen checkColor rest

/-- The method `IncompleteBoard::queenIsValid`. -/
def IncompleteBoard.queenIsValid (b : IncompleteBoard) (newQueen : Point) (checkColor : Bool) :
    M Bool :=
  match b.queenClashes newQueen checkColor b.queens with
  | Except.error e => Except.error e
  | Except.ok true => Except.ok false
  | Except.ok false =>
    if b.xDepth > 0 then
      match vecAt b.queens (b.xDepth - 1) with
      | Except.error e => Except.error e
      | Except.ok lastQueen =>
        if newQueen.y = lastQueen.y - 1 ∨ newQueen.y = lastQueen.y + 1 then Except.ok false
        else Except.ok true
    else Except.ok true

/-- The method `IncompleteBoard::addQueen`. -/
def IncompleteBoard.addQueen (b : IncompleteBoard) (newQueen : Point) : IncompleteBoard :=
  ⟨b.width, b.colorMap, b.queens ++ [newQueen], b.xDepth + 1⟩

/-- The method `IncompleteBoard::removeQueen`. -/
def IncompleteBoard.removeQueen (b : IncompleteBoard) : IncompleteBoard :=
  ⟨b.width, b.colorMap, b.queens.dropLast, b.xDepth - 1⟩

/-- The candidate loop of `genRandomQueens`: the rows `newY` of the next column
that pass `queenIsValid(newQueen, 0)`, in increasing order. -/
def IncompleteBoard.newQueenVector (b : IncompleteBoard) : List Int → M (List Point)
  | [] => Except.ok []
  | newY :: rest =>
    match b.queenIsValid ⟨b.xDepth, newY⟩ false with
    | Except.error e => Except.error e
    | Except.ok valid =>
      match b.newQueenVector rest with
      | Except.error e => Except.error e
      | Except.ok qs => Except.ok (if valid then (⟨b.xDepth, newY⟩ : Point) :: qs else qs)

/-- The loop of `genRandomQueens` over the shuffled candidates; `rec` is the
recursive call. -/
def genQueensLoop {G : Type} (rec : IncompleteBoard → G → M (IncompleteBoard × G)) :
    List Point → IncompleteBoard → G → M (IncompleteBoard × G)
  | [], b, g => Except.ok (b, g)
  | queen :: rest, b, g =>
    match rec (b.addQueen queen) g with
    | Except.error e => Except.error e
    | Except.ok (b1, g1) =>
      if b1.isComplete then Except.ok (b1, g1)
      else genQueensLoop rec rest b1.removeQueen g1

/-- The recursive method `IncompleteBoard::genRandomQueens`. -/
def IncompleteBoard.genRandomQueensAux {G : Type} (R : RandomSource G) :
    Nat → IncompleteBoard → G → M (IncompleteBoard × G)
  | 0, _, _ => Except.error Err.outOfFuel
  | fuel + 1, b, g =>
    if b.isComplete then Except.ok (b, g)
    else
      match b.newQueenVector (loopRange b.width) with
      | Except.error e => Except.error e
      | Except.ok newQueenVector =>
        let sh := R.shuffle g newQueenVector
        genQueensLoop (IncompleteBoard.genRandomQueensAux R fuel) sh.1 b sh.2

/-- The recursion budget of the two column-by-column searches: every nested call
has placed one more queen on a row of its own. -/
def IncompleteBoard.searchFuel (b : IncompleteBoard) : Nat := b.width.toNat + 1

/-- The method `IncompleteBoard::genRandomQueens`, as called from outside. -/
def IncompleteBoard.genRandomQueens {G : Type} (R : RandomSource G) (b : IncompleteBoard)
    (g : G) : M (IncompleteBoard × G) :=
  b.genRandomQueensAux R b.searchFuel g

/-- The loop of `hasOneSolution(numSolutions)` over the rows of the next column;
`rec` is the recursive call.  The state is the board and the counter. -/
def hasOneSolutionLoop (rec : IncompleteBoard → Int → M (Bool × IncompleteBoard × Int)) :
    List Int → IncompleteBoard → Int → M (Bool × IncompleteBoard × Int)
  | [], b, numSolutions => Except.ok (decide (numSolutions = 1), b, numSolutions)
  | newY :: rest, b, numSolutions =>
    match b.queenIsValid ⟨b.xDepth, newY⟩ true with
    | Except.error e => Except.error e
    | Except.ok false => hasOneSolutionLoop rec rest b numSolutions
    | Except.ok true =>
      match rec (b.addQueen ⟨b.xDepth, newY⟩) numSolutions with
      | Except.error e => Except.error e
      | Except.ok (_, b1, n1) =>
        if n1 > 1 then Except.ok (false, b1.removeQueen, n1)
        else hasOneSolutionLoop rec rest b1.removeQueen n1

/-- The recursive method `IncompleteBoard::hasOneSolution(int &numSolutions)`;
returns the result, the board as it is left and the counter. -/
def IncompleteBoard.hasOneSolutionAux :
    Nat → IncompleteBoard → Int → M (Bool × IncompleteBoard × Int)
  | 0, _, _ => Except.error Err.outOfFuel
  | fuel + 1, b, numSolutions =>
    if b.isComplete then Except.ok (true, b, numSolutions + 1)
    else hasOneSolutionLoop (IncompleteBoard.hasOneSolutionAux fuel) (loopRange b.width) b
      numSolutions

/-- The method `IncompleteBoard::hasOneSolution()`. -/
def IncompleteBoard.hasOneSolution (b : IncompleteBoard) : M Bool :=
  match b.hasOneSolutionAux b.searchFuel 0 with
  | Except.ok r => Except.ok r.1
  | Except.error e => Except.error e

/-! ## Game generator -/

/-- The class `GameGenerator` (its two configuration members). -/
structure GameGenerator where
  gameSize : Int
  continuousBase : Bool
  deriving DecidableEq, Repr

/-- The member `maxSpreadNumber`. -/
def maxSpreadNumber : Int := 120

/-- The method `GameGenerator::isValidGame`. -/
def GameGenerator.isValidGame (board : Board) : M Bool :=
  (IncompleteBoard.ofBoard board).hasOneSolution

/-- The innermost loop of `getPossibleColorSpreads` over the four neighbours of
the cell `p` of colour `pColor`; the state is the candidate vector and the board. -/
def GameGenerator.spreadDirLoop (gen : GameGenerator) (uninit : Point) (excludedColor : Int)
    (p : Point) (pColor : Int) :
    List (Int × Int) → List ColoredPoint → Board → M (List ColoredPoint × Board)
  | [], points, board => Except.ok (points, board)
  | d :: ds, points, board =>
    let adjPoint := p.shift d
    if adjPoint.inBoard gen.gameSize then
      match board.getPointColor adjPoint with
      | Except.error e => Except.error e
      | Except.ok adjPointColor =>
        if adjPointColor = excludedColor then
          match board.colorChangeBreaksContinuity uninit adjPoint pColor with
          | Except.error e => Except.error e
          | Except.ok (breaks, board1) =>
            if !(breaks && gen.continuousBase) && !board1.pointIsQueen adjPoint then
              gen.spreadDirLoop uninit excludedColor p pColor ds
                (points ++ [⟨adjPoint.x, adjPoint.y, pColor⟩]) board1
            else gen.spreadDirLoop uninit excludedColor p pColor ds points board1
        else gen.spreadDirLoop uninit excludedColor p pColor ds points board
    else gen.spreadDirLoop uninit excludedColor p pColor ds points board

/-- The cells of the double loop `for x .. for y ..` of `getPossibleColorSpreads`,
in the order they are scanned. -/
def scanPoints (gameSize : Int) : List Point :=
  (loopRange gameSize).flatMap (fun x => (loopRange gameSize).map (fun y => (⟨x, y⟩ : Point)))

/-- The double loop of `getPossibleColorSpreads` over the cells. -/
def GameGenerator.spreadPointLoop (gen : GameGenerator) (uninit : Point) (excludedColor : Int) :
    List Point → List ColoredPoint → Board → M (List ColoredPoint × Board)
  | [], points, board => Except.ok (points, board)
  | p :: ps, points, board =>
    match board.getPointColor p with
    | Except.error e => Except.error e
    | Except.ok pColor =>
      if pColor ≠ excludedColor then
        match gen.spreadDirLoop uninit excludedColor p pColor dirs points board with
        | Except.error e => Except.error e
        | Except.ok (points1, board1) =>
          gen.spreadPointLoop uninit excludedColor ps points1 board1
      else gen.spreadPointLoop uninit excludedColor ps points board

/-- The method `GameGenerator::getPossibleColorSpreads`. -/
def GameGenerator.getPossibleColorSpreads (gen : GameGenerator) (uninit : Point) (board : Board)
    (excludedColor : Int) : M (List ColoredPoint × Board) :=
  gen.spreadPointLoop uninit excludedColor (scanPoints gen.gameSize) [] board

/-- The loop of `doOneColorSpread` over the shuffled candidates. -/
def GameGenerator.trySpreads : List ColoredPoint → Board → M (Bool × Board)
  | [], board => Except.ok (false, board)
  | p :: ps, board =>
    match board.getPointColor p.p with
    | Except.error e => Except.error e
    | Except.ok replacedColor =>
      match board.setPointColor p.p p.color with
      | Except.error e => Except.error e
      | Except.ok board1 =>
        match GameGenerator.isValidGame board1 with
        | Except.error e => Except.error e
        | Except.ok true => Except.ok (true, board1)
        | Except.ok false =>
          match board1.setPointColor p.p replacedColor with
          | Except.error e => Except.error e
          | Except.ok board2 => GameGenerator.trySpreads ps board2

/-- The method `GameGenerator::doOneColorSpread`. -/
def GameGenerator.doOneColorSpread {G : Type} (R : RandomSource G) (gen : GameGenerator)
    (uninit : Point) (board : Board) (excludedColor : Int) (g : G) : M (Bool × Board × G) :=
  match gen.getPossibleColorSpreads uninit board excludedColor with
  | Except.error e => Except.error e
  | Except.ok (colorSpreadPoints, board1) =>
    let sh := R.shuffle g colorSpreadPoints
    match GameGenerator.trySpreads sh.1 board1 with
    | Except.error e => Except.error e
    | Except.ok (r, board2) => Except.ok (r, board2, sh.2)

/-- The loop `for (Point queen : getQueens()) setPointColor(queen, queen.x)` of
`generateGame`. -/
def IncompleteBoard.applyColors : List Point → IncompleteBoard → M IncompleteBoard
  | [], b => Except.ok b
  | queen :: rest, b =>
    match b.setPointColor queen queen.x with
    | Except.error e => Except.error e
    | Except.ok b1 => IncompleteBoard.applyColors rest b1

/-- The spreading loop `for (i = 0; i < numSpreads; i++) doOneColorSpread(..)` of
`generateGame`. -/
def GameGenerator.spreadLoop {G : Type} (R : RandomSource G) (gen : GameGenerator)
    (uninit : Point) (excludedColor : Int) : Nat → Board → G → M (Board × G)
  | 0, board, g => Except.ok (board, g)
  | n + 1, board, g =>
    match gen.doOneColorSpread R uninit board excludedColor g with
    | Except.error e => Except.error e
    | Except.ok (_, board1, g1) => gen.spreadLoop R uninit excludedColor n board1 g1

/-- The seeding part of `generateGame`: queen skeleton, queen colours, base colour,
`makeBoard`.  Returns the base board, the base colour and the generator state. -/
def GameGenerator.seedBoard {G : Type} (R : RandomSource G) (gen : GameGenerator) (g : G) :
    M (Board × Int × G) :=
  match (IncompleteBoard.new gen.gameSize []).genRandomQueens R g with
  | Except.error e => Except.error e
  | Except.ok (incompleteBoard, g1) =>
    match IncompleteBoard.applyColors incompleteBoard.queens incompleteBoard with
    | Except.error e => Except.error e
    | Except.ok colored =>
      let draw := R.uniformInt g1 0 (gen.gameSize - 1)
      match (colored.fillColor (-1) draw.1).makeBoard with
      | Except.error e => Except.error e
      | Except.ok board => Except.ok (board, draw.1, draw.2)

/-- The number of spreads `numSpreads` of `generateGame`. -/
def GameGenerator.numSpreads (gen : GameGenerator) : Int :=
  if gen.gameSize * gen.gameSize > maxSpreadNumber then maxSpreadNumber
  else gen.gameSize * gen.gameSize

/-- The method `GameGenerator::generateGame`. -/
def GameGenerator.generateGame {G : Type} (R : RandomSource G) (gen : GameGenerator)
    (uninit : Point) (g : G) : M (Board × G) :=
  match gen.seedBoard R g with
  | Except.error e => Except.error e
  | Except.ok (board, excludedColor, g1) =>
    gen.spreadLoop R uninit excludedColor gen.numSpreads.toNat board g1

/-! ## Specification vocabulary -/

/-- Every in-board cell of the board has a label in the colour map. -/
def Board.Labelled (b : Board) : Prop :=
  ∀ p : Point, p.inBoard b.width = true → ∃ c, b.getPointColor p = Except.ok c

/-- Two cells are orthogonally adjacent: they differ by one in exactly one
coordinate. -/
def Point.orthAdjacent (p q : Point) : Prop :=
  (p.x = q.x ∧ (q.y = p.y + 1 ∨ q.y = p.y - 1)) ∨ (p.y = q.y ∧ (q.x = p.x + 1 ∨ q.x = p.x - 1))

instance (p q : Point) : Decidable (p.orthAdjacent q) := by
  unfold Point.orthAdjacent; infer_instance

/-- A sequence of in-board cells from `start` to `target` in which consecutive
cells are orthogonally adjacent and every cell carries the label of `start`. -/
def Board.SameLabelPath (b : Board) (start target : Point) (path : List Point) : Prop :=
  path.head? = some start ∧ path.getLast? = some target ∧
    List.Chain' Point.orthAdjacent path ∧
    ∀ p ∈ path, p.inBoard b.width = true ∧ b.getPointColor p = b.getPointColor start

/-- One step between neighbouring in-board cells that both carry the label `c`. -/
def Board.Step (b : Board) (c : Int) (p q : Point) : Prop :=
  (p.inBoard b.width = true ∧ b.getPointColor p = Except.ok c) ∧
    (q.inBoard b.width = true ∧ b.getPointColor q = Except.ok c) ∧ ∃ d ∈ dirs, q = p.shift d

/-- The cell `q` is reachable from `p` through in-board cells labelled `c`
(`p` itself is not constrained when `q = p`). -/
def Board.Reach (b : Board) (c : Int) (p q : Point) : Prop :=
  Relation.ReflTransGen (b.Step c) p q

/-- A cell is settled in `V` when, if it is an in-board cell labelled `ct`, it is
not the target and all its four neighbours are in `V`. -/
def Board.Settled (b : Board) (ct : Int) (target : Point) (V : List Point) (x : Point) : Prop :=
  (x.inBoard b.width = true ∧ b.getPointColor x = Except.ok ct) →
    x ≠ target ∧ ∀ d ∈ dirs, x.shift d ∈ V

/-- What a failed search leaves behind: the visited list has grown, the start
cell and every newly visited cell are settled. -/
def Board.FailInv (b : Board) (ct : Int) (target : Point) (start : Point)
    (vis vis' : List Point) : Prop :=
  vis ⊆ vis' ∧ b.Settled ct target vis' start ∧
    ∀ x ∈ vis', x ∉ vis → b.Settled ct target vis' x

/-- The number of cells of the board extended by a one-cell border that are not
in the visited list: the quantity that decreases along the connectivity search. -/
def Board.unvisited (b : Board) (vis : List Point) : Nat :=
  ((Finset.Icc (-1) b.width ×ˢ Finset.Icc (-1) b.width).filter
    (fun q => (⟨q.1, q.2⟩ : Point) ∉ vis)).card

/-- The values of the C++ type `int` (32 bits, two's complement). -/
def fitsInt (n : Int) : Prop := -2147483648 ≤ n ∧ n ≤ 2147483647

instance (n : Int) : Decidable (fitsInt n) := by
  unfold fitsInt; infer_instance

/-- The value that 32-bit two's complement arithmetic gives for the exact result
`n`. -/
def wrapInt (n : Int) : Int := (n + 2147483648) % 4294967296 - 2147483648

/-- The flat index as the machine computes it: `p.y*width + p.x` in `int`
arithmetic. -/
def ColorMap.machineIndex (cm : ColorMap) (p : Point) : Int :=
  wrapInt (wrapInt (p.y * cm.width) + p.x)

/-- The flat index `p.y*width + p.x` of the cell `p` is computed without leaving the
range of `int`: the coordinates, the width, the product and the sum all fit, so that
the `int` arithmetic of the source gives the exact value. -/
def ColorMap.IndexFits (cm : ColorMap) (p : Point) : Prop :=
  fitsInt p.x ∧ fitsInt p.y ∧ fitsInt cm.width ∧ fitsInt (p.y * cm.width) ∧
    fitsInt (p.y * cm.width + p.x)

instance (cm : ColorMap) (p : Point) : Decidable (cm.IndexFits p) := by
  unfold ColorMap.IndexFits; infer_instance

/-- The colour map is a `w` by `w` grid: its width is `w` and it holds `w*w`
labels. -/
def ColorMap.Square (cm : ColorMap) (w : Int) : Prop :=
  cm.width = w ∧ cm.matrix.length = (w * w).toNat

instance (cm : ColorMap) (w : Int) : Decidable (cm.Square w) := by
  unfold ColorMap.Square; infer_instance

/-- The queens of the rows `ys`, one per column, starting at column `k`. -/
def columnsFrom (k : Int) : List Int → List Point
  | [] => []
  | y :: ys => ⟨k, y⟩ :: columnsFrom (k + 1) ys

/-- The constraints on the rows `ys` of the queens of columns `0, 1, ..`: rows
inside the board, pairwise distinct rows, pairwise distinct cell labels (only
with `checkColor`), and rows of consecutive columns not differing by one. -/
def IsPartial (cm : ColorMap) (w : Int) (checkColor : Bool) (ys : List Int) : Prop :=
  (∀ y ∈ ys, 0 ≤ y ∧ y < w) ∧ ys.Nodup ∧
    (checkColor = true → ((columnsFrom 0 ys).map cm.getPointColor).Nodup) ∧
    List.Chain' (fun a b : Int => |b - a| ≠ 1) ys

/-- A complete valid placement: one row per column, satisfying the constraints. -/
def IsPlacement (cm : ColorMap) (w : Int) (checkColor : Bool) (ys : List Int) : Prop :=
  (ys.length : Int) = w ∧ IsPartial cm w checkColor ys

/-- The search state `b` holds exactly the queens of the rows `rs` (of the columns
`0 .. rs.length-1`), on a `width` by `width` colour map. -/
def IncompleteBoard.Holds (b : IncompleteBoard) (rs : List Int) : Prop :=
  b.colorMap.Square b.width ∧ b.queens = columnsFrom 0 rs ∧ b.xDepth = (rs.length : Int) ∧
    (rs.length : Int) ≤ b.width ∧ ∀ y ∈ rs, 0 ≤ y ∧ y < b.width

/-- The ways to complete the state `b` into a full placement, as the lists of the
rows of the remaining columns; `k` bounds the number of remaining columns. -/
def IncompleteBoard.completions : Nat → IncompleteBoard → List (List Int)
  | 0, b => if b.isComplete then [[]] else []
  | k + 1, b =>
    if b.isComplete then [[]]
    else (loopRange b.width).flatMap (fun y =>
      if b.queenIsValid ⟨b.xDepth, y⟩ true = Except.ok true then
        (IncompleteBoard.completions k (b.addQueen ⟨b.xDepth, y⟩)).map (fun ys => y :: ys)
      else [])

/-- What the placement search leaves behind when started in the state `b` holding
the rows `rs`: either the state is unchanged and incomplete and no placement
extends `rs`, or the state is complete and holds a valid extension of `rs`. -/
def IncompleteBoard.GenPost (b : IncompleteBoard) (rs : List Int) (b' : IncompleteBoard) : Prop :=
  (b' = b ∧ b.isComplete = false ∧ ¬ ∃ ys, IsPlacement b.colorMap b.width false (rs ++ ys)) ∨
    (b'.isComplete = true ∧ b'.width = b.width ∧ b'.colorMap = b.colorMap ∧
      ∃ ys, b'.Holds (rs ++ ys) ∧ IsPartial b.colorMap b.width false (rs ++ ys))

/-- A valid row for column `i` of a board of width `n ≥ 4`: the odd rows in
increasing order, followed by the even rows in increasing order. -/
def skeletonRow (n i : Nat) : Nat := if 2 * i + 1 < n then 2 * i + 1 else 2 * (i - n / 2)

/-- The rows of a valid placement on a board of width `n ≥ 4`. -/
def skeleton (n : Nat) : List Int := (List.range n).map (fun i => (skeletonRow n i : Int))

/-- The random source that leaves every vector in place and always draws the
lower bound; its state is trivial. -/
def identitySource : RandomSource Unit where
  shuffle := fun g l => (l, g)
  shuffle_perm := fun _ l => List.Perm.refl l
  uniformInt := fun g lo _ => (lo, g)
  uniformInt_mem := fun _ _ _ h => ⟨le_refl _, h⟩

/-- The random source that reverses every vector and always draws the upper
bound; its state counts the shuffles. -/
def reverseSource : RandomSource Nat where
  shuffle := fun g l => (l.reverse, g + 1)
  shuffle_perm := fun _ l => List.reverse_perm l
  uniformInt := fun g _ hi => (hi, g)
  uniformInt_mem := fun _ _ _ h => ⟨h, le_refl _⟩

/-- A complete valid placement, in the words of the specification: a sequence of
rows `y_0 .. y_{width-1}` (queen `i` at column `i`, row `y_i` in `[0,width)`) with
pairwise distinct rows, pairwise distinct cell labels, and `|y_{i+1} - y_i| ≠ 1`
for every pair of consecutive columns. -/
def IsValidPlacement (cm : ColorMap) (width : Int) (ys : List Int) : Prop :=
  (ys.length : Int) = width ∧
  (∀ (i : Nat) (y : Int), ys[i]? = some y → 0 ≤ y ∧ y < width) ∧
  (∀ (i j : Nat) (y y' : Int), ys[i]? = some y → ys[j]? = some y' → i ≠ j → y ≠ y') ∧
  (∀ (i j : Nat) (y y' : Int), ys[i]? = some y → ys[j]? = some y' → i ≠ j →
    cm.getPointColor ⟨i, y⟩ ≠ cm.getPointColor ⟨j, y'⟩) ∧
  (∀ (i : Nat) (y y' : Int), ys[i]? = some y → ys[i + 1]? = some y' → |y' - y| ≠ 1)

/-- A board as `generateGame` seeds it for width 4 with the identity random
source: queen `i` labelled `i`, every other cell labelled with the base colour 0. -/
def sampleBoard : Board :=
  ⟨4, [⟨0, 1⟩, ⟨1, 3⟩, ⟨2, 0⟩, ⟨3, 2⟩], [0, 1, 2, 3],
    ⟨4, [0, 0, 2, 0, 0, 0, 0, 0, 0, 0, 0, 3, 0, 1, 0, 0]⟩⟩

/-- What `getPossibleColorSpreads` guarantees of each candidate it collects on the
board `b` for the excluded colour `e`: the cell lies in the scanned square, holds
`e`, is no queen cell, the new colour differs from `e` and is the colour of a
scanned cell next to it, and the continuity probe returned (with `false` when
continuity is enforced), leaving the board as it was. -/
def GameGenerator.Candidate (gen : GameGenerator) (uninit : Point) (b : Board) (e : Int)
    (cp : ColoredPoint) : Prop :=
  cp.p.inBoard gen.gameSize = true ∧ b.getPointColor cp.p = Except.ok e ∧ cp.color ≠ e ∧
    (∃ p0 ∈ scanPoints gen.gameSize, b.getPointColor p0 = Except.ok cp.color ∧
      ∃ d ∈ dirs, cp.p = p0.shift d) ∧
    b.pointIsQueen cp.p = false ∧
    ∃ r, b.colorChangeBreaksContinuity uninit cp.p cp.color = Except.ok (r, b) ∧
      (gen.continuousBase = true → r = false)

/-- A width-5 board reached by `generateGame` with the identity random source on
which every candidate spread of the base colour 0 breaks uniqueness. -/
def stuckBoard : Board :=
  ⟨5, [⟨0, 0⟩, ⟨1, 2⟩, ⟨2, 4⟩, ⟨3, 1⟩, ⟨4, 3⟩], [0, 1, 2, 3, 4],
    ⟨5, [0, 0, 1, 3, 3, 0, 1, 1, 3, 3, 0, 1, 1, 1, 1, 1, 1, 1, 1, 4, 1, 1, 2, 2, 4]⟩⟩

/-- The board `sampleBoard` after its first accepted spread (cell (0,3) recoloured
from 0 to 1). -/
def sampleBoardSpread : Board :=
  ⟨4, [⟨0, 1⟩, ⟨1, 3⟩, ⟨2, 0⟩, ⟨3, 2⟩], [0, 1, 2, 3],
    ⟨4, [0, 0, 2, 0, 0, 0, 0, 0, 0, 0, 0, 3, 1, 1, 0, 0]⟩⟩

/-- The queen that `pointConnectsToQueen` looks up for the colour `c`: the queen
at the first position of `queenColors` holding `c`, if there is one. -/
def Board.queenOf (b : Board) (c : Int) : Option Point :=
  if b.queenColors.indexOf c < b.queenColors.length then
    b.queens[b.queenColors.indexOf c]?
  else none

/-- Every in-board cell has a label, and the lookup of that label finds a queen
that lies in the board. -/
def Board.Covered (b : Board) : Prop :=
  ∀ p : Point, p.inBoard b.width = true →
    ∃ c q, b.getPointColor p = Except.ok c ∧ b.queenOf c = some q ∧ q.inBoard b.width = true

/-- Continuity: every in-board cell reaches the queen of its label through in-board
cells of that label. -/
def Board.Connected (b : Board) : Prop :=
  ∀ p : Point, p.inBoard b.width = true →
    ∃ c q, b.getPointColor p = Except.ok c ∧ b.queenOf c = some q ∧ b.Reach c p q

/-- The invariant of the board of `generateGame`, of width `w` and with the queens
of the rows `ys`: the colour map is a `w` by `w` grid, the queens form a valid
skeleton with one queen per column, `queenColors` is `0, .., w-1`, the queen of
column `i` holds the label `i`, and every label lies in `[0,w)`. -/
def Board.GameInv (b : Board) (w : Int) (ys : List Int) : Prop :=
  b.width = w ∧ b.colorMap.Square w ∧ b.queens = columnsFrom 0 ys ∧
    IsPlacement b.colorMap w false ys ∧ b.queenColors = loopRange w ∧
    (∀ q ∈ b.queens, b.getPointColor q = Except.ok q.x) ∧
    ∀ p : Point, p.inBoard w = true → ∃ c, b.getPointColor p = Except.ok c ∧ 0 ≤ c ∧ c < w

/-- The labelling property of a generated board of width `w`: every in-board cell
holds a label of `[0,w)` that is the colour of exactly one queen, so that the
label-to-queen lookup of `pointConnectsToQueen` finds a queen; the queens' colours
are pairwise distinct; and the queen of column `i` holds the label `i`. -/
def Board.LabelsOK (b : Board) (w : Int) : Prop :=
  (∀ p : Point, p.inBoard w = true →
    ∃ c, b.getPointColor p = Except.ok c ∧ (0 ≤ c ∧ c < w) ∧ b.queenColors.count c = 1 ∧
      ∃ q, b.queenOf c = some q) ∧
  b.queenColors.Nodup ∧
  ∀ (i : Nat) (q : Point), b.queens[i]? = some q →
    q.x = (i : Int) ∧ b.getPointColor q = Except.ok (i : Int) ∧ b.queenColors[i]? = some (i : Int)

/-- The loop of the reference search of the refinement claim on the solver: the
loop of `hasOneSolution(numSolutions)` with the early exit
`if (numSolutions > 1) return false;` removed. -/
def fullSearchLoop (rec : IncompleteBoard → Int → M (Bool × IncompleteBoard × Int)) :
    List Int → IncompleteBoard → Int → M (Bool × IncompleteBoard × Int)
  | [], b, numSolutions => Except.ok (decide (numSolutions = 1), b, numSolutions)
  | newY :: rest, b, numSolutions =>
    match b.queenIsValid ⟨b.xDepth, newY⟩ true with
    | Except.error e => Except.error e
    | Except.ok false => fullSearchLoop rec rest b numSolutions
    | Except.ok true =>
      match rec (b.addQueen ⟨b.xDepth, newY⟩) numSolutions with
      | Except.error e => Except.error e
      | Except.ok (_, b1, n1) => fullSearchLoop rec rest b1.removeQueen n1

/-- The reference search of the refinement claim on the solver: the search of
`hasOneSolution(numSolutions)` without the early exit, which visits every complete
placement and counts it. -/
def IncompleteBoard.fullSearchAux :
    Nat → IncompleteBoard → Int → M (Bool × IncompleteBoard × Int)
  | 0, _, _ => Except.error Err.outOfFuel
  | fuel + 1, b, numSolutions =>
    if b.isComplete then Except.ok (true, b, numSolutions + 1)
    else fullSearchLoop (IncompleteBoard.fullSearchAux fuel) (loopRange b.width) b numSolutions

/-- A 4 by 4 colour map whose sixteen cells all hold different labels; it has two
valid placements. -/
def distinctGrid : ColorMap := ⟨4, [0, 1, 2, 3, 4, 5, 6, 7, 8, 9, 10, 11, 12, 13, 14, 15]⟩

/-- A 2 by 2 board whose cells (1,0) and (0,1) hold the label 7, which is the
colour of no queen. -/
def orphanBoard : Board := ⟨2, [⟨0, 0⟩, ⟨1, 1⟩], [0, 1], ⟨2, [0, 7, 7, 1]⟩⟩

/-- The grid that `generateGame` seeds for the queens of the rows `ys` and the base
label `e`: a `w` by `w` colour map in which the queen cell of column `i` holds the
label `i` and every other cell holds `e`. -/
def IsSeedGrid (cm : ColorMap) (w : Int) (ys : List Int) (e : Int) : Prop :=
  cm.Square w ∧ ∀ p : Point, p.inBoard w = true →
    cm.getPointColor p = Except.ok (if p ∈ columnsFrom 0 ys then p.x else e)

/-- One step between orthogonally adjacent cells of the `w` by `w` grid, labels
not considered. -/
def GridStep (w : Int) (p q : Point) : Prop :=
  p.inBoard w = true ∧ q.inBoard w = true ∧ ∃ d ∈ dirs, q = p.shift d

/-- The queens as the constructor of `Board` leaves them: one colour recorded per
queen, and every queen on a cell whose colour can be read. -/
def Board.QueensOK (b : Board) : Prop :=
  b.queenColors.length = b.queens.length ∧ ∀ q ∈ b.queens, (b.getPointColor q).isOk = true

instance (b : Board) : Decidable b.QueensOK := by
  unfold Board.QueensOK; infer_instance

/-! ## Basic facts on the checked vector accesses -/

theorem vecAt_eq_ok {α : Type} {v : List α} {i : Int} {a : α} :
    vecAt v i = Except.ok a ↔ 0 ≤ i ∧ v[i.toNat]? = some a := by
  unfold vecAt
  by_cases h : i < 0
  · simp [h]
  · simp only [h, if_false]
    cases hv : v[i.toNat]? <;> simp [hv]; omega

theorem vecSet_eq_ok {α : Type} {v v' : List α} {i : Int} {a : α} :
    vecSet v i a = Except.ok v' ↔ 0 ≤ i ∧ i.toNat < v.length ∧ v' = v.set i.toNat a := by
  unfold vecSet
  by_cases h : i < 0
  · simp [h]
  · by_cases h2 : i.toNat < v.length
    · simp [h, h2]; constructor
      · intro e; exact ⟨by omega, e.symm⟩
      · intro e; exact e.2.symm
    · simp [h, h2]

theorem ColorMap.getPointColor_eq_ok {cm : ColorMap} {p : Point} {c : Int} :
    cm.getPointColor p = Except.ok c ↔
      0 ≤ p.y * cm.width + p.x ∧ cm.matrix[(p.y * cm.width + p.x).toNat]? = some c :=
  vecAt_eq_ok

theorem ColorMap.setMatrixValue_eq_ok {cm cm' : ColorMap} {p : Point} {c : Int} :
    cm.setMatrixValue p c = Except.ok cm' ↔
      0 ≤ p.y * cm.width + p.x ∧ (p.y * cm.width + p.x).toNat < cm.matrix.length ∧
        cm' = ⟨cm.width, cm.matrix.set (p.y * cm.width + p.x).toNat c⟩ := by
  unfold ColorMap.setMatrixValue
  cases h : vecSet cm.matrix (p.y * cm.width + p.x) c with
  | error e =>
    simp only [false_iff, reduceCtorEq]
    rintro ⟨h1, h2, -⟩
    have := (@vecSet_eq_ok _ cm.matrix (cm.matrix.set (p.y * cm.width + p.x).toNat c)
      (p.y * cm.width + p.x) c).2 ⟨h1, h2, rfl⟩
    rw [h] at this; cases this
  | ok m =>
    rw [vecSet_eq_ok] at h
    obtain ⟨h1, h2, h3⟩ := h
    simp only [Except.ok.injEq, h1, h2, true_and, h3]
    constructor <;> intro e <;> exact e.symm

/-- Writing back the colour read before a write restores the colour map. -/
theorem ColorMap.setMatrixValue_restore {cm cm1 : ColorMap} {p : Point} {c0 c : Int}
    (hget : cm.getPointColor p = Except.ok c0) (hset : cm.setMatrixValue p c = Except.ok cm1) :
    cm1.setMatrixValue p c0 = Except.ok cm := by
  rw [ColorMap.getPointColor_eq_ok] at hget
  rw [ColorMap.setMatrixValue_eq_ok] at hset ⊢
  obtain ⟨h1, h2, rfl⟩ := hset
  refine ⟨h1, by simpa using h2, ?_⟩
  cases cm with
  | mk w m =>
    simp only [ColorMap.mk.injEq, true_and]
    simp only [List.set_set]
    apply List.ext_getElem?
    intro j
    rw [List.getElem?_set]
    split
    · next hj => subst hj; simp [h2, hget.2]
    · rfl

theorem Board.setPointColor_restore {b b1 : Board} {p : Point} {c0 c : Int}
    (hget : b.getPointColor p = Except.ok c0) (hset : b.setPointColor p c = Except.ok b1) :
    b1.setPointColor p c0 = Except.ok b := by
  unfold Board.setPointColor at hset ⊢
  cases h : b.colorMap.setMatrixValue p c with
  | error e => rw [h] at hset; cases hset
  | ok cm1 =>
    rw [h] at hset
    cases hset
    simp only [ColorMap.setMatrixValue_restore hget h]

theorem Board.colorChangeLoop_board {b b0 : Board} {uninit p : Point} {color c0 : Int}
    (hrestore : b.setPointColor p c0 = Except.ok b0) :
    ∀ (ds : List (Int × Int)) (r : Bool) (b' : Board),
      b.colorChangeLoop uninit p color c0 ds = Except.ok (r, b') → b' = b0 := by
  intro ds
  induction ds with
  | nil =>
    intro r b' h
    simp only [Board.colorChangeLoop, hrestore] at h
    cases h; rfl
  | cons d ds ih =>
    intro r b' h
    simp only [Board.colorChangeLoop] at h
    split at h
    · split at h
      · cases h
      · split at h
        · split at h
          · cases h
          · rw [hrestore] at h; cases h; rfl
          · exact ih r b' h
        · exact ih r b' h
    · exact ih r b' h

theorem Board.colorChangeBreaksContinuity_board {b b' : Board} {uninit p : Point} {color : Int}
    {r : Bool} (h : b.colorChangeBreaksContinuity uninit p color = Except.ok (r, b')) :
    b' = b := by
  unfold Board.colorChangeBreaksContinuity at h
  cases hget : b.getPointColor p with
  | error e => rw [hget] at h; cases h
  | ok c0 =>
    rw [hget] at h
    cases hset : b.setPointColor p color with
    | error e => rw [hset] at h; cases h
    | ok b1 =>
      rw [hset] at h
      exact Board.colorChangeLoop_board (Board.setPointColor_restore hget hset) dirs r b' h

/-! ## Square colour maps -/

theorem index_bounds {w x y : Int} (hx : 0 ≤ x ∧ x < w) (hy : 0 ≤ y ∧ y < w) :
    0 ≤ y * w + x ∧ (y * w + x).toNat < (w * w).toNat := by
  have h1 : 0 ≤ y * w := mul_nonneg hy.1 (by omega)
  have h2 : y * w + x < w * w := by nlinarith
  omega

theorem index_inj {w x y x' y' : Int} (hx : 0 ≤ x ∧ x < w) (hx' : 0 ≤ x' ∧ x' < w)
    (h : y * w + x = y' * w + x') : x = x' ∧ y = y' := by
  have hy : y = y' := by
    rcases lt_trichotomy y y' with hlt | heq | hgt
    · exfalso
      have : (y + 1) * w ≤ y' * w := by nlinarith
      nlinarith
    · exact heq
    · exfalso
      have : (y' + 1) * w ≤ y * w := by nlinarith
      nlinarith
  subst hy
  exact ⟨by omega, rfl⟩

theorem inBoard_iff {p : Point} {w : Int} :
    p.inBoard w = true ↔ (0 ≤ p.x ∧ p.x < w) ∧ (0 ≤ p.y ∧ p.y < w) := by
  simp only [Point.inBoard, Bool.and_eq_true, decide_eq_true_eq, ge_iff_le]
  tauto

theorem ColorMap.Square.getPointColor {cm : ColorMap} {w : Int} (h : cm.Square w) {p : Point}
    (hp : p.inBoard w = true) : ∃ c, cm.getPointColor p = Except.ok c := by
  rw [inBoard_iff] at hp
  obtain ⟨h1, h2⟩ := index_bounds hp.1 hp.2
  have hlt : (p.y * cm.width + p.x).toNat < cm.matrix.length := by rw [h.1, h.2]; exact h2
  refine ⟨cm.matrix[(p.y * cm.width + p.x).toNat], ?_⟩
  rw [ColorMap.getPointColor_eq_ok]
  exact ⟨by rw [h.1]; exact h1, List.getElem?_eq_getElem hlt⟩

/-- Writing an in-board cell of a square colour map succeeds, keeps the map
square, and changes the label of that cell only. -/
theorem ColorMap.Square.setMatrixValue {cm : ColorMap} {w : Int} (h : cm.Square w) {p : Point}
    (hp : p.inBoard w = true) (c : Int) :
    ∃ cm', cm.setMatrixValue p c = Except.ok cm' ∧ cm'.Square w ∧
      cm'.getPointColor p = Except.ok c ∧
      ∀ q : Point, q.inBoard w = true → q ≠ p → cm'.getPointColor q = cm.getPointColor q := by
  rw [inBoard_iff] at hp
  obtain ⟨h1, h2⟩ := index_bounds hp.1 hp.2
  have hlt : (p.y * cm.width + p.x).toNat < cm.matrix.length := by rw [h.1, h.2]; exact h2
  have h1' : 0 ≤ p.y * cm.width + p.x := by rw [h.1]; exact h1
  refine ⟨⟨cm.width, cm.matrix.set (p.y * cm.width + p.x).toNat c⟩, ?_, ?_, ?_, ?_⟩
  · rw [ColorMap.setMatrixValue_eq_ok]; exact ⟨h1', hlt, rfl⟩
  · exact ⟨h.1, by simp [h.2]⟩
  · rw [ColorMap.getPointColor_eq_ok]
    refine ⟨h1', ?_⟩
    simp [List.getElem?_set, hlt]
  · intro q hq hne
    rw [inBoard_iff] at hq
    have hidx : (p.y * cm.width + p.x).toNat ≠ (q.y * cm.width + q.x).toNat := by
      intro heq
      obtain ⟨g1, -⟩ := index_bounds hq.1 hq.2
      rw [h.1] at heq
      have heq' : p.y * w + p.x = q.y * w + q.x := by omega
      have := index_inj hp.1 hq.1 heq'
      apply hne
      cases p; cases q; simp only [Point.mk.injEq]; exact ⟨this.1.symm, this.2.symm⟩
    unfold ColorMap.getPointColor vecAt
    simp only [List.getElem?_set, hidx, if_false]

theorem ColorMap.setMatrixValue_width {cm cm' : ColorMap} {p : Point} {c : Int}
    (h : cm.setMatrixValue p c = Except.ok cm') :
    cm'.width = cm.width ∧ cm'.matrix.length = cm.matrix.length := by
  rw [ColorMap.setMatrixValue_eq_ok] at h
  obtain ⟨-, -, rfl⟩ := h
  simp

/-- The board's colour map is a grid of the board's width. -/
theorem Board.labelled_of_square {b : Board} (h : b.colorMap.Square b.width) : b.Labelled :=
  fun _ hp => h.getPointColor hp

/-! ## The connectivity search -/

theorem mem_dirs_iff (d : Int × Int) :
    d ∈ dirs ↔ d = (1, 0) ∨ d = (0, 1) ∨ d = (-1, 0) ∨ d = (0, -1) := by
  simp [dirs, dirsX, dirsY]

theorem orthAdjacent_iff (p q : Point) : p.orthAdjacent q ↔ ∃ d ∈ dirs, q = p.shift d := by
  constructor
  · intro h
    cases q with
    | mk qx qy =>
    cases p with
    | mk px py =>
    simp only [Point.orthAdjacent] at h
    simp only [Point.shift, Point.mk.injEq]
    rcases h with ⟨h1, h2 | h2⟩ | ⟨h1, h2 | h2⟩
    · exact ⟨(0, 1), by simp [mem_dirs_iff], by simp; omega⟩
    · exact ⟨(0, -1), by simp [mem_dirs_iff], by simp; omega⟩
    · exact ⟨(1, 0), by simp [mem_dirs_iff], by simp; omega⟩
    · exact ⟨(-1, 0), by simp [mem_dirs_iff], by simp; omega⟩
  · rintro ⟨d, hd, rfl⟩
    rw [mem_dirs_iff] at hd
    rcases hd with rfl | rfl | rfl | rfl <;> simp [Point.orthAdjacent, Point.shift] <;> omega

theorem Board.Settled.mono {b : Board} {ct : Int} {target x : Point} {V W : List Point}
    (h : b.Settled ct target V x) (hVW : V ⊆ W) : b.Settled ct target W x :=
  fun hg => ⟨(h hg).1, fun d hd => hVW ((h hg).2 d hd)⟩

theorem connectedDirLoop_false {b : Board} {ct : Int} {target : Point}
    {rec : Point → List Point → M (Bool × List Point)}
    (hrec : ∀ s v v', rec s v = Except.ok (false, v') → b.FailInv ct target s v v')
    (start : Point) :
    ∀ (ds : List (Int × Int)) (vis vis' : List Point),
      connectedDirLoop rec start ds vis = Except.ok (false, vis') →
      vis ⊆ vis' ∧ (∀ d ∈ ds, start.shift d ∈ vis') ∧
        ∀ x ∈ vis', x ∉ vis → b.Settled ct target vis' x := by
  intro ds
  induction ds with
  | nil =>
    intro vis vis' h
    simp only [connectedDirLoop, Except.ok.injEq, Prod.mk.injEq, true_and] at h
    subst h
    exact ⟨fun _ hx => hx, by simp, fun x hx hx' => absurd hx hx'⟩
  | cons d ds ih =>
    intro vis vis' h
    simp only [connectedDirLoop] at h
    split at h
    · next hin =>
      obtain ⟨h1, h2, h3⟩ := ih vis vis' h
      refine ⟨h1, ?_, h3⟩
      intro d' hd'
      rcases List.mem_cons.1 hd' with rfl | hd'
      · exact h1 (by simpa [pointInVector] using hin)
      · exact h2 d' hd'
    · split at h
      · cases h
      · cases h
      · next hnin v1 hr =>
        obtain ⟨r1, r2, r3⟩ := hrec _ _ _ hr
        obtain ⟨h1, h2, h3⟩ := ih v1 vis' h
        have hadj : start.shift d ∈ v1 := r1 (by simp)
        refine ⟨fun x hx => h1 (r1 (List.mem_append_left _ hx)), ?_, ?_⟩
        · intro d' hd'
          rcases List.mem_cons.1 hd' with rfl | hd'
          · exact h1 hadj
          · exact h2 d' hd'
        · intro x hx hxv
          by_cases hx1 : x ∈ v1
          · by_cases hxa : x = start.shift d
            · subst hxa; exact r2.mono h1
            · exact (r3 x hx1 (by simp [hxv, hxa])).mono h1
          · exact h3 x hx hx1

theorem Board.pointsAreConnectedAux_false {b : Board} {ct : Int} {target : Point}
    (ht : b.getPointColor target = Except.ok ct) :
    ∀ (fuel : Nat) (start : Point) (vis vis' : List Point),
      b.pointsAreConnectedAux target fuel start vis = Except.ok (false, vis') →
      b.FailInv ct target start vis vis' := by
  intro fuel
  induction fuel with
  | zero => intro start vis vis' h; simp [Board.pointsAreConnectedAux] at h
  | succ fuel ih =>
    intro start vis vis' h
    simp only [Board.pointsAreConnectedAux] at h
    split at h
    · next hnb =>
      simp only [Except.ok.injEq, Prod.mk.injEq, true_and] at h
      subst h
      refine ⟨fun _ hx => hx, ?_, fun x hx hx' => absurd hx hx'⟩
      intro hg
      simp [hg.1] at hnb
    · rw [ht] at h
      split at h
      · cases h
      · next heq => cases heq
      · next cs ct' hs heq =>
        cases heq
        split at h
        · next hne =>
          simp only [Except.ok.injEq, Prod.mk.injEq, true_and] at h
          subst h
          refine ⟨fun _ hx => hx, ?_, fun x hx hx' => absurd hx hx'⟩
          intro hg
          rw [hs] at hg
          exact absurd (Except.ok.inj hg.2) hne
        · split at h
          · cases h
          · next hst =>
            obtain ⟨h1, h2, h3⟩ := connectedDirLoop_false ih start dirs vis vis' h
            exact ⟨h1, fun _ => ⟨hst, h2⟩, h3⟩

theorem connectedDirLoop_true {P : Point → Prop}
    {rec : Point → List Point → M (Bool × List Point)}
    (hrec : ∀ s v v', rec s v = Except.ok (true, v') → P s)
    (start : Point) :
    ∀ (ds : List (Int × Int)) (vis vis' : List Point),
      connectedDirLoop rec start ds vis = Except.ok (true, vis') →
      ∃ d ∈ ds, P (start.shift d) := by
  intro ds
  induction ds with
  | nil => intro vis vis' h; simp [connectedDirLoop] at h
  | cons d ds ih =>
    intro vis vis' h
    simp only [connectedDirLoop] at h
    split at h
    · obtain ⟨d', hd', hp⟩ := ih vis vis' h
      exact ⟨d', List.mem_cons_of_mem _ hd', hp⟩
    · split at h
      · cases h
      · next hr => exact ⟨d, List.mem_cons_self _ _, hrec _ _ _ hr⟩
      · obtain ⟨d', hd', hp⟩ := ih _ vis' h
        exact ⟨d', List.mem_cons_of_mem _ hd', hp⟩

theorem Board.pointsAreConnectedAux_true {b : Board} {ct : Int} {target : Point}
    (ht : b.getPointColor target = Except.ok ct) :
    ∀ (fuel : Nat) (start : Point) (vis vis' : List Point),
      b.pointsAreConnectedAux target fuel start vis = Except.ok (true, vis') →
      (start.inBoard b.width = true ∧ b.getPointColor start = Except.ok ct) ∧
        b.Reach ct start target := by
  intro fuel
  induction fuel with
  | zero => intro start vis vis' h; simp [Board.pointsAreConnectedAux] at h
  | succ fuel ih =>
    intro start vis vis' h
    simp only [Board.pointsAreConnectedAux] at h
    split at h
    · cases h
    · next hnb =>
      rw [ht] at h
      split at h
      · cases h
      · next heq => cases heq
      · next cs ct' hs heq =>
        cases heq
        split at h
        · cases h
        · next hne =>
          have hcs : cs = ct := by simpa using hne
          subst hcs
          have hg : start.inBoard b.width = true ∧ b.getPointColor start = Except.ok cs :=
            ⟨by simpa using hnb, hs⟩
          split at h
          · next hst => subst hst; exact ⟨hg, Relation.ReflTransGen.refl⟩
          · obtain ⟨d, hd, hg', hreach⟩ := connectedDirLoop_true ih start dirs vis vis' h
            exact ⟨hg, Relation.ReflTransGen.head ⟨hg, hg', d, hd, rfl⟩ hreach⟩
theorem Board.unvisited_mono (b : Board) {vis vis' : List Point} (h : vis ⊆ vis') :
    b.unvisited vis' ≤ b.unvisited vis := by
  unfold Board.unvisited
  apply Finset.card_le_card
  intro q hq
  simp only [Finset.mem_filter] at hq ⊢
  exact ⟨hq.1, fun hv => hq.2 (h hv)⟩

theorem Board.unvisited_lt (b : Board) {vis : List Point} {p : Point} (hp : p ∉ vis)
    (hx : -1 ≤ p.x ∧ p.x ≤ b.width) (hy : -1 ≤ p.y ∧ p.y ≤ b.width) :
    b.unvisited (vis ++ [p]) < b.unvisited vis := by
  unfold Board.unvisited
  apply Finset.card_lt_card
  rw [Finset.ssubset_iff_of_subset]
  · refine ⟨(p.x, p.y), ?_, ?_⟩
    · simp only [Finset.mem_filter, Finset.mem_product, Finset.mem_Icc]
      exact ⟨⟨hx, hy⟩, hp⟩
    · simp
  · intro q hq
    simp only [Finset.mem_filter] at hq ⊢
    exact ⟨hq.1, fun hv => hq.2 (List.mem_append_left _ hv)⟩

theorem Board.unvisited_nil (b : Board) : b.unvisited [] < b.connectFuel := by
  unfold Board.unvisited Board.connectFuel
  simp only [List.not_mem_nil, not_false_eq_true, Finset.filter_True, Finset.card_product,
    Int.card_Icc]
  have h : b.width + 1 - -1 = b.width + 2 := by ring
  rw [h]
  rcases le_or_lt 0 (b.width + 2) with h0 | h0
  · obtain ⟨n, hn⟩ := Int.eq_ofNat_of_zero_le h0
    rw [hn]
    simp only [Int.toNat_ofNat]
    have : ((n : Int) * (n : Int)).toNat = n * n := by
      have h2 : ((n : Int) * (n : Int)) = ((n * n : Nat) : Int) := by push_cast; ring
      rw [h2, Int.toNat_natCast]
    omega
  · have : (b.width + 2).toNat = 0 := by omega
    rw [this]; simp

theorem shift_in_box {p : Point} {w : Int} (hp : p.inBoard w = true) {d : Int × Int}
    (hd : d ∈ dirs) :
    (-1 ≤ (p.shift d).x ∧ (p.shift d).x ≤ w) ∧ (-1 ≤ (p.shift d).y ∧ (p.shift d).y ≤ w) := by
  simp only [Point.inBoard, Bool.and_eq_true, decide_eq_true_eq] at hp
  rw [mem_dirs_iff] at hd
  rcases hd with rfl | rfl | rfl | rfl <;> simp [Point.shift] <;> omega

theorem connectedDirLoop_total {b : Board}
    {rec : Point → List Point → M (Bool × List Point)} {n : Nat}
    (htotal : ∀ s v, b.unvisited v < n → ∃ r, rec s v = Except.ok r)
    (hmono : ∀ s v v', rec s v = Except.ok (false, v') → v ⊆ v')
    {start : Point} (hstart : start.inBoard b.width = true) :
    ∀ (ds : List (Int × Int)), (∀ d ∈ ds, d ∈ dirs) → ∀ (vis : List Point),
      b.unvisited vis ≤ n → ∃ r, connectedDirLoop rec start ds vis = Except.ok r := by
  intro ds
  induction ds with
  | nil => intro _ vis _; exact ⟨_, rfl⟩
  | cons d ds ih =>
    intro hds vis hvis
    have hds' : ∀ d' ∈ ds, d' ∈ dirs := fun d' hd' => hds d' (List.mem_cons_of_mem _ hd')
    simp only [connectedDirLoop]
    split
    · exact ih hds' vis hvis
    · next hnin =>
      have hnin' : start.shift d ∉ vis := by simpa [pointInVector] using hnin
      have hbox := shift_in_box hstart (hds d (List.mem_cons_self _ _))
      have hlt := b.unvisited_lt hnin' hbox.1 hbox.2
      obtain ⟨⟨r, v1⟩, hr⟩ := htotal (start.shift d) (vis ++ [start.shift d]) (by omega)
      rw [hr]
      cases r with
      | true => exact ⟨_, rfl⟩
      | false =>
        have hsub := hmono _ _ _ hr
        have := b.unvisited_mono hsub
        exact ih hds' v1 (by omega)

theorem Board.pointsAreConnectedAux_total {b : Board} (hL : b.Labelled) {ct : Int}
    {target : Point} (ht : b.getPointColor target = Except.ok ct) :
    ∀ (fuel : Nat) (start : Point) (vis : List Point), b.unvisited vis < fuel →
      ∃ r, b.pointsAreConnectedAux target fuel start vis = Except.ok r := by
  intro fuel
  induction fuel with
  | zero => intro start vis h; omega
  | succ fuel ih =>
    intro start vis h
    simp only [Board.pointsAreConnectedAux]
    split
    · exact ⟨_, rfl⟩
    · next hnb =>
      have hin : start.inBoard b.width = true := by simpa using hnb
      obtain ⟨cs, hs⟩ := hL start hin
      rw [hs, ht]
      simp only
      split
      · exact ⟨_, rfl⟩
      · split
        · exact ⟨_, rfl⟩
        · exact connectedDirLoop_total ih
            (fun s v v' hr => (Board.pointsAreConnectedAux_false ht fuel s v v' hr).1) hin dirs
            (fun _ hd => hd) vis (by omega)

/-- The search started with an empty visited list returns, and returns `true`
exactly when the target is reachable from the start through equally labelled
in-board cells. -/
theorem Board.pointsAreConnected_spec {b : Board} (hL : b.Labelled) {start target : Point}
    {ct : Int} (hs : start.inBoard b.width = true)
    (ht : b.getPointColor target = Except.ok ct) :
    ∃ r, b.pointsAreConnected start target = Except.ok r ∧
      (r = true ↔ b.getPointColor start = Except.ok ct ∧ b.Reach ct start target) := by
  obtain ⟨⟨r, vis'⟩, hr⟩ :=
    Board.pointsAreConnectedAux_total hL ht b.connectFuel start [] b.unvisited_nil
  refine ⟨r, by simp [Board.pointsAreConnected, hr], ?_⟩
  cases r with
  | true =>
    have := Board.pointsAreConnectedAux_true ht _ _ _ _ hr
    simp only [true_iff]
    exact ⟨this.1.2, this.2⟩
  | false =>
    simp only [Bool.false_eq_true, false_iff, not_and]
    intro hcs hreach
    obtain ⟨-, h2, h3⟩ := Board.pointsAreConnectedAux_false ht _ _ _ _ hr
    have hclosed : ∀ x, b.Reach ct start x →
        (x.inBoard b.width = true ∧ b.getPointColor x = Except.ok ct) →
        b.Settled ct target vis' x := by
      intro x hx
      induction hx with
      | refl => intro _; exact h2
      | tail hxy hyz ih =>
        intro _
        obtain ⟨hgy, -, d, hd, rfl⟩ := hyz
        exact h3 _ ((ih hgy hgy).2 d hd) (by simp)
    have hgt : target.inBoard b.width = true ∧ b.getPointColor target = Except.ok ct := by
      refine ⟨?_, ht⟩
      rcases Relation.ReflTransGen.cases_tail hreach with h | ⟨y, -, hy⟩
      · rw [h]; exact hs
      · exact hy.2.1.1
    exact (hclosed target hreach hgt hgt).1 rfl
theorem Board.reach_iff_path {b : Board} {start target : Point} {ct : Int}
    (hs : start.inBoard b.width = true) (ht : b.getPointColor target = Except.ok ct) :
    (b.getPointColor start = Except.ok ct ∧ b.Reach ct start target) ↔
      ∃ path, b.SameLabelPath start target path := by
  constructor
  · rintro ⟨hcs, hreach⟩
    obtain ⟨l, hchain, hlast⟩ := List.exists_chain_of_relationReflTransGen hreach
    refine ⟨start :: l, rfl, ?_, ?_, ?_⟩
    · rw [List.getLast?_eq_getLast _ (List.cons_ne_nil _ _), hlast]
    · exact List.Chain.imp
        (fun p q h => (orthAdjacent_iff p q).2 h.2.2) hchain
    · have hall : ∀ (l : List Point) (a : Point),
          (a.inBoard b.width = true ∧ b.getPointColor a = Except.ok ct) →
          List.Chain (b.Step ct) a l →
          ∀ p ∈ a :: l, p.inBoard b.width = true ∧ b.getPointColor p = Except.ok ct := by
        intro l
        induction l with
        | nil => intro a ha _ p hp; simp at hp; subst hp; exact ha
        | cons x l ih =>
          intro a ha hc p hp
          rw [List.chain_cons] at hc
          rcases List.mem_cons.1 hp with rfl | hp
          · exact ha
          · exact ih x hc.1.2.1 hc.2 p hp
      intro p hp
      rw [hcs]
      exact hall l start ⟨hs, hcs⟩ hchain p hp
  · rintro ⟨path, hhead, hlast, hchain, hall⟩
    cases path with
    | nil => simp at hhead
    | cons a l =>
      simp only [List.head?_cons, Option.some.injEq] at hhead
      subst hhead
      have hlast' : (a :: l).getLast (List.cons_ne_nil _ _) = target := by
        rw [List.getLast?_eq_getLast _ (List.cons_ne_nil _ _)] at hlast
        exact Option.some.inj hlast
      have htm : target ∈ a :: l := by rw [← hlast']; exact List.getLast_mem _
      have hcs : b.getPointColor a = Except.ok ct := by rw [← (hall target htm).2, ht]
      refine ⟨hcs, ?_⟩
      apply List.relationReflTransGen_of_exists_chain l _ hlast'
      have h2 := List.Chain'.iff_mem.1 hchain
      refine List.Chain.imp ?_ h2
      rintro p q ⟨hp, hq, hadj⟩
      exact ⟨⟨(hall p hp).1, by rw [(hall p hp).2, hcs]⟩,
        ⟨(hall q hq).1, by rw [(hall q hq).2, hcs]⟩, (orthAdjacent_iff p q).1 hadj⟩

/-- C6: on a board whose in-board cells all carry a label, `pointsAreConnected`
called on two in-board cells (the visited list starting empty) returns, and it
returns `true` exactly when some sequence of in-board cells leads from `start`
to `target` with consecutive cells orthogonally adjacent and every cell carrying
the label of `start`. -/
theorem pointsAreConnected_iff_path (b : Board) (start target : Point)
    (hL : b.Labelled) (hs : start.inBoard b.width = true)
    (ht : target.inBoard b.width = true) :
    ∃ r, b.pointsAreConnected start target = Except.ok r ∧
      (r = true ↔ ∃ path, b.SameLabelPath start target path) := by
  obtain ⟨ct, hct⟩ := hL target ht
  obtain ⟨r, hr, hiff⟩ := Board.pointsAreConnected_spec hL hs hct
  exact ⟨r, hr, hiff.trans (Board.reach_iff_path hs hct)⟩

/-! ## Queen lists and the validity check -/

theorem columnsFrom_append (k : Int) (a c : List Int) :
    columnsFrom k (a ++ c) = columnsFrom k a ++ columnsFrom (k + a.length) c := by
  induction a generalizing k with
  | nil => simp [columnsFrom]
  | cons y a ih =>
    have e : k + 1 + (a.length : Int) = k + ((y :: a).length : Int) := by
      simp only [List.length_cons]; push_cast; ring
    show (⟨k, y⟩ : Point) :: columnsFrom (k + 1) (a ++ c) =
      ⟨k, y⟩ :: (columnsFrom (k + 1) a ++ columnsFrom (k + ((y :: a).length : Int)) c)
    rw [ih, e]

theorem columnsFrom_length (k : Int) (ys : List Int) : (columnsFrom k ys).length = ys.length := by
  induction ys generalizing k with
  | nil => rfl
  | cons y ys ih => simp [columnsFrom, ih]

theorem columnsFrom_map_y (k : Int) (ys : List Int) :
    (columnsFrom k ys).map (fun q => q.y) = ys := by
  induction ys generalizing k with
  | nil => rfl
  | cons y ys ih => simp [columnsFrom, ih]

theorem mem_columnsFrom {k : Int} {ys : List Int} {q : Point} (h : q ∈ columnsFrom k ys) :
    (k ≤ q.x ∧ q.x < k + ys.length) ∧ q.y ∈ ys := by
  induction ys generalizing k with
  | nil => simp [columnsFrom] at h
  | cons y ys ih =>
    simp only [columnsFrom, List.mem_cons] at h
    rcases h with rfl | h
    · simp
    · have := ih h
      simp only [List.length_cons, Nat.cast_add, Nat.cast_one, List.mem_cons]
      exact ⟨by omega, Or.inr this.2⟩

theorem columnsFrom_getElem? (k : Int) (ys : List Int) (i : Nat) :
    (columnsFrom k ys)[i]? = (ys[i]?).map (fun y => (⟨k + i, y⟩ : Point)) := by
  induction ys generalizing k i with
  | nil => simp [columnsFrom]
  | cons y ys ih =>
    cases i with
    | zero => simp [columnsFrom]
    | succ i =>
      simp only [columnsFrom, List.getElem?_cons_succ, ih, Nat.cast_add, Nat.cast_one]
      congr 1; funext y; congr 1; ring

theorem columnsFrom_getLast? (k : Int) (ys : List Int) :
    (columnsFrom k ys).getLast? = (ys.getLast?).map (fun y => (⟨k + (ys.length - 1 : Nat), y⟩ : Point)) := by
  rw [List.getLast?_eq_getElem?, List.getLast?_eq_getElem?, columnsFrom_getElem?,
    columnsFrom_length]

theorem IncompleteBoard.queenClashes_spec (b : IncompleteBoard) (newQueen : Point)
    (checkColor : Bool) (qs : List Point)
    (hnew : ∃ c, b.getPointColor newQueen = Except.ok c)
    (hqs : ∀ q ∈ qs, ∃ c, b.getPointColor q = Except.ok c) :
    ∃ r, b.queenClashes newQueen checkColor qs = Except.ok r ∧
      (r = false ↔ ∀ q ∈ qs, newQueen.y ≠ q.y ∧
        (checkColor = true → b.getPointColor newQueen ≠ b.getPointColor q)) := by
  induction qs with
  | nil => exact ⟨false, rfl, by simp⟩
  | cons q qs ih =>
    obtain ⟨r, hr, hiff⟩ := ih (fun q' hq' => hqs q' (List.mem_cons_of_mem _ hq'))
    obtain ⟨c1, hc1⟩ := hnew
    obtain ⟨c2, hc2⟩ := hqs q (List.mem_cons_self _ _)
    simp only [IncompleteBoard.queenClashes]
    by_cases hy : newQueen.y = q.y
    · exact ⟨true, by simp [hy], by simp [hy]⟩
    · simp only [hy, if_false]
      cases checkColor with
      | false =>
        refine ⟨r, by simpa using hr, ?_⟩
        rw [hiff]; simp [hy]
      | true =>
        simp only [if_true, hc1, hc2]
        by_cases hc : c1 = c2
        · exact ⟨true, by simp [hc], by simp [hc1, hc2, hc]⟩
        · refine ⟨r, by simpa [hc] using hr, ?_⟩
          rw [hiff]; simp [hy, hc1, hc2, hc]

theorem IncompleteBoard.queenIsValid_spec (b : IncompleteBoard) (newQueen : Point)
    (checkColor : Bool) (hdepth : b.xDepth = (b.queens.length : Int))
    (hnew : ∃ c, b.getPointColor newQueen = Except.ok c)
    (hqs : ∀ q ∈ b.queens, ∃ c, b.getPointColor q = Except.ok c) :
    ∃ r, b.queenIsValid newQueen checkColor = Except.ok r ∧
      (r = true ↔
        (∀ q ∈ b.queens, newQueen.y ≠ q.y ∧
          (checkColor = true → b.getPointColor newQueen ≠ b.getPointColor q)) ∧
        ∀ last, b.queens.getLast? = some last →
          newQueen.y ≠ last.y - 1 ∧ newQueen.y ≠ last.y + 1) := by
  obtain ⟨r, hr, hiff⟩ := b.queenClashes_spec newQueen checkColor b.queens hnew hqs
  simp only [IncompleteBoard.queenIsValid, hr]
  cases r with
  | true =>
    refine ⟨false, rfl, ?_⟩
    simp only [Bool.false_eq_true, false_iff, not_and]
    intro h
    exact absurd (hiff.2 h) (by simp)
  | false =>
    have hall := hiff.1 rfl
    simp only
    by_cases hpos : b.xDepth > 0
    · simp only [hpos, if_true]
      have hlen : 0 < b.queens.length := by omega
      have hne : b.queens ≠ [] := List.ne_nil_of_length_pos hlen
      have hat : vecAt b.queens (b.xDepth - 1) = Except.ok (b.queens.getLast hne) := by
        rw [vecAt_eq_ok]
        refine ⟨by omega, ?_⟩
        have : (b.xDepth - 1).toNat = b.queens.length - 1 := by omega
        rw [this, ← List.getLast?_eq_getElem?, List.getLast?_eq_getLast _ hne]
      rw [hat]
      simp only
      have hl : b.queens.getLast? = some (b.queens.getLast hne) :=
        List.getLast?_eq_getLast _ hne
      by_cases hadj : newQueen.y = (b.queens.getLast hne).y - 1 ∨
          newQueen.y = (b.queens.getLast hne).y + 1
      · refine ⟨false, by simp [hadj], ?_⟩
        simp only [Bool.false_eq_true, false_iff, not_and]
        intro _ h
        have := h _ hl
        tauto
      · refine ⟨true, by simp [hadj], ?_⟩
        simp only [true_iff]
        refine ⟨hall, ?_⟩
        intro last hlast
        rw [hl] at hlast
        cases hlast
        tauto
    · simp only [hpos, if_false]
      refine ⟨true, rfl, ?_⟩
      simp only [true_iff]
      refine ⟨hall, ?_⟩
      intro last hlast
      have : b.queens = [] := List.eq_nil_of_length_eq_zero (by omega)
      rw [this] at hlast
      simp at hlast
theorem IncompleteBoard.removeQueen_addQueen (b : IncompleteBoard) (q : Point) :
    (b.addQueen q).removeQueen = b := by
  cases b
  simp [IncompleteBoard.addQueen, IncompleteBoard.removeQueen]

theorem IncompleteBoard.Holds.isComplete_iff {b : IncompleteBoard} {rs : List Int}
    (h : b.Holds rs) : b.isComplete = true ↔ (rs.length : Int) = b.width := by
  simp [IncompleteBoard.isComplete, h.2.2.1]

theorem IncompleteBoard.Holds.addQueen {b : IncompleteBoard} {rs : List Int} (h : b.Holds rs)
    (hlt : (rs.length : Int) < b.width) {y : Int} (hy : 0 ≤ y ∧ y < b.width) :
    (b.addQueen ⟨b.xDepth, y⟩).Holds (rs ++ [y]) := by
  obtain ⟨h1, h2, h3, h4, h5⟩ := h
  refine ⟨h1, ?_, ?_, ?_, ?_⟩
  · simp [IncompleteBoard.addQueen, h2, columnsFrom_append, columnsFrom, h3]
  · simp [IncompleteBoard.addQueen, h3]
  · simp only [IncompleteBoard.addQueen, List.length_append, List.length_singleton]
    push_cast; omega
  · intro y' hy'
    rcases List.mem_append.1 hy' with hy' | hy'
    · exact h5 y' hy'
    · simp at hy'; subst hy'; exact hy

theorem IncompleteBoard.Holds.queen_inBoard {b : IncompleteBoard} {rs : List Int}
    (h : b.Holds rs) {q : Point} (hq : q ∈ b.queens) : q.inBoard b.width = true := by
  obtain ⟨-, h2, -, h4, h5⟩ := h
  rw [h2] at hq
  have := mem_columnsFrom hq
  rw [inBoard_iff]
  exact ⟨by omega, h5 _ this.2⟩

theorem IncompleteBoard.Holds.queen_color {b : IncompleteBoard} {rs : List Int}
    (h : b.Holds rs) {q : Point} (hq : q ∈ b.queens) : ∃ c, b.getPointColor q = Except.ok c :=
  h.1.getPointColor (h.queen_inBoard hq)

theorem IncompleteBoard.Holds.new_inBoard {b : IncompleteBoard} {rs : List Int}
    (h : b.Holds rs) (hlt : (rs.length : Int) < b.width) {y : Int} (hy : 0 ≤ y ∧ y < b.width) :
    (⟨b.xDepth, y⟩ : Point).inBoard b.width = true := by
  rw [inBoard_iff, h.2.2.1]
  exact ⟨⟨Int.natCast_nonneg _, hlt⟩, hy⟩

/-- Under the state invariant, the validity check returns, and accepts the row `y`
for the next column exactly when `y` is a fresh row, carries (with `checkColor`) a
fresh label, and does not touch the row of the previous column. -/
theorem IncompleteBoard.Holds.queenIsValid {b : IncompleteBoard} {rs : List Int}
    (h : b.Holds rs) (hlt : (rs.length : Int) < b.width) {y : Int} (hy : 0 ≤ y ∧ y < b.width)
    (checkColor : Bool) :
    ∃ r, b.queenIsValid ⟨b.xDepth, y⟩ checkColor = Except.ok r ∧
      (r = true ↔ y ∉ rs ∧
        (checkColor = true → b.colorMap.getPointColor ⟨rs.length, y⟩ ∉
          (columnsFrom 0 rs).map b.colorMap.getPointColor) ∧
        ∀ last ∈ rs.getLast?, |y - last| ≠ 1) := by
  obtain ⟨r, hr, hiff⟩ := b.queenIsValid_spec ⟨b.xDepth, y⟩ checkColor
    (by rw [h.2.2.1, h.2.1, columnsFrom_length])
    (h.1.getPointColor (h.new_inBoard hlt hy)) (fun q hq => h.queen_color hq)
  refine ⟨r, hr, hiff.trans ?_⟩
  obtain ⟨-, h2, h3, -, -⟩ := h
  rw [h2, h3]
  simp only [IncompleteBoard.getPointColor]
  constructor
  · rintro ⟨ha, hb⟩
    refine ⟨?_, ?_, ?_⟩
    · intro hmem
      rw [← columnsFrom_map_y 0 rs] at hmem
      obtain ⟨q, hq, hqy⟩ := List.mem_map.1 hmem
      exact (ha q hq).1 hqy.symm
    · intro hc hmem
      obtain ⟨q, hq, hqc⟩ := List.mem_map.1 hmem
      exact (ha q hq).2 hc hqc.symm
    · intro last hlast
      rw [Option.mem_def] at hlast
      have := hb ⟨(0 : Int) + (rs.length - 1 : Nat), last⟩ (by
        rw [columnsFrom_getLast?, hlast]; rfl)
      simp only at this
      intro habs
      rcases abs_eq (by norm_num : (0 : Int) ≤ 1) |>.1 habs with h' | h' <;> omega
  · rintro ⟨ha, hb, hc⟩
    refine ⟨?_, ?_⟩
    · intro q hq
      refine ⟨?_, fun hcc heq => hb hcc (List.mem_map.2 ⟨q, hq, heq.symm⟩)⟩
      intro hyq
      apply ha
      rw [hyq]
      exact (mem_columnsFrom hq).2
    · intro last hlast
      rw [columnsFrom_getLast?] at hlast
      cases hl : rs.getLast? with
      | none => rw [hl] at hlast; simp at hlast
      | some l =>
        rw [hl] at hlast
        simp only [Option.map_some', Option.some.injEq] at hlast
        subst hlast
        have := hc l (by rw [hl]; rfl)
        simp only
        constructor <;> intro h' <;> apply this <;> rw [h'] <;> simp

theorem isPartial_snoc (cm : ColorMap) (w : Int) (checkColor : Bool) (rs : List Int) (y : Int) :
    IsPartial cm w checkColor (rs ++ [y]) ↔
      IsPartial cm w checkColor rs ∧ (0 ≤ y ∧ y < w) ∧ y ∉ rs ∧
        (checkColor = true → cm.getPointColor ⟨rs.length, y⟩ ∉
          (columnsFrom 0 rs).map cm.getPointColor) ∧
        ∀ last ∈ rs.getLast?, |y - last| ≠ 1 := by
  unfold IsPartial
  rw [columnsFrom_append, List.map_append, List.nodup_append, List.nodup_append,
    List.chain'_append]
  simp only [columnsFrom, zero_add, List.map_cons, List.map_nil, List.nodup_singleton,
    List.disjoint_singleton, List.mem_append, List.mem_singleton, List.chain'_singleton,
    List.head?_cons, Option.mem_def, Option.some.injEq, true_and, forall_eq]
  constructor
  · rintro ⟨h1, ⟨h2, h3⟩, h4, h5, h6⟩
    exact ⟨⟨fun y' hy' => h1 y' (Or.inl hy'), h2, fun hc => (h4 hc).1, h5⟩,
      h1 y (Or.inr rfl), h3, fun hc => (h4 hc).2, fun l hl => h6 l hl y rfl⟩
  · rintro ⟨⟨h1, h2, h3, h4⟩, h5, h6, h7, h8⟩
    refine ⟨?_, ⟨h2, h6⟩, fun hc => ⟨h3 hc, h7 hc⟩, h4, fun l hl y' hy' => hy' ▸ h8 l hl⟩
    rintro y' (hy' | rfl)
    · exact h1 y' hy'
    · exact h5

theorem IsPartial.of_append {cm : ColorMap} {w : Int} {checkColor : Bool} {rs ys : List Int}
    (h : IsPartial cm w checkColor (rs ++ ys)) : IsPartial cm w checkColor rs := by
  obtain ⟨h1, h2, h3, h4⟩ := h
  refine ⟨fun y hy => h1 y (List.mem_append_left _ hy), (List.nodup_append.1 h2).1, ?_,
    (List.chain'_append.1 h4).1⟩
  intro hc
  have := h3 hc
  rw [columnsFrom_append, List.map_append] at this
  exact (List.nodup_append.1 this).1

/-! ## The placement search -/

theorem mem_loopRange {n y : Int} : y ∈ loopRange n ↔ 0 ≤ y ∧ y < n := by
  simp only [loopRange, List.mem_map, List.mem_range]
  constructor
  · rintro ⟨k, hk, rfl⟩
    simp only [Int.ofNat_eq_coe]
    omega
  · intro h
    exact ⟨y.toNat, by omega, by simp only [Int.ofNat_eq_coe]; omega⟩

theorem IncompleteBoard.Holds.newQueenVector {b : IncompleteBoard} {rs : List Int}
    (h : b.Holds rs) (hlt : (rs.length : Int) < b.width) :
    ∀ ys : List Int, (∀ y ∈ ys, 0 ≤ y ∧ y < b.width) →
      ∃ l, b.newQueenVector ys = Except.ok l ∧
        ∀ q, q ∈ l ↔ ∃ y ∈ ys, q = ⟨b.xDepth, y⟩ ∧
          b.queenIsValid ⟨b.xDepth, y⟩ false = Except.ok true := by
  intro ys
  induction ys with
  | nil => intro _; exact ⟨[], rfl, by simp⟩
  | cons y ys ih =>
    intro hys
    obtain ⟨l, hl, hmem⟩ := ih (fun y' hy' => hys y' (List.mem_cons_of_mem _ hy'))
    obtain ⟨r, hr, -⟩ := h.queenIsValid hlt (hys y (List.mem_cons_self _ _)) false
    simp only [IncompleteBoard.newQueenVector, hr, hl]
    refine ⟨_, rfl, ?_⟩
    intro q
    cases r with
    | true =>
      simp only [if_true, List.mem_cons, hmem, exists_eq_or_imp, hr, and_true]
    | false =>
      simp only [Bool.false_eq_true, if_false, List.mem_cons, hmem, exists_eq_or_imp, hr]
      simp

theorem genQueensLoop_spec {G : Type} (rec : IncompleteBoard → G → M (IncompleteBoard × G))
    {b : IncompleteBoard} {rs : List Int} (h : b.Holds rs)
    (hp : IsPartial b.colorMap b.width false rs) (hlt : (rs.length : Int) < b.width)
    (hrec : ∀ (y : Int) (g : G), (b.addQueen ⟨b.xDepth, y⟩).Holds (rs ++ [y]) →
      IsPartial b.colorMap b.width false (rs ++ [y]) →
      ∃ b' g', rec (b.addQueen ⟨b.xDepth, y⟩) g = Except.ok (b', g') ∧
        (b.addQueen ⟨b.xDepth, y⟩).GenPost (rs ++ [y]) b') :
    ∀ (cs : List Point) (g : G),
      (∀ q ∈ cs, ∃ y, (0 ≤ y ∧ y < b.width) ∧ q = ⟨b.xDepth, y⟩ ∧
        b.queenIsValid ⟨b.xDepth, y⟩ false = Except.ok true) →
      ∃ b' g', genQueensLoop rec cs b g = Except.ok (b', g') ∧
        ((b' = b ∧ ∀ q ∈ cs, ¬ ∃ ys, IsPlacement b.colorMap b.width false (rs ++ q.y :: ys)) ∨
          (b'.isComplete = true ∧ b'.width = b.width ∧ b'.colorMap = b.colorMap ∧
            ∃ ys, b'.Holds (rs ++ ys) ∧ IsPartial b.colorMap b.width false (rs ++ ys))) := by
  intro cs
  induction cs with
  | nil => intro g _; exact ⟨b, g, rfl, Or.inl ⟨rfl, by simp⟩⟩
  | cons q cs ih =>
    intro g hcs
    obtain ⟨y, hy, rfl, hvalid⟩ := hcs q (List.mem_cons_self _ _)
    have hholds := h.addQueen hlt hy
    have hpart : IsPartial b.colorMap b.width false (rs ++ [y]) := by
      rw [isPartial_snoc]
      obtain ⟨r, hr, hiff⟩ := h.queenIsValid hlt hy false
      rw [hvalid] at hr
      cases hr
      have := hiff.1 rfl
      exact ⟨hp, hy, this.1, by simp, this.2.2⟩
    obtain ⟨b1, g1, hrun, hpost⟩ := hrec y g hholds hpart
    simp only [genQueensLoop, hrun]
    rcases hpost with ⟨rfl, hinc, hnone⟩ | ⟨hc, hw, hcm, ys, hh, hpp⟩
    · simp only [hinc, Bool.false_eq_true, if_false, IncompleteBoard.removeQueen_addQueen]
      obtain ⟨b', g', hrun', hpost'⟩ := ih g1 (fun q hq => hcs q (List.mem_cons_of_mem _ hq))
      refine ⟨b', g', hrun', ?_⟩
      rcases hpost' with ⟨rfl, hnone'⟩ | hdone
      · refine Or.inl ⟨rfl, ?_⟩
        intro q hq
        rcases List.mem_cons.1 hq with rfl | hq
        · rintro ⟨ys, hys⟩
          apply hnone
          refine ⟨ys, ?_⟩
          simpa [IncompleteBoard.addQueen] using hys
        · exact hnone' q hq
      · exact Or.inr hdone
    · simp only [hc, if_true]
      refine ⟨b1, g1, rfl, Or.inr ⟨hc, hw, hcm, y :: ys, ?_, ?_⟩⟩
      · simpa using hh
      · simpa [IncompleteBoard.addQueen] using hpp

/-- The placement search is total, sound and complete: from a state holding the
valid rows `rs` it returns; it ends either complete, holding a valid extension of
`rs`, or unchanged, and then no valid placement extends `rs`. -/
theorem IncompleteBoard.genRandomQueensAux_spec {G : Type} (R : RandomSource G) :
    ∀ (fuel : Nat) (b : IncompleteBoard) (rs : List Int) (g : G), b.Holds rs →
      IsPartial b.colorMap b.width false rs → (b.width - rs.length).toNat < fuel →
      ∃ b' g', b.genRandomQueensAux R fuel g = Except.ok (b', g') ∧ b.GenPost rs b' := by
  intro fuel
  induction fuel with
  | zero => intro b rs g _ _ hf; omega
  | succ fuel ih =>
    intro b rs g h hp hf
    simp only [IncompleteBoard.genRandomQueensAux]
    by_cases hc : b.isComplete = true
    · simp only [hc, if_true]
      exact ⟨b, g, rfl, Or.inr ⟨hc, rfl, rfl, [], by simpa using h, by simpa using hp⟩⟩
    · simp only [hc, Bool.false_eq_true, if_false]
      have hlt : (rs.length : Int) < b.width := by
        have := h.isComplete_iff
        have h4 := h.2.2.2.1
        rcases lt_or_eq_of_le h4 with h' | h'
        · exact h'
        · exact absurd (this.2 h') hc
      obtain ⟨l, hl, hmem⟩ := h.newQueenVector hlt (loopRange b.width)
        (fun y hy => mem_loopRange.1 hy)
      simp only [hl]
      have hperm := R.shuffle_perm g l
      obtain ⟨b', g', hrun, hpost⟩ := genQueensLoop_spec (genRandomQueensAux R fuel)
        h hp hlt
        (fun y g2 hh hpp => by
          have := ih (b.addQueen ⟨b.xDepth, y⟩) (rs ++ [y]) g2 hh
            (by simpa [IncompleteBoard.addQueen] using hpp)
            (by
              simp only [IncompleteBoard.addQueen, List.length_append, List.length_singleton]
              push_cast; omega)
          exact this)
        (R.shuffle g l).1 (R.shuffle g l).2
        (fun q hq => by
          obtain ⟨y, hy, rfl, hv⟩ := (hmem q).1 (hperm.subset hq)
          exact ⟨y, mem_loopRange.1 hy, rfl, hv⟩)
      refine ⟨b', g', hrun, ?_⟩
      rcases hpost with ⟨rfl, hnone⟩ | hdone
      · refine Or.inl ⟨rfl, by simpa using hc, ?_⟩
        rintro ⟨ys, hlen, hys⟩
        cases ys with
        | nil => simp at hlen; omega
        | cons y ys =>
          have hsn : IsPartial b'.colorMap b'.width false (rs ++ [y]) := by
            have : rs ++ y :: ys = (rs ++ [y]) ++ ys := by simp
            rw [this] at hys
            exact hys.of_append
          rw [isPartial_snoc] at hsn
          obtain ⟨r, hr, hiff⟩ := h.queenIsValid hlt hsn.2.1 false
          have hrt : r = true := hiff.2 ⟨hsn.2.2.1, by simp, hsn.2.2.2.2⟩
          subst hrt
          have hq : (⟨b'.xDepth, y⟩ : Point) ∈ l :=
            (hmem _).2 ⟨y, mem_loopRange.2 hsn.2.1, rfl, hr⟩
          exact hnone _ (hperm.symm.subset hq) ⟨ys, hlen, hys⟩
      · exact Or.inr hdone
theorem skeleton_isPlacement (cm : ColorMap) (n : Nat) (hn : 4 ≤ n) :
    IsPlacement cm n false (skeleton n) := by
  refine ⟨by simp [skeleton], ?_, ?_, by simp, ?_⟩
  · intro y hy
    simp only [skeleton, List.mem_map, List.mem_range] at hy
    obtain ⟨i, hi, rfl⟩ := hy
    simp only [skeletonRow]
    split <;> omega
  · apply List.Nodup.map_on _ (List.nodup_range n)
    intro i hi j hj hij
    simp only [List.mem_range] at hi hj
    simp only [skeletonRow] at hij
    split at hij <;> split at hij <;> omega
  · simp only [skeleton]
    rw [List.chain'_map]
    cases n with
    | zero => omega
    | succ m =>
      rw [List.chain'_range_succ]
      intro i hi
      simp only [skeletonRow]
      intro habs
      rcases abs_eq (by norm_num : (0 : Int) ≤ 1) |>.1 habs with h' | h' <;>
        (split at h' <;> split at h' <;> omega)

theorem IncompleteBoard.new_holds {width : Int} (hw : 0 ≤ width) :
    (IncompleteBoard.new width []).Holds [] := by
  refine ⟨⟨rfl, by simp [IncompleteBoard.new, ColorMap.fill]⟩, rfl, rfl, by simpa using hw,
    by simp⟩

theorem isPartial_nil (cm : ColorMap) (w : Int) (checkColor : Bool) :
    IsPartial cm w checkColor [] := by
  simp [IsPartial, columnsFrom]

/-- Whenever the placement search started on the empty board of any width ends
complete, it holds a complete valid placement, one queen per column. -/
theorem IncompleteBoard.genRandomQueens_result {G : Type} (R : RandomSource G) (width : Int)
    (g : G) {b' : IncompleteBoard} {g' : G}
    (hrun : (IncompleteBoard.new width []).genRandomQueens R g = Except.ok (b', g'))
    (hc : b'.isComplete = true) :
    b'.width = width ∧ b'.colorMap = (IncompleteBoard.new width []).colorMap ∧
      ∃ ys, b'.Holds ys ∧ IsPlacement (IncompleteBoard.new width []).colorMap width false ys := by
  rcases lt_or_le width 0 with hneg | hw
  · exfalso
    have hnil : loopRange width = [] := by
      simp only [loopRange]
      have : width.toNat = 0 := by omega
      rw [this]; rfl
    have hsh : (R.shuffle g ([] : List Point)).1 = [] := (R.shuffle_perm g []).eq_nil
    have hinc : (IncompleteBoard.new width []).isComplete = false := by
      simp [IncompleteBoard.isComplete, IncompleteBoard.new]; omega
    simp only [IncompleteBoard.genRandomQueens, IncompleteBoard.searchFuel,
      IncompleteBoard.genRandomQueensAux, hinc, Bool.false_eq_true, if_false] at hrun
    have hw' : (IncompleteBoard.new width []).width = width := rfl
    rw [hw', hnil] at hrun
    simp only [IncompleteBoard.newQueenVector, hsh, genQueensLoop, Except.ok.injEq,
      Prod.mk.injEq] at hrun
    rw [← hrun.1, hinc] at hc
    cases hc
  · obtain ⟨b2, g2, hrun2, hpost⟩ := IncompleteBoard.genRandomQueensAux_spec R
      (IncompleteBoard.new width []).searchFuel (IncompleteBoard.new width []) [] g
      (IncompleteBoard.new_holds hw) (isPartial_nil _ _ _)
      (by simp [IncompleteBoard.searchFuel, IncompleteBoard.new])
    rw [IncompleteBoard.genRandomQueens, hrun2] at hrun
    cases hrun
    rcases hpost with ⟨rfl, hinc, -⟩ | ⟨-, hw', hcm, ys, hh, hp⟩
    · rw [hinc] at hc; cases hc
    · refine ⟨hw', hcm, ys, by simpa using hh, ?_, by simpa using hp⟩
      have := (IncompleteBoard.Holds.isComplete_iff hh).1 hc
      rw [hw'] at this
      simpa using this
theorem chain'_getElem? {α : Type} {R : α → α → Prop} {l : List α} (h : List.Chain' R l)
    {i : Nat} {a c : α} (ha : l[i]? = some a) (hc : l[i + 1]? = some c) : R a c := by
  induction l generalizing i with
  | nil => simp at ha
  | cons x l ih =>
    cases i with
    | zero =>
      simp only [List.getElem?_cons_zero, Option.some.injEq] at ha
      simp only [zero_add, List.getElem?_cons_succ] at hc
      subst ha
      cases l with
      | nil => simp at hc
      | cons z l =>
        simp only [List.getElem?_cons_zero, Option.some.injEq] at hc
        subst hc
        exact (List.chain'_cons.1 h).1
    | succ i =>
      simp only [List.getElem?_cons_succ] at ha hc
      exact ih (List.chain'_cons'.1 h).2 ha hc

/-- For a width of at least 4 the placement search started on the empty board
returns a complete board holding `width` queens, whatever the shuffles return. -/
theorem IncompleteBoard.genRandomQueens_complete {G : Type} (R : RandomSource G) (g : G) (width : Int)
    (hw : 4 ≤ width) :
    ∃ b' g', (IncompleteBoard.new width []).genRandomQueens R g = Except.ok (b', g') ∧
      b'.isComplete = true ∧ (b'.queens.length : Int) = width := by
  obtain ⟨b', g', hrun, hpost⟩ := IncompleteBoard.genRandomQueensAux_spec R
    (IncompleteBoard.new width []).searchFuel (IncompleteBoard.new width []) [] g
    (IncompleteBoard.new_holds (by omega)) (isPartial_nil _ _ _)
    (by simp [IncompleteBoard.searchFuel, IncompleteBoard.new])
  refine ⟨b', g', hrun, ?_⟩
  rcases hpost with ⟨-, -, hnone⟩ | ⟨hc, hw', -, ys, hh, -⟩
  · exfalso
    apply hnone
    refine ⟨skeleton width.toNat, ?_⟩
    have h4 : 4 ≤ width.toNat := by omega
    have := skeleton_isPlacement (IncompleteBoard.new width []).colorMap width.toNat h4
    have hcast : ((width.toNat : Nat) : Int) = width := by omega
    rw [hcast] at this
    simpa [IncompleteBoard.new] using this
  · refine ⟨hc, ?_⟩
    have := (IncompleteBoard.Holds.isComplete_iff hh).1 hc
    rw [hh.2.1, columnsFrom_length]
    rw [hw'] at this
    simpa [IncompleteBoard.new] using this

/-! ## The uniqueness solver -/

/-- The completions of `b` that place the next queen on one of the rows `ys`. -/
theorem hasOneSolutionLoop_spec (rec : IncompleteBoard → Int → M (Bool × IncompleteBoard × Int))
    {b : IncompleteBoard} {rs : List Int} (h : b.Holds rs) (hlt : (rs.length : Int) < b.width)
    (k : Nat)
    (hrec : ∀ (y : Int) (m : Int), (0 ≤ y ∧ y < b.width) → 0 ≤ m → m ≤ 1 →
      ∃ r, rec (b.addQueen ⟨b.xDepth, y⟩) m = Except.ok (r, b.addQueen ⟨b.xDepth, y⟩,
        min (m + ((b.addQueen ⟨b.xDepth, y⟩).completions k).length) 2)) :
    ∀ (ys : List Int) (m : Int), (∀ y ∈ ys, 0 ≤ y ∧ y < b.width) → 0 ≤ m → m ≤ 1 →
      hasOneSolutionLoop rec ys b m = Except.ok
        (decide (min (m + ((ys.flatMap (fun y =>
          if b.queenIsValid ⟨b.xDepth, y⟩ true = Except.ok true then
            ((b.addQueen ⟨b.xDepth, y⟩).completions k).map (fun l => y :: l)
          else [])).length : Int)) 2 = 1), b,
         min (m + ((ys.flatMap (fun y =>
          if b.queenIsValid ⟨b.xDepth, y⟩ true = Except.ok true then
            ((b.addQueen ⟨b.xDepth, y⟩).completions k).map (fun l => y :: l)
          else [])).length : Int)) 2) := by
  intro ys
  induction ys with
  | nil =>
    intro m _ h0 h1
    have : min m 2 = m := by omega
    simp [hasOneSolutionLoop, this]
  | cons y ys ih =>
    intro m hys h0 h1
    have hy := hys y (List.mem_cons_self _ _)
    have hys' : ∀ y' ∈ ys, 0 ≤ y' ∧ y' < b.width :=
      fun y' hy' => hys y' (List.mem_cons_of_mem _ hy')
    obtain ⟨r, hr, -⟩ := h.queenIsValid hlt hy true
    simp only [hasOneSolutionLoop, hr, List.flatMap_cons, List.length_append]
    cases r with
    | false =>
      simp only [Except.ok.injEq, Bool.false_eq_true, if_false, List.length_nil,
        Nat.cast_zero, zero_add, reduceCtorEq]
      have := ih m hys' h0 h1
      simpa using this
    | true =>
      obtain ⟨r1, hr1⟩ := hrec y m hy h0 h1
      simp only [hr1, if_true, List.length_map, IncompleteBoard.removeQueen_addQueen]
      split
      · next hgt =>
        simp only [Except.ok.injEq, Prod.mk.injEq, true_and]
        push_cast
        constructor
        · symm; rw [decide_eq_false_iff_not]; omega
        · omega
      · next hle =>
        have hmin : min (m + (((b.addQueen ⟨b.xDepth, y⟩).completions k).length : Int)) 2 =
            m + (((b.addQueen ⟨b.xDepth, y⟩).completions k).length : Int) := by omega
        rw [hmin] at hle ⊢
        have := ih (m + (((b.addQueen ⟨b.xDepth, y⟩).completions k).length : Int)) hys'
          (by omega) (by omega)
        rw [this]
        push_cast
        simp only [add_assoc]

theorem IncompleteBoard.hasOneSolutionAux_spec :
    ∀ (fuel : Nat) (b : IncompleteBoard) (rs : List Int) (n : Int), b.Holds rs →
      (b.width - rs.length).toNat < fuel → 0 ≤ n → n ≤ 1 →
      ∃ r, b.hasOneSolutionAux fuel n = Except.ok
          (r, b, min (n + ((b.completions (b.width - rs.length).toNat).length : Int)) 2) ∧
        (r = true ↔ b.isComplete = true ∨
          min (n + ((b.completions (b.width - rs.length).toNat).length : Int)) 2 = 1) := by
  intro fuel
  induction fuel with
  | zero => intro b rs n _ hf; omega
  | succ fuel ih =>
    intro b rs n h hf h0 h1
    simp only [IncompleteBoard.hasOneSolutionAux]
    by_cases hc : b.isComplete = true
    · have hk : (b.width - rs.length).toNat = 0 := by
        have := h.isComplete_iff.1 hc
        omega
      simp only [hc, if_true, hk, IncompleteBoard.completions, List.length_singleton,
        Nat.cast_one, true_or, iff_true]
      refine ⟨true, ?_, rfl⟩
      have : min (n + 1) 2 = n + 1 := by omega
      rw [this]
    · have hlt : (rs.length : Int) < b.width := by
        have := h.isComplete_iff
        rcases lt_or_eq_of_le h.2.2.2.1 with h' | h'
        · exact h'
        · exact absurd (this.2 h') hc
      obtain ⟨k, hk⟩ : ∃ k, (b.width - rs.length).toNat = k + 1 := ⟨(b.width - rs.length).toNat - 1, by omega⟩
      have hloop := hasOneSolutionLoop_spec (IncompleteBoard.hasOneSolutionAux fuel)
        h hlt k
        (fun y m hy hm0 hm1 => by
          have hh := h.addQueen hlt hy
          have hk' : ((b.addQueen ⟨b.xDepth, y⟩).width - ((rs ++ [y]).length : Nat)).toNat = k := by
            simp only [IncompleteBoard.addQueen, List.length_append, List.length_singleton]
            push_cast; omega
          obtain ⟨r, hr, -⟩ := ih (b.addQueen ⟨b.xDepth, y⟩) (rs ++ [y]) m hh (by omega) hm0 hm1
          rw [hk'] at hr
          exact ⟨r, hr⟩)
        (loopRange b.width) n (fun y hy => mem_loopRange.1 hy) h0 h1
      simp only [hc, Bool.false_eq_true, if_false, hk, IncompleteBoard.completions, false_or]
      exact ⟨_, hloop, by simp⟩
theorem loopRange_nodup (n : Int) : (loopRange n).Nodup := by
  unfold loopRange
  apply List.Nodup.map _ (List.nodup_range _)
  intro a c hac
  exact Int.ofNat.inj hac

theorem IncompleteBoard.completions_nodup :
    ∀ (k : Nat) (b : IncompleteBoard), (b.completions k).Nodup := by
  intro k
  induction k with
  | zero => intro b; simp only [IncompleteBoard.completions]; split <;> simp
  | succ k ih =>
    intro b
    simp only [IncompleteBoard.completions]
    split
    · simp
    · rw [List.nodup_flatMap]
      constructor
      · intro y _
        split
        · exact (ih _).map (fun l l' hl => (List.cons.inj hl).2)
        · simp
      · apply (loopRange_nodup b.width).imp
        intro y y' hne
        simp only [Function.onFun]
        rw [List.disjoint_left]
        intro l hl hl'
        split at hl
        · split at hl'
          · obtain ⟨l1, -, rfl⟩ := List.mem_map.1 hl
            obtain ⟨l2, -, h2⟩ := List.mem_map.1 hl'
            exact hne (List.cons.inj h2).1.symm
          · simp at hl'
        · simp at hl

theorem IncompleteBoard.mem_completions :
    ∀ (k : Nat) (b : IncompleteBoard) (rs : List Int), b.Holds rs →
      IsPartial b.colorMap b.width true rs → (b.width - rs.length).toNat ≤ k →
      ∀ ys, ys ∈ b.completions k ↔ IsPlacement b.colorMap b.width true (rs ++ ys) := by
  have hdone : ∀ (b : IncompleteBoard) (rs : List Int), b.Holds rs →
      IsPartial b.colorMap b.width true rs → (rs.length : Int) = b.width →
      ∀ ys, ys ∈ [([] : List Int)] ↔ IsPlacement b.colorMap b.width true (rs ++ ys) := by
    intro b rs h hp hlen ys
    simp only [List.mem_singleton]
    constructor
    · rintro rfl; exact ⟨by simpa using hlen, by simpa using hp⟩
    · rintro ⟨hl, -⟩
      simp only [List.length_append, Nat.cast_add] at hl
      exact List.eq_nil_of_length_eq_zero (by omega)
  intro k
  induction k with
  | zero =>
    intro b rs h hp hk ys
    have hlen : (rs.length : Int) = b.width := by
      have := h.2.2.2.1
      omega
    simp only [IncompleteBoard.completions, h.isComplete_iff.2 hlen, if_true]
    exact hdone b rs h hp hlen ys
  | succ k ih =>
    intro b rs h hp hk ys
    simp only [IncompleteBoard.completions]
    by_cases hc : b.isComplete = true
    · simp only [hc, if_true]
      exact hdone b rs h hp (h.isComplete_iff.1 hc) ys
    · have hlt : (rs.length : Int) < b.width := by
        rcases lt_or_eq_of_le h.2.2.2.1 with h' | h'
        · exact h'
        · exact absurd (h.isComplete_iff.2 h') hc
      simp only [hc, Bool.false_eq_true, if_false, List.mem_flatMap]
      have hstep : ∀ y, (0 ≤ y ∧ y < b.width) →
          (b.queenIsValid ⟨b.xDepth, y⟩ true = Except.ok true ↔
            IsPartial b.colorMap b.width true (rs ++ [y])) := by
        intro y hy
        obtain ⟨r, hr, hiff⟩ := h.queenIsValid hlt hy true
        rw [isPartial_snoc, hr]
        constructor
        · intro hrt
          have := hiff.1 (Except.ok.inj hrt)
          exact ⟨hp, hy, this⟩
        · intro hs
          rw [hiff.2 hs.2.2]
      have hih : ∀ y, (0 ≤ y ∧ y < b.width) →
          IsPartial b.colorMap b.width true (rs ++ [y]) →
          ∀ ys', ys' ∈ (b.addQueen ⟨b.xDepth, y⟩).completions k ↔
            IsPlacement b.colorMap b.width true (rs ++ y :: ys') := by
        intro y hy hpy ys'
        have := ih (b.addQueen ⟨b.xDepth, y⟩) (rs ++ [y]) (h.addQueen hlt hy)
          (by simpa [IncompleteBoard.addQueen] using hpy)
          (by
            simp only [IncompleteBoard.addQueen, List.length_append, List.length_singleton]
            push_cast; omega) ys'
        simpa [IncompleteBoard.addQueen] using this
      constructor
      · rintro ⟨y, hy, hmem⟩
        have hy' := mem_loopRange.1 hy
        split at hmem
        · next hv =>
          obtain ⟨ys', hys', rfl⟩ := List.mem_map.1 hmem
          exact (hih y hy' ((hstep y hy').1 hv) ys').1 hys'
        · simp at hmem
      · intro hpl
        cases ys with
        | nil =>
          exfalso
          have := hpl.1
          simp at this
          omega
        | cons y ys' =>
          have hsn : IsPartial b.colorMap b.width true (rs ++ [y]) := by
            have : rs ++ y :: ys' = (rs ++ [y]) ++ ys' := by simp
            rw [this] at hpl
            exact hpl.2.of_append
          have hy' : 0 ≤ y ∧ y < b.width := ((isPartial_snoc _ _ _ _ _).1 hsn).2.1
          refine ⟨y, mem_loopRange.2 hy', ?_⟩
          rw [if_pos ((hstep y hy').2 hsn)]
          exact List.mem_map.2 ⟨ys', (hih y hy' hsn ys').2 hpl, rfl⟩

theorem length_eq_one_iff_existsUnique {α : Type} {l : List α} (hnd : l.Nodup) :
    l.length = 1 ↔ ∃! x, x ∈ l := by
  constructor
  · intro h
    obtain ⟨a, rfl⟩ := List.length_eq_one.1 h
    exact ⟨a, by simp, fun y hy => by simpa using hy⟩
  · rintro ⟨a, ha, huniq⟩
    cases l with
    | nil => simp at ha
    | cons x l =>
      cases l with
      | nil => rfl
      | cons z l =>
        exfalso
        have hx := huniq x (by simp)
        have hz := huniq z (by simp)
        rw [List.nodup_cons] at hnd
        apply hnd.1
        rw [hx, ← hz]; simp

/-- The solver started on a board without queens returns, and returns `true`
exactly when the enumeration of the complete valid placements has one entry. -/
theorem IncompleteBoard.hasOneSolution_spec (width : Int) (cm : ColorMap) (hw : 0 ≤ width)
    (hcm : cm.Square width) :
    ∃ r, (IncompleteBoard.mk width cm [] 0).hasOneSolution = Except.ok r ∧
      (r = true ↔ ∃! ys, IsPlacement cm width true ys) := by
  have hh : (IncompleteBoard.mk width cm [] 0).Holds [] :=
    ⟨hcm, rfl, rfl, by simpa using hw, by simp⟩
  obtain ⟨r, hr, hiff⟩ := IncompleteBoard.hasOneSolutionAux_spec
    (IncompleteBoard.mk width cm [] 0).searchFuel _ [] 0 hh
    (by simp [IncompleteBoard.searchFuel]) (le_refl _) (by norm_num)
  refine ⟨r, by simp [IncompleteBoard.hasOneSolution, hr], ?_⟩
  rw [hiff]
  have hk : ((IncompleteBoard.mk width cm [] 0).width - (([] : List Int).length : Int)).toNat =
      width.toNat := by simp
  have hmem := IncompleteBoard.mem_completions width.toNat (IncompleteBoard.mk width cm [] 0) []
    hh (isPartial_nil _ _ _) (by rw [hk])
  have hnd := IncompleteBoard.completions_nodup width.toNat (IncompleteBoard.mk width cm [] 0)
  rw [hk]
  have hcongr : (∃! ys, IsPlacement cm width true ys) ↔
      ∃! ys, ys ∈ (IncompleteBoard.mk width cm [] 0).completions width.toNat :=
    existsUnique_congr (fun ys => by simpa using (hmem ys).symm)
  rw [hcongr, ← length_eq_one_iff_existsUnique hnd]
  constructor
  · rintro (hc | hmin)
    · have h0 : 0 = width := by
        simpa [IncompleteBoard.isComplete] using hc
      subst h0
      simp [IncompleteBoard.completions, IncompleteBoard.isComplete]
    · omega
  · intro hl
    right
    rw [hl]; simp

/-! ## Placements by index -/

theorem nodup_iff_getElem? {α : Type} (l : List α) :
    l.Nodup ↔ ∀ (i j : Nat) (a c : α), l[i]? = some a → l[j]? = some c → i ≠ j → a ≠ c := by
  constructor
  · intro hnd i j a c hi hj hij hac
    subst hac
    have hi_lt : i < l.length := by
      by_contra hge
      rw [List.getElem?_eq_none (by omega)] at hi; cases hi
    have hj_lt : j < l.length := by
      by_contra hge
      rw [List.getElem?_eq_none (by omega)] at hj; cases hj
    rw [List.getElem?_eq_getElem hi_lt] at hi
    rw [List.getElem?_eq_getElem hj_lt] at hj
    exact hij ((List.Nodup.getElem_inj_iff hnd).1
      ((Option.some.inj hi).trans (Option.some.inj hj).symm))
  · intro h
    rw [List.nodup_iff_getElem?_ne_getElem?]
    intro i j hij hj heq
    have hi_lt : i < l.length := by omega
    have h1 : l[i]? = some l[i] := List.getElem?_eq_getElem hi_lt
    have h2 : l[j]? = some l[j] := List.getElem?_eq_getElem hj
    apply h i j _ _ h1 h2 (by omega)
    rw [h1, h2] at heq
    exact Option.some.inj heq

theorem chain'_iff_getElem? {α : Type} (R : α → α → Prop) (l : List α) :
    List.Chain' R l ↔ ∀ (i : Nat) (a c : α), l[i]? = some a → l[i + 1]? = some c → R a c := by
  constructor
  · intro h i a c ha hc
    exact chain'_getElem? h ha hc
  · intro h
    induction l with
    | nil => exact List.chain'_nil
    | cons x l ih =>
      cases l with
      | nil => exact List.chain'_singleton x
      | cons z l =>
        rw [List.chain'_cons]
        refine ⟨h 0 x z rfl (by simp), ih ?_⟩
        intro i a c ha hc
        exact h (i + 1) a c (by simpa using ha) (by simpa using hc)

theorem isPlacement_iff (cm : ColorMap) (width : Int) (ys : List Int) :
    IsPlacement cm width true ys ↔ IsValidPlacement cm width ys := by
  unfold IsPlacement IsPartial IsValidPlacement
  rw [nodup_iff_getElem? ys, nodup_iff_getElem? ((columnsFrom 0 ys).map cm.getPointColor),
    chain'_iff_getElem?]
  have hlab : ∀ (i : Nat) (c : M Int),
      ((columnsFrom 0 ys).map cm.getPointColor)[i]? = some c ↔
        ∃ y, ys[i]? = some y ∧ c = cm.getPointColor ⟨i, y⟩ := by
    intro i c
    rw [List.getElem?_map, columnsFrom_getElem?]
    cases ys[i]? with
    | none => simp
    | some y =>
      simp only [Option.map_some', zero_add, Option.some.injEq, exists_eq_left']
      exact eq_comm
  constructor
  · rintro ⟨h1, h2, h3, h4, h5⟩
    refine ⟨h1, fun i y hy => h2 y (List.getElem?_mem hy), h3, ?_, h5⟩
    intro i j y y' hi hj hij
    exact h4 rfl i j _ _ ((hlab i _).2 ⟨y, hi, rfl⟩) ((hlab j _).2 ⟨y', hj, rfl⟩) hij
  · rintro ⟨h1, h2, h3, h4, h5⟩
    refine ⟨h1, ?_, h3, ?_, h5⟩
    · intro y hy
      obtain ⟨i, hi⟩ := List.getElem?_of_mem hy
      exact h2 i y hi
    · intro _ i j a c hi hj hij
      obtain ⟨y, hy, rfl⟩ := (hlab i a).1 hi
      obtain ⟨y', hy', rfl⟩ := (hlab j c).1 hj
      exact h4 i j y y' hy hy' hij

/-! ## Claims on the searches -/

/-- C3: for every width of at least 4 and every outcome of the shuffles,
`genRandomQueens` started on the empty board of that width returns with the
board complete (`isComplete()` true) and exactly `width` queens placed. -/
theorem genRandomQueens_completes {G : Type} (R : RandomSource G) (g : G) (width : Int)
    (hw : 4 ≤ width) :
    ∃ b' g', (IncompleteBoard.new width []).genRandomQueens R g = Except.ok (b', g') ∧
      b'.isComplete = true ∧ (b'.queens.length : Int) = width :=
  IncompleteBoard.genRandomQueens_complete R g width hw

theorem genRandomQueens_completes_witness :
    (4 : Int) ≤ 4 ∧
    ∃ b' g', (IncompleteBoard.new 4 []).genRandomQueens identitySource () = Except.ok (b', g') ∧
      b'.isComplete = true ∧ (b'.queens.length : Int) = 4 :=
  ⟨by decide, genRandomQueens_completes identitySource () 4 (by decide)⟩

/-- C4: for every width and every outcome of the shuffles, whenever
`genRandomQueens` started on the empty board ends complete, the queen list `q`
has `width` entries, `q[i].x = i` and `0 ≤ q[i].y < width` for every `i`, the rows
are pairwise distinct, and the rows of consecutive columns never differ by exactly
one; in particular for width 4 they are never (1,2) or (2,1). -/
theorem genRandomQueens_valid {G : Type} (R : RandomSource G) (g : G) (width : Int)
    (b' : IncompleteBoard) (g' : G)
    (hrun : (IncompleteBoard.new width []).genRandomQueens R g = Except.ok (b', g'))
    (hc : b'.isComplete = true) :
    (b'.queens.length : Int) = width ∧
    (∀ (i : Nat) (q : Point), b'.queens[i]? = some q →
      q.x = (i : Int) ∧ 0 ≤ q.y ∧ q.y < width) ∧
    (∀ (i j : Nat) (q q' : Point), b'.queens[i]? = some q → b'.queens[j]? = some q' →
      i ≠ j → q.y ≠ q'.y) ∧
    (∀ (i : Nat) (q q' : Point), b'.queens[i]? = some q → b'.queens[i + 1]? = some q' →
      |q'.y - q.y| ≠ 1) ∧
    (width = 4 → ∀ (i : Nat) (q q' : Point), b'.queens[i]? = some q →
      b'.queens[i + 1]? = some q' → ¬ (q.y = 1 ∧ q'.y = 2) ∧ ¬ (q.y = 2 ∧ q'.y = 1)) := by
  obtain ⟨hw', -, ys, hh, hlen, hrange, hnd, -, hchain⟩ :=
    IncompleteBoard.genRandomQueens_result R width g hrun hc
  have hq : b'.queens = columnsFrom 0 ys := hh.2.1
  have hget : ∀ (i : Nat) (q : Point), b'.queens[i]? = some q →
      ys[i]? = some q.y ∧ q.x = (i : Int) := by
    intro i q hi
    rw [hq, columnsFrom_getElem?] at hi
    cases hy : ys[i]? with
    | none => rw [hy] at hi; simp at hi
    | some y =>
      rw [hy] at hi
      simp only [Option.map_some', Option.some.injEq] at hi
      subst hi
      simp
  have hadj : ∀ (i : Nat) (q q' : Point), b'.queens[i]? = some q →
      b'.queens[i + 1]? = some q' → |q'.y - q.y| ≠ 1 := by
    intro i q q' hi hi'
    exact chain'_getElem? hchain (hget i q hi).1 (hget (i + 1) q' hi').1
  refine ⟨by rw [hq, columnsFrom_length]; exact hlen, ?_, ?_, hadj, ?_⟩
  · intro i q hi
    obtain ⟨h1, h2⟩ := hget i q hi
    exact ⟨h2, hrange q.y (List.getElem?_mem h1)⟩
  · intro i j q q' hi hj hij heq
    obtain ⟨h1, -⟩ := hget i q hi
    obtain ⟨h2, -⟩ := hget j q' hj
    rw [heq] at h1
    have hi_lt : i < ys.length := by
      by_contra hge
      rw [List.getElem?_eq_none (by omega)] at h1; cases h1
    have hj_lt : j < ys.length := by
      by_contra hge
      rw [List.getElem?_eq_none (by omega)] at h2; cases h2
    rw [List.getElem?_eq_getElem hi_lt] at h1
    rw [List.getElem?_eq_getElem hj_lt] at h2
    have := (List.Nodup.getElem_inj_iff hnd).1 ((Option.some.inj h1).trans (Option.some.inj h2).symm)
    exact hij this
  · intro _ i q q' hi hi'
    have := hadj i q q' hi hi'
    constructor
    · rintro ⟨h1, h2⟩; rw [h1, h2] at this; norm_num at this
    · rintro ⟨h1, h2⟩; rw [h1, h2] at this; norm_num at this

theorem genRandomQueens_valid_witness :
    (IncompleteBoard.new 4 []).genRandomQueens identitySource () =
      Except.ok (⟨4, (ColorMap.mk 4 []).fill (-1), [⟨0, 1⟩, ⟨1, 3⟩, ⟨2, 0⟩, ⟨3, 2⟩], 4⟩, ()) ∧
    (([⟨0, 1⟩, ⟨1, 3⟩, ⟨2, 0⟩, ⟨3, 2⟩] : List Point).length : Int) = 4 := by
  have hrun : (IncompleteBoard.new 4 []).genRandomQueens identitySource () =
      Except.ok (⟨4, (ColorMap.mk 4 []).fill (-1), [⟨0, 1⟩, ⟨1, 3⟩, ⟨2, 0⟩, ⟨3, 2⟩], 4⟩, ()) := by
    decide
  exact ⟨hrun, (genRandomQueens_valid identitySource () 4 _ _ hrun (by decide)).1⟩

/-- C2: for every width `≥ 0` and every grid of `width*width` labels,
`hasOneSolution()` started on an `IncompleteBoard` with no queens placed returns,
and returns `true` if and only if there is exactly one complete valid placement
(rows `y_0 .. y_{width-1}` inside the board, pairwise distinct rows, pairwise
distinct cell labels, rows of consecutive columns not differing by one). -/
theorem hasOneSolution_iff_unique (width : Int) (cm : ColorMap) (hw : 0 ≤ width)
    (hcm : cm.Square width) :
    ∃ r, (IncompleteBoard.mk width cm [] 0).hasOneSolution = Except.ok r ∧
      (r = true ↔ ∃! ys, IsValidPlacement cm width ys) := by
  obtain ⟨r, hr, hiff⟩ := IncompleteBoard.hasOneSolution_spec width cm hw hcm
  exact ⟨r, hr, hiff.trans (existsUnique_congr (fun ys => isPlacement_iff cm width ys))⟩

theorem hasOneSolution_iff_unique_witness :
    (0 : Int) ≤ 4 ∧ sampleBoard.colorMap.Square 4 ∧
    ∃ r, (IncompleteBoard.mk 4 sampleBoard.colorMap [] 0).hasOneSolution = Except.ok r ∧
      (r = true ↔ ∃! ys, IsValidPlacement sampleBoard.colorMap 4 ys) :=
  ⟨by decide, by decide,
    hasOneSolution_iff_unique 4 sampleBoard.colorMap (by decide) (by decide)⟩

theorem pointsAreConnected_iff_path_witness :
    sampleBoard.Labelled ∧ (⟨0, 0⟩ : Point).inBoard sampleBoard.width = true ∧
    (⟨3, 3⟩ : Point).inBoard sampleBoard.width = true ∧
    ∃ r, sampleBoard.pointsAreConnected ⟨0, 0⟩ ⟨3, 3⟩ = Except.ok r ∧
      (r = true ↔ ∃ path, sampleBoard.SameLabelPath ⟨0, 0⟩ ⟨3, 3⟩ path) :=
  ⟨Board.labelled_of_square (by decide), by decide, by decide,
    pointsAreConnected_iff_path sampleBoard ⟨0, 0⟩ ⟨3, 3⟩
      (Board.labelled_of_square (by decide)) (by decide) (by decide)⟩

/-! ## Colour spreading: what a returned call guarantees -/

theorem GameGenerator.spreadDirLoop_post (gen : GameGenerator) (uninit : Point) (e : Int)
    (b : Board) {p : Point} {pColor : Int} (hp : p ∈ scanPoints gen.gameSize)
    (hpc : b.getPointColor p = Except.ok pColor) (hne : pColor ≠ e) :
    ∀ (ds : List (Int × Int)), (∀ d ∈ ds, d ∈ dirs) →
      ∀ (points points' : List ColoredPoint) (b' : Board),
      (∀ cp ∈ points, gen.Candidate uninit b e cp) →
      gen.spreadDirLoop uninit e p pColor ds points b = Except.ok (points', b') →
      b' = b ∧ ∀ cp ∈ points', gen.Candidate uninit b e cp := by
  intro ds
  induction ds with
  | nil =>
    intro _ points points' b' hpts h
    simp only [GameGenerator.spreadDirLoop, Except.ok.injEq, Prod.mk.injEq] at h
    obtain ⟨rfl, rfl⟩ := h
    exact ⟨rfl, hpts⟩
  | cons d ds ih =>
    intro hds points points' b' hpts h
    have hds' : ∀ d' ∈ ds, d' ∈ dirs := fun d' hd' => hds d' (List.mem_cons_of_mem _ hd')
    simp only [GameGenerator.spreadDirLoop] at h
    split at h
    · next hin =>
      split at h
      · cases h
      · next adjColor hadj =>
        split at h
        · next hexc =>
          subst hexc
          split at h
          · cases h
          · next breaks board1 hcc =>
            have hb1 : board1 = b := Board.colorChangeBreaksContinuity_board hcc
            subst hb1
            split at h
            · next hcond =>
              refine ih hds' _ points' b' ?_ h
              intro cp hcp
              rcases List.mem_append.1 hcp with hcp | hcp
              · exact hpts cp hcp
              · simp only [List.mem_singleton] at hcp
                subst hcp
                simp only [Bool.and_eq_true, Bool.not_eq_true', Bool.and_eq_false_imp] at hcond
                refine ⟨hin, hadj, hne, ⟨p, hp, hpc, d, hds d (List.mem_cons_self _ _), rfl⟩,
                  hcond.2, breaks, hcc, ?_⟩
                intro hcb
                by_contra hbr
                have hbt : breaks = true := by simpa using hbr
                have := hcond.1 hbt
                rw [hcb] at this
                cases this
            · exact ih hds' _ points' b' hpts h
        · exact ih hds' _ points' b' hpts h
    · exact ih hds' _ points' b' hpts h

theorem GameGenerator.spreadPointLoop_post (gen : GameGenerator) (uninit : Point) (e : Int)
    (b : Board) :
    ∀ (ps : List Point), (∀ p ∈ ps, p ∈ scanPoints gen.gameSize) →
      ∀ (points points' : List ColoredPoint) (b' : Board),
      (∀ cp ∈ points, gen.Candidate uninit b e cp) →
      gen.spreadPointLoop uninit e ps points b = Except.ok (points', b') →
      b' = b ∧ ∀ cp ∈ points', gen.Candidate uninit b e cp := by
  intro ps
  induction ps with
  | nil =>
    intro _ points points' b' hpts h
    simp only [GameGenerator.spreadPointLoop, Except.ok.injEq, Prod.mk.injEq] at h
    obtain ⟨rfl, rfl⟩ := h
    exact ⟨rfl, hpts⟩
  | cons p ps ih =>
    intro hps points points' b' hpts h
    have hps' : ∀ p' ∈ ps, p' ∈ scanPoints gen.gameSize :=
      fun p' hp' => hps p' (List.mem_cons_of_mem _ hp')
    simp only [GameGenerator.spreadPointLoop] at h
    split at h
    · cases h
    · next pColor hpc =>
      split at h
      · next hne =>
        split at h
        · cases h
        · next points1 board1 hdir =>
          obtain ⟨rfl, hpts1⟩ := gen.spreadDirLoop_post uninit e b
            (hps p (List.mem_cons_self _ _)) hpc hne dirs (fun _ hd => hd) points points1
            board1 hpts hdir
          exact ih hps' points1 points' b' hpts1 h
      · exact ih hps' points points' b' hpts h

theorem GameGenerator.getPossibleColorSpreads_post (gen : GameGenerator) (uninit : Point)
    (b : Board) (e : Int) {points : List ColoredPoint} {b' : Board}
    (h : gen.getPossibleColorSpreads uninit b e = Except.ok (points, b')) :
    b' = b ∧ ∀ cp ∈ points, gen.Candidate uninit b e cp :=
  gen.spreadPointLoop_post uninit e b (scanPoints gen.gameSize) (fun _ hp => hp) [] points b'
    (by simp) h

theorem GameGenerator.trySpreads_post :
    ∀ (cps : List ColoredPoint) (b b' : Board) (r : Bool),
      GameGenerator.trySpreads cps b = Except.ok (r, b') →
      (r = false ∧ b' = b) ∨
        (r = true ∧ ∃ cp ∈ cps, b.setPointColor cp.p cp.color = Except.ok b' ∧
          GameGenerator.isValidGame b' = Except.ok true) := by
  intro cps
  induction cps with
  | nil =>
    intro b b' r h
    simp only [GameGenerator.trySpreads, Except.ok.injEq, Prod.mk.injEq] at h
    exact Or.inl ⟨h.1.symm, h.2.symm⟩
  | cons cp cps ih =>
    intro b b' r h
    simp only [GameGenerator.trySpreads] at h
    split at h
    · cases h
    · next replaced hget =>
      split at h
      · cases h
      · next board1 hset =>
        split at h
        · cases h
        · next hvalid =>
          simp only [Except.ok.injEq, Prod.mk.injEq] at h
          obtain ⟨rfl, rfl⟩ := h
          exact Or.inr ⟨rfl, cp, List.mem_cons_self _ _, hset, hvalid⟩
        · split at h
          · cases h
          · next board2 hback =>
            have := Board.setPointColor_restore hget hset
            rw [this] at hback
            cases hback
            rcases ih b b' r h with hf | ⟨ht, cp', hcp', hrest⟩
            · exact Or.inl hf
            · exact Or.inr ⟨ht, cp', List.mem_cons_of_mem _ hcp', hrest⟩

/-- Every returned call of `doOneColorSpread` either reports `false` and leaves
the board as it was, or reports `true` after recolouring one candidate cell and
checking that the recoloured board has exactly one solution. -/
theorem GameGenerator.doOneColorSpread_post {G : Type} (R : RandomSource G)
    (gen : GameGenerator) (uninit : Point) (b : Board) (e : Int) (g : G) {r : Bool}
    {b' : Board} {g' : G}
    (h : gen.doOneColorSpread R uninit b e g = Except.ok (r, b', g')) :
    (r = false ∧ b' = b) ∨
      (r = true ∧ ∃ cp, gen.Candidate uninit b e cp ∧
        b.setPointColor cp.p cp.color = Except.ok b' ∧
        GameGenerator.isValidGame b' = Except.ok true) := by
  simp only [GameGenerator.doOneColorSpread] at h
  split at h
  · cases h
  · next points board1 hposs =>
    obtain ⟨rfl, hcand⟩ := gen.getPossibleColorSpreads_post uninit b e hposs
    split at h
    · cases h
    · next r2 board2 htry =>
      simp only [Except.ok.injEq, Prod.mk.injEq] at h
      obtain ⟨rfl, rfl, rfl⟩ := h
      rcases GameGenerator.trySpreads_post _ _ _ _ htry with hf | ⟨ht, cp, hcp, hrest⟩
      · exact Or.inl hf
      · exact Or.inr ⟨ht, cp, hcand cp ((R.shuffle_perm g points).subset hcp), hrest⟩

/-! ## Continuity -/

theorem Board.reach_target_good {b : Board} {c : Int} {p q : Point} (h : b.Reach c p q)
    (hp : p.inBoard b.width = true ∧ b.getPointColor p = Except.ok c) :
    q.inBoard b.width = true ∧ b.getPointColor q = Except.ok c := by
  rcases Relation.ReflTransGen.cases_tail h with h' | ⟨y, -, hy⟩
  · rw [h']; exact hp
  · exact hy.2.1

theorem Board.Connected.covered {b : Board} (h : b.Connected) : b.Covered := by
  intro p hp
  obtain ⟨c, q, hc, hq, hr⟩ := h p hp
  exact ⟨c, q, hc, hq, (Board.reach_target_good hr ⟨hp, hc⟩).1⟩

theorem Board.Covered.labelled {b : Board} (h : b.Covered) : b.Labelled := by
  intro p hp
  obtain ⟨c, -, hc, -, -⟩ := h p hp
  exact ⟨c, hc⟩

theorem Board.queenOf_mem {b : Board} {c : Int} {q : Point} (h : b.queenOf c = some q) :
    q ∈ b.queens := by
  unfold Board.queenOf at h
  split at h
  · exact List.getElem?_mem h
  · cases h

theorem Board.pointConnectsToQueen_eq {b : Board} (uninit : Point) {p q : Point} {c : Int}
    (hc : b.getPointColor p = Except.ok c) (hq : b.queenOf c = some q) :
    b.pointConnectsToQueen uninit p = b.pointsAreConnected p q := by
  unfold Board.queenOf at hq
  split at hq
  · next hlt =>
    have hat : vecAt b.queens ((b.queenColors.indexOf c : Nat) : Int) = Except.ok q := by
      rw [vecAt_eq_ok]
      exact ⟨Int.natCast_nonneg _, by simpa using hq⟩
    simp only [Board.pointConnectsToQueen, hc, hlt, if_true, hat]
  · cases hq

/-- On a covered board the queen lookup succeeds and `pointConnectsToQueen`
returns; it returns `true` exactly when the cell reaches its queen. -/
theorem Board.pointConnectsToQueen_spec {b : Board} (hcov : b.Covered) (uninit : Point)
    {p : Point} (hp : p.inBoard b.width = true) :
    ∃ r c q, b.pointConnectsToQueen uninit p = Except.ok r ∧
      b.getPointColor p = Except.ok c ∧ b.queenOf c = some q ∧
      (r = true ↔ b.Reach c p q) := by
  obtain ⟨c, q, hc, hq, hqin⟩ := hcov p hp
  obtain ⟨cq, hcq⟩ := hcov.labelled q hqin
  obtain ⟨r, hr, hiff⟩ := Board.pointsAreConnected_spec hcov.labelled hp hcq
  refine ⟨r, c, q, by rw [Board.pointConnectsToQueen_eq uninit hc hq]; exact hr, hc, hq, ?_⟩
  rw [hiff]
  constructor
  · rintro ⟨h1, h2⟩
    rw [hc] at h1
    cases h1
    exact h2
  · intro h
    have := (Board.reach_target_good h ⟨hp, hc⟩).2
    rw [hcq] at this
    cases this
    exact ⟨hc, h⟩

theorem Board.Connected.pointConnectsToQueen {b : Board} (h : b.Connected) (uninit : Point)
    {p : Point} (hp : p.inBoard b.width = true) :
    b.pointConnectsToQueen uninit p = Except.ok true := by
  obtain ⟨r, c, q, hr, hc, hq, hiff⟩ := Board.pointConnectsToQueen_spec h.covered uninit hp
  obtain ⟨c', q', hc', hq', hreach⟩ := h p hp
  rw [hc] at hc'
  cases hc'
  rw [hq] at hq'
  cases hq'
  rw [hr, hiff.2 hreach]

theorem Board.pointsAreConnected_true_reach {b : Board} {p q : Point}
    (h : b.pointsAreConnected p q = Except.ok true) :
    ∃ c, b.getPointColor p = Except.ok c ∧ p.inBoard b.width = true ∧ b.Reach c p q := by
  unfold Board.pointsAreConnected at h
  split at h
  · next r hr =>
    obtain ⟨r1, vis⟩ := r
    simp only [Except.ok.injEq] at h
    subst h
    have hct : ∃ ct, b.getPointColor q = Except.ok ct := by
      unfold Board.connectFuel at hr
      simp only [Board.pointsAreConnectedAux] at hr
      split at hr
      · cases hr
      · split at hr
        · cases hr
        · cases hr
        · next ct _ hq => exact ⟨ct, hq⟩
    obtain ⟨ct, hct⟩ := hct
    have := Board.pointsAreConnectedAux_true hct _ _ _ _ hr
    exact ⟨ct, this.1.2, this.1.1, this.2⟩
  · cases h

/-- On a board where every label in use is a queen colour and every cell passes
`pointConnectsToQueen`, every cell reaches the queen of its label. -/
theorem Board.connected_of_checks {b : Board} (uninit : Point)
    (hlab : ∀ p : Point, p.inBoard b.width = true →
      ∃ c, b.getPointColor p = Except.ok c ∧ c ∈ b.queenColors)
    (hconn : ∀ p : Point, p.inBoard b.width = true →
      b.pointConnectsToQueen uninit p = Except.ok true) : b.Connected := by
  intro p hp
  obtain ⟨c, hc, hmem⟩ := hlab p hp
  have hlt : b.queenColors.indexOf c < b.queenColors.length := List.indexOf_lt_length.2 hmem
  have h := hconn p hp
  simp only [Board.pointConnectsToQueen, hc, hlt, if_true] at h
  split at h
  · cases h
  · next queen hq =>
    rw [vecAt_eq_ok] at hq
    have hqo : b.queenOf c = some queen := by
      simp only [Board.queenOf, hlt, if_true]
      simpa using hq.2
    obtain ⟨c', hc', -, hreach⟩ := Board.pointsAreConnected_true_reach h
    rw [hc] at hc'
    cases hc'
    exact ⟨c, queen, hc, hqo, hreach⟩
theorem Board.setPointColor_fields {b b1 : Board} {p : Point} {c : Int}
    (h : b.setPointColor p c = Except.ok b1) :
    b1.width = b.width ∧ b1.queens = b.queens ∧ b1.queenColors = b.queenColors ∧
      b.colorMap.setMatrixValue p c = Except.ok b1.colorMap := by
  unfold Board.setPointColor at h
  split at h
  · next cm hcm => cases h; exact ⟨rfl, rfl, rfl, hcm⟩
  · cases h

theorem Board.setPointColor_spec {b : Board} (hsq : b.colorMap.Square b.width) {p : Point}
    (hp : p.inBoard b.width = true) (c : Int) :
    ∃ b1, b.setPointColor p c = Except.ok b1 ∧ b1.width = b.width ∧ b1.queens = b.queens ∧
      b1.queenColors = b.queenColors ∧ b1.colorMap.Square b.width ∧
      b1.getPointColor p = Except.ok c ∧
      ∀ q : Point, q.inBoard b.width = true → q ≠ p → b1.getPointColor q = b.getPointColor q := by
  obtain ⟨cm', hset, hsq', hget, hother⟩ := hsq.setMatrixValue hp c
  exact ⟨⟨b.width, b.queens, b.queenColors, cm'⟩, by simp [Board.setPointColor, hset],
    rfl, rfl, rfl, hsq', hget, hother⟩

theorem Board.queenOf_congr {b b1 : Board} (hq : b1.queens = b.queens)
    (hc : b1.queenColors = b.queenColors) (c : Int) : b1.queenOf c = b.queenOf c := by
  simp [Board.queenOf, hq, hc]

theorem Board.colorChangeLoop_false {b1 : Board} {uninit p : Point} {c c0 : Int} :
    ∀ (ds : List (Int × Int)) (b' : Board),
      b1.colorChangeLoop uninit p c c0 ds = Except.ok (false, b') →
      ∀ d ∈ ds, (p.shift d).inBoard b1.width = true →
        ∀ c', b1.getPointColor (p.shift d) = Except.ok c' → c' ≠ c →
          b1.pointConnectsToQueen uninit (p.shift d) = Except.ok true := by
  intro ds
  induction ds with
  | nil => intro _ _ d hd; simp at hd
  | cons d0 ds ih =>
    intro b' h d hd hin c' hc' hne
    simp only [Board.colorChangeLoop] at h
    rcases List.mem_cons.1 hd with rfl | hd
    · rw [if_pos hin, hc'] at h
      simp only [hne, ne_eq, not_false_eq_true, if_true] at h
      split at h
      · cases h
      · split at h
        · cases h
        · cases h
      · next hconn => exact hconn
    · split at h
      · split at h
        · cases h
        · split at h
          · split at h
            · cases h
            · split at h
              · cases h
              · cases h
            · exact ih b' h d hd hin c' hc' hne
          · exact ih b' h d hd hin c' hc' hne
      · exact ih b' h d hd hin c' hc' hne

/-- When the continuity probe answers `false`, every in-board neighbour of `p`
that holds another colour than `c` passes `pointConnectsToQueen` on the board with
`p` recoloured to `c`. -/
theorem Board.colorChangeBreaksContinuity_false {b b' : Board} {uninit p : Point} {c : Int}
    (h : b.colorChangeBreaksContinuity uninit p c = Except.ok (false, b')) :
    ∃ b1, b.setPointColor p c = Except.ok b1 ∧
      ∀ d ∈ dirs, (p.shift d).inBoard b1.width = true →
        ∀ c', b1.getPointColor (p.shift d) = Except.ok c' → c' ≠ c →
          b1.pointConnectsToQueen uninit (p.shift d) = Except.ok true := by
  unfold Board.colorChangeBreaksContinuity at h
  split at h
  · cases h
  · split at h
    · cases h
    · next b1 hset => exact ⟨b1, hset, Board.colorChangeLoop_false dirs b' h⟩

theorem neg_dir_mem {d : Int × Int} (hd : d ∈ dirs) : (-d.1, -d.2) ∈ dirs := by
  rw [mem_dirs_iff] at hd ⊢
  rcases hd with rfl | rfl | rfl | rfl <;> simp

theorem shift_neg (p : Point) (d : Int × Int) : (p.shift d).shift (-d.1, -d.2) = p := by
  cases p; simp [Point.shift]

theorem shift_ne (p : Point) {d : Int × Int} (hd : d ∈ dirs) : p.shift d ≠ p := by
  rw [mem_dirs_iff] at hd
  cases p
  rcases hd with rfl | rfl | rfl | rfl <;> simp [Point.shift]
/-- The core of continuity preservation: recolouring a non-queen cell `p` of colour
`e` to the colour `c` of a neighbour keeps the board connected, provided every
neighbour of `p` of another colour than `c` still passes `pointConnectsToQueen`
on the recoloured board. -/
theorem Board.connected_after_spread {b b1 : Board} (uninit : Point)
    (hsq : b.colorMap.Square b.width) (hconn : b.Connected) {p p0 : Point} {c e : Int}
    (hp : p.inBoard b.width = true) (hpe : b.getPointColor p = Except.ok e) (hce : c ≠ e)
    (hp0 : p0.inBoard b.width = true) (hp0c : b.getPointColor p0 = Except.ok c)
    {d0 : Int × Int} (hd0 : d0 ∈ dirs) (hadj : p = p0.shift d0) (hnq : p ∉ b.queens)
    (hset : b.setPointColor p c = Except.ok b1)
    (hcheck : ∀ d ∈ dirs, (p.shift d).inBoard b1.width = true →
      ∀ c', b1.getPointColor (p.shift d) = Except.ok c' → c' ≠ c →
        b1.pointConnectsToQueen uninit (p.shift d) = Except.ok true) :
    b1.Connected := by
  obtain ⟨b1', hset', hw, hqs, hqc, -, hcp, hother⟩ := Board.setPointColor_spec hsq hp c
  rw [hset] at hset'
  cases hset'
  have hqof : ∀ l, b1.queenOf l = b.queenOf l := Board.queenOf_congr hqs hqc
  have hp0p : p0 ≠ p := by
    intro h; rw [h, hpe] at hp0c; exact hce (Except.ok.inj hp0c).symm
  -- cells of another colour than `e` are untouched
  have hgood : ∀ (l : Int) (x : Point), l ≠ e →
      (x.inBoard b.width = true ∧ b.getPointColor x = Except.ok l) →
      (x.inBoard b1.width = true ∧ b1.getPointColor x = Except.ok l) := by
    intro l x hl hx
    have hxp : x ≠ p := by
      intro h; rw [h, hpe] at hx; exact hl (Except.ok.inj hx.2).symm
    exact ⟨by rw [hw]; exact hx.1, by rw [hother x hx.1 hxp]; exact hx.2⟩
  have hmono : ∀ (l : Int) (x y : Point), l ≠ e → b.Reach l x y → b1.Reach l x y := by
    intro l x y hl h
    refine Relation.ReflTransGen.mono ?_ h
    rintro u v ⟨hu, hv, hd⟩
    exact ⟨hgood l u hl hu, hgood l v hl hv, hd⟩
  -- the queen of `c` is reached from `p0`, hence from `p`
  obtain ⟨c0, qc, hc0, hqc0, hreach0⟩ := hconn p0 hp0
  rw [hp0c] at hc0
  cases hc0
  have hp0good : p0.inBoard b1.width = true ∧ b1.getPointColor p0 = Except.ok c :=
    hgood c p0 hce ⟨hp0, hp0c⟩
  have hpgood : p.inBoard b1.width = true ∧ b1.getPointColor p = Except.ok c :=
    ⟨by rw [hw]; exact hp, hcp⟩
  have hreach_p : b1.Reach c p qc := by
    refine Relation.ReflTransGen.head ⟨hpgood, hp0good, (-d0.1, -d0.2), neg_dir_mem hd0, ?_⟩
      (hmono c p0 qc hce hreach0)
    rw [hadj, shift_neg]
  -- the recoloured board is covered
  have hcov1 : b1.Covered := by
    intro x hx
    rw [hw] at hx
    by_cases hxp : x = p
    · subst hxp
      exact ⟨c, qc, hcp, by rw [hqof]; exact hqc0,
        by rw [hw]; exact (Board.reach_target_good hreach0 ⟨hp0, hp0c⟩).1⟩
    · obtain ⟨l, q, hl, hq, hqin⟩ := hconn.covered x hx
      exact ⟨l, q, by rw [hother x hx hxp]; exact hl, by rw [hqof]; exact hq,
        by rw [hw]; exact hqin⟩
  intro x hx
  rw [hw] at hx
  by_cases hxp : x = p
  · subst hxp
    exact ⟨c, qc, hcp, by rw [hqof]; exact hqc0, hreach_p⟩
  · obtain ⟨l, q, hl, hq, hreach⟩ := hconn x hx
    have hl1 : b1.getPointColor x = Except.ok l := by rw [hother x hx hxp]; exact hl
    refine ⟨l, q, hl1, by rw [hqof]; exact hq, ?_⟩
    by_cases hle : l = e
    · subst hle
      have hqp : q ≠ p := fun h => hnq (h ▸ Board.queenOf_mem hq)
      -- cells of colour `l` other than `p` keep their colour
      have hgood_e : ∀ u : Point, u ≠ p →
          (u.inBoard b.width = true ∧ b.getPointColor u = Except.ok l) →
          (u.inBoard b1.width = true ∧ b1.getPointColor u = Except.ok l) := by
        intro u hup hu
        exact ⟨by rw [hw]; exact hu.1, by rw [hother u hu.1 hup]; exact hu.2⟩
      have hsplit : ∀ u : Point, b.Reach l u q → u ≠ p →
          b1.Reach l u q ∨ ∃ d ∈ dirs, (p.shift d).inBoard b.width = true ∧
            b.getPointColor (p.shift d) = Except.ok l ∧ b1.Reach l u (p.shift d) := by
        intro u hu
        induction hu using Relation.ReflTransGen.head_induction_on with
        | refl => intro _; exact Or.inl Relation.ReflTransGen.refl
        | @head u v hstep _ ih =>
          intro hup
          obtain ⟨hu, hv, d, hd, hvd⟩ := hstep
          by_cases hvp : v = p
          · right
            refine ⟨(-d.1, -d.2), neg_dir_mem hd, ?_⟩
            have : p.shift (-d.1, -d.2) = u := by rw [← hvp, hvd, shift_neg]
            rw [this]
            exact ⟨hu.1, hu.2, Relation.ReflTransGen.refl⟩
          · have hstep1 : b1.Step l u v := ⟨hgood_e u hup hu, hgood_e v hvp hv, d, hd, hvd⟩
            rcases ih hvp with h1 | ⟨d', hd', h1, h2, h3⟩
            · exact Or.inl (Relation.ReflTransGen.head hstep1 h1)
            · exact Or.inr ⟨d', hd', h1, h2, Relation.ReflTransGen.head hstep1 h3⟩
      rcases hsplit x hreach hxp with h1 | ⟨d, hd, hnin, hncol, hxn⟩
      · exact h1
      · have hnp : p.shift d ≠ p := shift_ne p hd
        have hn1 : b1.getPointColor (p.shift d) = Except.ok l := by
          rw [hother _ hnin hnp]; exact hncol
        have hchk := hcheck d hd (by rw [hw]; exact hnin) l hn1 (fun h => hce h.symm)
        obtain ⟨r, c', q', hr, hc', hq', hiff⟩ :=
          @Board.pointConnectsToQueen_spec b1 hcov1 uninit (p.shift d) (by rw [hw]; exact hnin)
        rw [hn1] at hc'
        cases hc'
        rw [hqof, hq] at hq'
        cases hq'
        rw [hchk] at hr
        cases hr
        exact Relation.ReflTransGen.trans hxn (hiff.1 rfl)
    · exact hmono l x q hle hreach

/-! ## Colour spreading: the calls return -/

theorem Board.covered_after_set {b b1 : Board} (hsq : b.colorMap.Square b.width)
    (hcov : b.Covered) {p q : Point} {c : Int} (hp : p.inBoard b.width = true)
    (hq : b.queenOf c = some q) (hqin : q.inBoard b.width = true)
    (hset : b.setPointColor p c = Except.ok b1) : b1.Covered := by
  obtain ⟨b1', hset', hw, hqs, hqc, -, hcp, hother⟩ := Board.setPointColor_spec hsq hp c
  rw [hset] at hset'
  cases hset'
  have hqof : ∀ l, b1.queenOf l = b.queenOf l := Board.queenOf_congr hqs hqc
  intro x hx
  rw [hw] at hx
  by_cases hxp : x = p
  · subst hxp
    exact ⟨c, q, hcp, by rw [hqof]; exact hq, by rw [hw]; exact hqin⟩
  · obtain ⟨l, q', hl, hq', hqin'⟩ := hcov x hx
    exact ⟨l, q', by rw [hother x hx hxp]; exact hl, by rw [hqof]; exact hq',
      by rw [hw]; exact hqin'⟩

theorem Board.colorChangeLoop_total {b1 b : Board} (hcov : b1.Covered) (uninit p : Point)
    (c c0 : Int) (hrestore : b1.setPointColor p c0 = Except.ok b) :
    ∀ ds : List (Int × Int), ∃ r, b1.colorChangeLoop uninit p c c0 ds = Except.ok (r, b) := by
  intro ds
  induction ds with
  | nil => exact ⟨false, by simp [Board.colorChangeLoop, hrestore]⟩
  | cons d ds ih =>
    simp only [Board.colorChangeLoop]
    by_cases hin : (p.shift d).inBoard b1.width = true
    · obtain ⟨c', hc'⟩ := hcov.labelled _ hin
      obtain ⟨r, -, -, hr, -, -, -⟩ := Board.pointConnectsToQueen_spec hcov uninit hin
      simp only [hin, if_true, hc', hr]
      by_cases hne : c' ≠ c
      · simp only [hne, ne_eq, not_false_eq_true, if_true]
        cases r with
        | true => exact ih
        | false => exact ⟨true, by simp [hrestore]⟩
      · simp only [hne, if_false]
        exact ih
    · simp only [hin, Bool.false_eq_true, if_false]
      exact ih

/-- On a covered square board the continuity probe of an in-board cell returns,
for every colour whose queen lookup succeeds. -/
theorem Board.colorChangeBreaksContinuity_total {b : Board} (hsq : b.colorMap.Square b.width)
    (hcov : b.Covered) (uninit : Point) {p q : Point} {c : Int} (hp : p.inBoard b.width = true)
    (hq : b.queenOf c = some q) (hqin : q.inBoard b.width = true) :
    ∃ r, b.colorChangeBreaksContinuity uninit p c = Except.ok (r, b) := by
  obtain ⟨c0, hc0⟩ := hcov.labelled p hp
  obtain ⟨b1, hset, -⟩ := Board.setPointColor_spec hsq hp c
  have hcov1 := Board.covered_after_set hsq hcov hp hq hqin hset
  obtain ⟨r, hr⟩ := Board.colorChangeLoop_total hcov1 uninit p c c0
    (Board.setPointColor_restore hc0 hset) dirs
  exact ⟨r, by simp [Board.colorChangeBreaksContinuity, hc0, hset, hr]⟩

theorem GameGenerator.spreadDirLoop_total (gen : GameGenerator) (uninit : Point) (e : Int)
    {b : Board} (hsize : gen.gameSize = b.width) (hsq : b.colorMap.Square b.width)
    (hcov : b.Covered) (p : Point) {pColor : Int} {q : Point}
    (hq : b.queenOf pColor = some q) (hqin : q.inBoard b.width = true) :
    ∀ (ds : List (Int × Int)) (points : List ColoredPoint),
      ∃ points', gen.spreadDirLoop uninit e p pColor ds points b = Except.ok (points', b) := by
  intro ds
  induction ds with
  | nil => intro points; exact ⟨points, rfl⟩
  | cons d ds ih =>
    intro points
    simp only [GameGenerator.spreadDirLoop]
    by_cases hin : (p.shift d).inBoard gen.gameSize = true
    · have hin' : (p.shift d).inBoard b.width = true := by rw [← hsize]; exact hin
      obtain ⟨c', hc'⟩ := hcov.labelled _ hin'
      simp only [hin, if_true, hc']
      by_cases hce : c' = e
      · obtain ⟨r, hr⟩ := Board.colorChangeBreaksContinuity_total hsq hcov uninit hin' hq hqin
        simp only [hce, if_true, hr]
        split
        · exact ih _
        · exact ih _
      · simp only [hce, if_false]
        exact ih _
    · simp only [hin, Bool.false_eq_true, if_false]
      exact ih _

theorem GameGenerator.spreadPointLoop_total (gen : GameGenerator) (uninit : Point) (e : Int)
    {b : Board} (hsize : gen.gameSize = b.width) (hsq : b.colorMap.Square b.width)
    (hcov : b.Covered) :
    ∀ (ps : List Point), (∀ p ∈ ps, p.inBoard b.width = true) →
      ∀ (points : List ColoredPoint),
      ∃ points', gen.spreadPointLoop uninit e ps points b = Except.ok (points', b) := by
  intro ps
  induction ps with
  | nil => intro _ points; exact ⟨points, rfl⟩
  | cons p ps ih =>
    intro hps points
    have hps' : ∀ p' ∈ ps, p'.inBoard b.width = true :=
      fun p' hp' => hps p' (List.mem_cons_of_mem _ hp')
    obtain ⟨c, q, hc, hq, hqin⟩ := hcov p (hps p (List.mem_cons_self _ _))
    simp only [GameGenerator.spreadPointLoop, hc]
    by_cases hce : c ≠ e
    · obtain ⟨points1, h1⟩ := gen.spreadDirLoop_total uninit e hsize hsq hcov p hq hqin dirs points
      simp only [hce, ne_eq, not_false_eq_true, if_true, h1]
      exact ih hps' points1
    · simp only [hce, if_false]
      exact ih hps' points

theorem mem_scanPoints {n : Int} {p : Point} : p ∈ scanPoints n ↔ p.inBoard n = true := by
  simp only [scanPoints, List.mem_flatMap, List.mem_map, mem_loopRange, inBoard_iff]
  constructor
  · rintro ⟨x, hx, y, hy, rfl⟩
    exact ⟨hx, hy⟩
  · rintro ⟨hx, hy⟩
    exact ⟨p.x, hx, p.y, hy, rfl⟩

theorem GameGenerator.isValidGame_spec {b : Board} (hsq : b.colorMap.Square b.width)
    (hw : 0 ≤ b.width) :
    ∃ r, GameGenerator.isValidGame b = Except.ok r ∧
      (r = true ↔ ∃! ys, IsPlacement b.colorMap b.width true ys) :=
  IncompleteBoard.hasOneSolution_spec b.width b.colorMap hw hsq

theorem GameGenerator.trySpreads_total :
    ∀ (cps : List ColoredPoint) (b : Board), b.colorMap.Square b.width → 0 ≤ b.width →
      (∀ cp ∈ cps, cp.p.inBoard b.width = true) →
      ∃ r b', GameGenerator.trySpreads cps b = Except.ok (r, b') := by
  intro cps
  induction cps with
  | nil => intro b _ _ _; exact ⟨false, b, rfl⟩
  | cons cp cps ih =>
    intro b hsq hw hcps
    have hin := hcps cp (List.mem_cons_self _ _)
    obtain ⟨c0, hc0⟩ := hsq.getPointColor hin
    obtain ⟨b1, hset, hw1, -, -, hsq1, -, -⟩ := Board.setPointColor_spec hsq hin cp.color
    obtain ⟨r, hr, -⟩ := @GameGenerator.isValidGame_spec b1 (by rw [hw1]; exact hsq1)
      (by rw [hw1]; exact hw)
    have hc0' : b.getPointColor cp.p = Except.ok c0 := hc0
    simp only [GameGenerator.trySpreads, hc0', hset, hr]
    cases r with
    | true => exact ⟨true, b1, rfl⟩
    | false =>
      simp only [Board.setPointColor_restore hc0' hset]
      exact ih b hsq hw (fun cp' hcp' => hcps cp' (List.mem_cons_of_mem _ hcp'))

/-- On a covered square board of the generator's size `doOneColorSpread` returns. -/
theorem GameGenerator.doOneColorSpread_total {G : Type} (R : RandomSource G)
    (gen : GameGenerator) (uninit : Point) {b : Board} (e : Int) (g : G)
    (hsize : gen.gameSize = b.width) (hsq : b.colorMap.Square b.width) (hcov : b.Covered) :
    ∃ r b' g', gen.doOneColorSpread R uninit b e g = Except.ok (r, b', g') := by
  obtain ⟨points, hpts⟩ := gen.spreadPointLoop_total uninit e hsize hsq hcov
    (scanPoints gen.gameSize) (fun p hp => by rw [← hsize]; exact mem_scanPoints.1 hp) []
  have hposs : gen.getPossibleColorSpreads uninit b e = Except.ok (points, b) := hpts
  have hcand := (gen.getPossibleColorSpreads_post uninit b e hposs).2
  have hperm := R.shuffle_perm g points
  simp only [GameGenerator.doOneColorSpread, hposs]
  rcases le_or_lt 0 b.width with hw | hw
  · obtain ⟨r, b', hr⟩ := GameGenerator.trySpreads_total (R.shuffle g points).1 b hsq hw
      (fun cp hcp => by rw [← hsize]; exact (hcand cp (hperm.subset hcp)).1)
    simp only [hr]
    exact ⟨r, b', _, rfl⟩
  · have hnil : points = [] := by
      cases points with
      | nil => rfl
      | cons cp _ =>
        exfalso
        have := (hcand cp (List.mem_cons_self _ _)).1
        rw [inBoard_iff, hsize] at this
        omega
    have hsh : (R.shuffle g points).1 = [] := by
      have := hperm
      rw [hnil] at this ⊢
      exact this.eq_nil
    simp only [hsh, GameGenerator.trySpreads]
    exact ⟨false, b, _, rfl⟩

/-! ## Claims on single spreads -/

/-- C7: whenever `doOneColorSpread` returns `true` (the spread was accepted),
`hasOneSolution` on the colour map of the resulting board is `true`. -/
theorem doOneColorSpread_accepted_unique {G : Type} (R : RandomSource G)
    (gen : GameGenerator) (uninit : Point) (board : Board) (excludedColor : Int) (g : G)
    (board' : Board) (g' : G)
    (h : gen.doOneColorSpread R uninit board excludedColor g = Except.ok (true, board', g')) :
    (IncompleteBoard.ofBoard board').hasOneSolution = Except.ok true := by
  rcases gen.doOneColorSpread_post R uninit board excludedColor g h with ⟨hf, -⟩ | ⟨-, cp, -, -, hv⟩
  · cases hf
  · exact hv

theorem doOneColorSpread_accepted_unique_witness :
    (GameGenerator.mk 4 true).doOneColorSpread identitySource ⟨0, 0⟩ sampleBoard 0 () =
      Except.ok (true, sampleBoardSpread, ()) ∧
    (IncompleteBoard.ofBoard sampleBoardSpread).hasOneSolution = Except.ok true :=
  ⟨by decide,
    doOneColorSpread_accepted_unique identitySource (GameGenerator.mk 4 true) ⟨0, 0⟩
      sampleBoard 0 () sampleBoardSpread () (by decide)⟩

/-- C8: whenever `doOneColorSpread` returns `false` (no candidate was accepted,
the pool possibly being empty), the colour map is cell for cell the one before
the call; indeed the whole board is unchanged. -/
theorem doOneColorSpread_rejected_unchanged {G : Type} (R : RandomSource G)
    (gen : GameGenerator) (uninit : Point) (board : Board) (excludedColor : Int) (g : G)
    (board' : Board) (g' : G)
    (h : gen.doOneColorSpread R uninit board excludedColor g = Except.ok (false, board', g')) :
    board'.colorMap = board.colorMap ∧ board' = board := by
  rcases gen.doOneColorSpread_post R uninit board excludedColor g h with ⟨-, hb⟩ | ⟨ht, -⟩
  · exact ⟨by rw [hb], hb⟩
  · cases ht

theorem doOneColorSpread_rejected_unchanged_witness :
    (GameGenerator.mk 5 true).doOneColorSpread identitySource ⟨0, 0⟩ stuckBoard 0 () =
      Except.ok (false, stuckBoard, ()) ∧
    stuckBoard.colorMap = stuckBoard.colorMap ∧ stuckBoard = stuckBoard :=
  ⟨by decide,
    doOneColorSpread_rejected_unchanged identitySource (GameGenerator.mk 5 true) ⟨0, 0⟩
      stuckBoard 0 () stuckBoard () (by decide)⟩
theorem forall_inBoard_of_scan {P : Point → Prop} (w : Int) (h : ∀ p ∈ scanPoints w, P p) :
    ∀ p : Point, p.inBoard w = true → P p :=
  fun p hp => h p (mem_scanPoints.2 hp)

/-- C5: with continuity enforcement enabled, on a square board of the generator's
size in which the label of every cell is the colour of exactly one queen and every
cell passes `pointConnectsToQueen`, `doOneColorSpread` returns (for every excluded
colour and every outcome of the shuffle), and whether it accepted a spread or not,
every cell of the resulting board still passes `pointConnectsToQueen`. -/
theorem doOneColorSpread_keeps_continuity {G : Type} (R : RandomSource G)
    (gen : GameGenerator) (uninit : Point) (board : Board) (excludedColor : Int) (g : G)
    (hcb : gen.continuousBase = true) (hsize : gen.gameSize = board.width)
    (hsq : board.colorMap.Square board.width)
    (hlab : ∀ p : Point, p.inBoard board.width = true →
      ∃ c ∈ board.queenColors, board.getPointColor p = Except.ok c ∧
        board.queenColors.count c = 1)
    (hconn : ∀ p : Point, p.inBoard board.width = true →
      board.pointConnectsToQueen uninit p = Except.ok true) :
    ∃ r board' g', gen.doOneColorSpread R uninit board excludedColor g =
        Except.ok (r, board', g') ∧ board'.width = board.width ∧
      ∀ p : Point, p.inBoard board'.width = true →
        board'.pointConnectsToQueen uninit p = Except.ok true := by
  have hC : board.Connected := Board.connected_of_checks uninit
    (fun p hp => by
      obtain ⟨c, hmem, hc, -⟩ := hlab p hp
      exact ⟨c, hc, hmem⟩) hconn
  obtain ⟨r, board', g', hrun⟩ :=
    gen.doOneColorSpread_total R uninit excludedColor g hsize hsq hC.covered
  refine ⟨r, board', g', hrun, ?_⟩
  rcases gen.doOneColorSpread_post R uninit board excludedColor g hrun with
    ⟨-, rfl⟩ | ⟨-, cp, ⟨hin, hpe, hce, ⟨p0, hp0, hp0c, d, hd, hadj⟩, hnq, rc, hcc, hrc⟩, hset, -⟩
  · exact ⟨rfl, hconn⟩
  · have hrf := hrc hcb
    subst hrf
    obtain ⟨b1, hset1, hcheck⟩ := Board.colorChangeBreaksContinuity_false hcc
    rw [hset] at hset1
    cases hset1
    have hC' : board'.Connected := Board.connected_after_spread uninit hsq hC
      (by rw [← hsize]; exact hin) hpe hce
      (by rw [← hsize]; exact mem_scanPoints.1 hp0) hp0c hd hadj
      (by simpa [Board.pointIsQueen] using hnq) hset hcheck
    exact ⟨(Board.setPointColor_fields hset).1, fun p hp => hC'.pointConnectsToQueen uninit hp⟩

theorem doOneColorSpread_keeps_continuity_witness :
    (GameGenerator.mk 4 true).continuousBase = true ∧
    (GameGenerator.mk 4 true).gameSize = sampleBoard.width ∧
    sampleBoard.colorMap.Square sampleBoard.width ∧
    (∀ p ∈ scanPoints sampleBoard.width, ∃ c ∈ sampleBoard.queenColors,
      sampleBoard.getPointColor p = Except.ok c ∧ sampleBoard.queenColors.count c = 1) ∧
    (∀ p ∈ scanPoints sampleBoard.width,
      sampleBoard.pointConnectsToQueen ⟨0, 0⟩ p = Except.ok true) ∧
    ∃ r board' g', (GameGenerator.mk 4 true).doOneColorSpread identitySource ⟨0, 0⟩
        sampleBoard 0 () = Except.ok (r, board', g') ∧ board'.width = sampleBoard.width ∧
      ∀ p : Point, p.inBoard board'.width = true →
        board'.pointConnectsToQueen ⟨0, 0⟩ p = Except.ok true :=
  have h1 : ∀ p ∈ scanPoints sampleBoard.width, ∃ c ∈ sampleBoard.queenColors,
      sampleBoard.getPointColor p = Except.ok c ∧ sampleBoard.queenColors.count c = 1 := by
    decide
  have h2 : ∀ p ∈ scanPoints sampleBoard.width,
      sampleBoard.pointConnectsToQueen ⟨0, 0⟩ p = Except.ok true := by decide
  ⟨rfl, rfl, by decide, h1, h2,
    doOneColorSpread_keeps_continuity identitySource (GameGenerator.mk 4 true) ⟨0, 0⟩
      sampleBoard 0 () rfl rfl (by decide) (forall_inBoard_of_scan _ h1)
      (forall_inBoard_of_scan _ h2)⟩

/-! ## The invariant of the generated board -/

theorem loopRange_length (n : Int) : (loopRange n).length = n.toNat := by
  simp [loopRange]

theorem loopRange_getElem? (n : Int) (i : Nat) :
    (loopRange n)[i]? = if i < n.toNat then some (i : Int) else none := by
  simp only [loopRange, List.getElem?_map, List.getElem?_range']
  by_cases h : i < n.toNat
  · simp [h, List.getElem?_range h]
  · have hn : (List.range n.toNat)[i]? = none :=
      List.getElem?_eq_none (by simpa using h)
    simp [h, hn]

theorem columnsFrom_map_x (ys : List Int) :
    (columnsFrom 0 ys).map (fun q => q.x) = loopRange ys.length := by
  apply List.ext_getElem?
  intro i
  rw [List.getElem?_map, columnsFrom_getElem?, loopRange_getElem?]
  by_cases h : i < ys.length
  · simp [h, List.getElem?_eq_getElem h]
  · have hn : ys[i]? = none := List.getElem?_eq_none (by omega)
    simp [h, hn]

theorem mem_columnsFrom_zero {ys : List Int} {p : Point} :
    p ∈ columnsFrom 0 ys ↔ 0 ≤ p.x ∧ ys[p.x.toNat]? = some p.y := by
  rw [List.mem_iff_getElem?]
  constructor
  · rintro ⟨i, hi⟩
    rw [columnsFrom_getElem?] at hi
    cases hy : ys[i]? with
    | none => rw [hy] at hi; simp at hi
    | some y =>
      rw [hy] at hi
      simp only [Option.map_some', Option.some.injEq] at hi
      subst hi
      simp [hy]
  · rintro ⟨h0, hy⟩
    refine ⟨p.x.toNat, ?_⟩
    rw [columnsFrom_getElem?, hy]
    simp only [Option.map_some', Option.some.injEq]
    cases p
    simp only [Point.mk.injEq, and_true]
    simp only at h0
    omega

theorem loopRange_indexOf {w c : Int} (hc : 0 ≤ c ∧ c < w) :
    (loopRange w).indexOf c = c.toNat := by
  have hlt : c.toNat < (loopRange w).length := by rw [loopRange_length]; omega
  have hget : (loopRange w)[c.toNat] = c := by
    have := loopRange_getElem? w c.toNat
    rw [List.getElem?_eq_getElem hlt, if_pos (by omega)] at this
    have h2 := Option.some.inj this
    rw [h2]; omega
  have := List.indexOf_getElem (loopRange_nodup w) c.toNat hlt
  rw [hget] at this
  exact this

theorem Board.GameInv.queenOf {b : Board} {w : Int} {ys : List Int} (h : b.GameInv w ys)
    {c : Int} (hc : 0 ≤ c ∧ c < w) :
    ∃ y, ys[c.toNat]? = some y ∧ b.queenOf c = some ⟨c, y⟩ ∧
      (⟨c, y⟩ : Point).inBoard b.width = true := by
  obtain ⟨hw, -, hqs, ⟨hlen, hrange, -⟩, hqc, -, -⟩ := h
  have hlt : c.toNat < ys.length := by omega
  refine ⟨ys[c.toNat], List.getElem?_eq_getElem hlt, ?_, ?_⟩
  · simp only [Board.queenOf, hqc, loopRange_indexOf hc, loopRange_length, hqs,
      columnsFrom_getElem?, List.getElem?_eq_getElem hlt, Option.map_some']
    rw [if_pos (by omega)]
    congr 2
    omega
  · rw [inBoard_iff, hw]
    exact ⟨hc, hrange _ (List.getElem_mem _)⟩

theorem Board.GameInv.toCovered {b : Board} {w : Int} {ys : List Int} (h : b.GameInv w ys) :
    b.Covered := by
  intro p hp
  rw [h.1] at hp
  obtain ⟨c, hc, hr⟩ := h.2.2.2.2.2.2 p hp
  obtain ⟨y, -, hq, hin⟩ := h.queenOf hr
  exact ⟨c, _, hc, hq, hin⟩

theorem isPartial_false_congr (cm cm' : ColorMap) (w : Int) (ys : List Int) :
    IsPartial cm w false ys ↔ IsPartial cm' w false ys := by
  simp [IsPartial]

theorem Board.GameInv.isPlacement_true {b : Board} {w : Int} {ys : List Int}
    (h : b.GameInv w ys) : IsPlacement b.colorMap w true ys := by
  obtain ⟨-, -, hqs, ⟨hlen, hrange, hnd, -, hchain⟩, -, hcol, -⟩ := h
  refine ⟨hlen, hrange, hnd, fun _ => ?_, hchain⟩
  have hmap : (columnsFrom 0 ys).map b.colorMap.getPointColor =
      (columnsFrom 0 ys).map (fun q => (Except.ok q.x : M Int)) := by
    apply List.map_congr_left
    intro q hq
    exact hcol q (by rw [hqs]; exact hq)
  rw [hmap]
  have : (columnsFrom 0 ys).map (fun q => (Except.ok q.x : M Int)) =
      ((columnsFrom 0 ys).map (fun q => q.x)).map (fun x => (Except.ok x : M Int)) := by
    rw [List.map_map]; rfl
  rw [this, columnsFrom_map_x]
  exact (loopRange_nodup _).map (fun a c hac => Except.ok.inj hac)

/-- Recolouring an in-board cell that is no queen with a label of `[0,w)` keeps
the invariant. -/
theorem Board.GameInv.setPointColor {b b1 : Board} {w : Int} {ys : List Int}
    (h : b.GameInv w ys) {p : Point} {c : Int} (hp : p.inBoard w = true) (hnq : p ∉ b.queens)
    (hc : 0 ≤ c ∧ c < w) (hset : b.setPointColor p c = Except.ok b1) : b1.GameInv w ys := by
  obtain ⟨hw, hsq, hqs, hpl, hqc, hcol, hlab⟩ := h
  subst hw
  obtain ⟨b1', hset', hw1, hqs1, hqc1, hsq1, hcp, hother⟩ := Board.setPointColor_spec hsq hp c
  rw [hset] at hset'
  cases hset'
  refine ⟨hw1, hsq1, by rw [hqs1, hqs], ⟨hpl.1, (isPartial_false_congr _ _ _ _).1 hpl.2⟩,
    by rw [hqc1, hqc], ?_, ?_⟩
  · intro q hq
    rw [hqs1] at hq
    have hqin : q.inBoard b.width = true := by
      rw [hqs] at hq
      have := mem_columnsFrom hq
      rw [inBoard_iff]
      have hlen := hpl.1
      exact ⟨by omega, hpl.2.1 _ this.2⟩
    rw [hother q hqin (fun hqp => hnq (hqp ▸ hq))]
    exact hcol q hq
  · intro x hx
    by_cases hxp : x = p
    · subst hxp; exact ⟨c, hcp, hc⟩
    · rw [hother x hx hxp]; exact hlab x hx
theorem mem_of_nodup_range {ys : List Int} {w : Int} (hlen : (ys.length : Int) = w)
    (hrange : ∀ y ∈ ys, 0 ≤ y ∧ y < w) (hnd : ys.Nodup) {z : Int} (hz : 0 ≤ z ∧ z < w) :
    z ∈ ys := by
  have hsub : ys.toFinset ⊆ Finset.Ico 0 w := by
    intro y hy
    rw [List.mem_toFinset] at hy
    rw [Finset.mem_Ico]
    exact hrange y hy
  have hcard : (Finset.Ico 0 w).card ≤ ys.toFinset.card := by
    rw [List.toFinset_card_of_nodup hnd, Int.card_Ico]
    omega
  have heq := Finset.eq_of_subset_of_card_le hsub hcard
  have : z ∈ ys.toFinset := by rw [heq, Finset.mem_Ico]; exact hz
  exact List.mem_toFinset.1 this

/-- On a board satisfying the invariant whose cells outside the queens all hold
the base colour `e`, the queens' own rows are the only valid placement. -/
theorem Board.GameInv.seed_unique {b : Board} {w : Int} {ys : List Int} {e : Int}
    (h : b.GameInv w ys) (he : 0 ≤ e ∧ e < w)
    (hseed : ∀ p : Point, p.inBoard w = true → p ∉ b.queens →
      b.getPointColor p = Except.ok e) :
    ∀ zs, IsPlacement b.colorMap w true zs → zs = ys := by
  intro zs hzs
  obtain ⟨hzlen, hzrange, hzdist, hzlab, -⟩ := (isPlacement_iff _ _ _).1 hzs
  obtain ⟨-, -, hqs, ⟨hylen, hyrange, hynd, -, -⟩, -, hcol, -⟩ := h
  -- the label of the cell chosen in column `j`
  have hlabel : ∀ (j : Nat) (y : Int), zs[j]? = some y →
      b.colorMap.getPointColor ⟨j, y⟩ =
        if ys[j]? = some y then Except.ok (j : Int) else Except.ok e := by
    intro j y hj
    have hjlt : j < zs.length := by
      by_contra hge
      rw [List.getElem?_eq_none (by omega)] at hj; cases hj
    have hin : (⟨j, y⟩ : Point).inBoard w = true := by
      rw [inBoard_iff]
      exact ⟨⟨Int.natCast_nonneg _, by simp only; omega⟩, hzrange j y hj⟩
    have hmem : (⟨j, y⟩ : Point) ∈ b.queens ↔ ys[j]? = some y := by
      rw [hqs, mem_columnsFrom_zero]
      simp
    by_cases hq : ys[j]? = some y
    · rw [if_pos hq]
      exact hcol _ (hmem.2 hq)
    · rw [if_neg hq]
      exact hseed _ hin (fun hm => hq (hmem.1 hm))
  have hie : e.toNat < zs.length := by omega
  obtain ⟨ze, hze⟩ : ∃ ze, zs[e.toNat]? = some ze := ⟨_, List.getElem?_eq_getElem hie⟩
  have hlab_e : b.colorMap.getPointColor ⟨(e.toNat : Nat), ze⟩ = Except.ok e := by
    rw [hlabel e.toNat _ hze]
    split
    · congr 1; omega
    · rfl
  have hA : ∀ (j : Nat) (y : Int), j ≠ e.toNat → zs[j]? = some y → ys[j]? = some y := by
    intro j y hj hzj
    by_contra hne
    have h1 := hlabel j y hzj
    rw [if_neg hne] at h1
    exact hzlab j e.toNat y _ hzj hze hj (h1.trans hlab_e.symm)
  have hB : ys[e.toNat]? = some ze := by
    have hmem := mem_of_nodup_range hylen hyrange hynd (hzrange _ _ hze)
    obtain ⟨k, hk⟩ := List.getElem?_of_mem hmem
    by_cases hke : k = e.toNat
    · rw [← hke]; exact hk
    · exfalso
      have hklt : k < ys.length := by
        by_contra hge
        rw [List.getElem?_eq_none (by omega)] at hk; cases hk
      have hklt' : k < zs.length := by omega
      obtain ⟨zk, hzk⟩ : ∃ zk, zs[k]? = some zk := ⟨_, List.getElem?_eq_getElem hklt'⟩
      have := hA k _ hke hzk
      rw [hk] at this
      exact hzdist k e.toNat _ _ hzk hze hke (Option.some.inj this).symm
  apply List.ext_getElem?
  intro j
  by_cases hjlt : j < zs.length
  · obtain ⟨zj, hzj⟩ : ∃ zj, zs[j]? = some zj := ⟨_, List.getElem?_eq_getElem hjlt⟩
    rw [hzj]
    by_cases hje : j = e.toNat
    · rw [hje] at hzj ⊢
      rw [hze] at hzj
      cases hzj
      exact hB.symm
    · exact (hA j _ hje hzj).symm
  · rw [List.getElem?_eq_none (by omega), List.getElem?_eq_none (by omega)]

/-- On a board satisfying the invariant, whenever the solver reports exactly one
solution, the valid placements are exactly the rows of the board's own queens. -/
theorem Board.GameInv.unique_is_queens {b : Board} {w : Int} {ys : List Int}
    (h : b.GameInv w ys) (hv : GameGenerator.isValidGame b = Except.ok true) :
    ∀ zs, IsPlacement b.colorMap w true zs ↔ zs = ys := by
  have hw : 0 ≤ w := by have := h.2.2.2.1.1; omega
  obtain ⟨r, hr, hiff⟩ := @GameGenerator.isValidGame_spec b (by rw [h.1]; exact h.2.1)
    (by rw [h.1]; exact hw)
  rw [hv] at hr
  cases hr
  rw [h.1] at hiff
  obtain ⟨y0, -, huniq⟩ := hiff.1 rfl
  intro zs
  constructor
  · intro hzs
    rw [huniq zs hzs, huniq ys h.isPlacement_true]
  · rintro rfl
    exact h.isPlacement_true

theorem Board.GameInv.seed_valid {b : Board} {w : Int} {ys : List Int} {e : Int}
    (h : b.GameInv w ys) (he : 0 ≤ e ∧ e < w)
    (hseed : ∀ p : Point, p.inBoard w = true → p ∉ b.queens →
      b.getPointColor p = Except.ok e) :
    GameGenerator.isValidGame b = Except.ok true := by
  obtain ⟨r, hr, hiff⟩ := @GameGenerator.isValidGame_spec b (by rw [h.1]; exact h.2.1)
    (by rw [h.1]; omega)
  rw [hr]
  congr 1
  rw [hiff, h.1]
  exact ⟨ys, h.isPlacement_true, fun zs hzs => h.seed_unique he hseed zs hzs⟩

/-! ## The seeded board -/

theorem IncompleteBoard.applyColors_spec (w : Int) :
    ∀ (qs : List Point) (b : IncompleteBoard), b.colorMap.Square w →
      (∀ q ∈ qs, q.inBoard w = true) →
      ∃ b', IncompleteBoard.applyColors qs b = Except.ok b' ∧ b'.width = b.width ∧
        b'.queens = b.queens ∧ b'.colorMap.Square w ∧
        ∀ p : Point, p.inBoard w = true →
          b'.colorMap.getPointColor p =
            if p ∈ qs then Except.ok p.x else b.colorMap.getPointColor p := by
  intro qs
  induction qs with
  | nil => intro b hsq _; exact ⟨b, rfl, rfl, rfl, hsq, by simp⟩
  | cons q qs ih =>
    intro b hsq hqs
    have hq := hqs q (List.mem_cons_self _ _)
    obtain ⟨cm', hset, hsq', hget, hother⟩ := hsq.setMatrixValue hq q.x
    obtain ⟨b', hrun, hw, hqueens, hsq'', hcol⟩ := ih ⟨b.width, cm', b.queens, b.xDepth⟩ hsq'
      (fun q' hq' => hqs q' (List.mem_cons_of_mem _ hq'))
    refine ⟨b', ?_, hw, hqueens, hsq'', ?_⟩
    · simp only [IncompleteBoard.applyColors, IncompleteBoard.setPointColor, hset]
      exact hrun
    · intro p hp
      rw [hcol p hp]
      by_cases hmem : p ∈ qs
      · simp [hmem]
      · simp only [hmem, if_false, List.mem_cons, or_false]
        by_cases hpq : p = q
        · subst hpq; simp [hget]
        · simp only [hpq, if_false]
          exact hother p hp hpq

theorem ColorMap.fill_getPointColor (w c : Int) {p : Point} (hp : p.inBoard w = true) :
    ((ColorMap.mk w []).fill c).getPointColor p = Except.ok c := by
  rw [inBoard_iff] at hp
  obtain ⟨h1, h2⟩ := index_bounds hp.1 hp.2
  rw [ColorMap.getPointColor_eq_ok]
  simp only [ColorMap.fill]
  refine ⟨h1, ?_⟩
  rw [List.getElem?_replicate]
  simp [h2]

theorem ColorMap.fill_square (w c : Int) : ((ColorMap.mk w []).fill c).Square w :=
  ⟨rfl, by simp [ColorMap.fill]⟩

theorem ColorMap.fillColor_square {cm : ColorMap} {w : Int} (h : cm.Square w)
    (oldColor newColor : Int) : (cm.fillColor oldColor newColor).Square w :=
  ⟨h.1, by simp [ColorMap.fillColor, h.2]⟩

theorem ColorMap.fillColor_getPointColor {cm : ColorMap} {p : Point} {c : Int}
    (h : cm.getPointColor p = Except.ok c) (oldColor newColor : Int) :
    (cm.fillColor oldColor newColor).getPointColor p =
      Except.ok (if c = oldColor then newColor else c) := by
  rw [ColorMap.getPointColor_eq_ok] at h ⊢
  simp only [ColorMap.fillColor, List.getElem?_map, h.2, Option.map_some']
  exact ⟨h.1, trivial⟩

theorem ColorMap.queenColors_eq (cm : ColorMap) (f : Point → Int) :
    ∀ qs : List Point, (∀ q ∈ qs, cm.getPointColor q = Except.ok (f q)) →
      cm.queenColors qs = Except.ok (qs.map f) := by
  intro qs
  induction qs with
  | nil => intro _; rfl
  | cons q qs ih =>
    intro h
    simp only [ColorMap.queenColors, h q (List.mem_cons_self _ _),
      ih (fun q' hq' => h q' (List.mem_cons_of_mem _ hq')), List.map_cons]

/-- For a width of at least 4 the seeding part of `generateGame` returns a board
that satisfies the invariant, with a base colour of `[0,width)` on every cell
outside the queens. -/
theorem GameGenerator.seedBoard_spec {G : Type} (R : RandomSource G) (gen : GameGenerator)
    (g : G) (hw : 4 ≤ gen.gameSize) :
    ∃ board e g1 ys, gen.seedBoard R g = Except.ok (board, e, g1) ∧
      board.GameInv gen.gameSize ys ∧ (0 ≤ e ∧ e < gen.gameSize) ∧
      ∀ p : Point, p.inBoard gen.gameSize = true → p ∉ board.queens →
        board.getPointColor p = Except.ok e := by
  obtain ⟨ib, g1, hrun, hc, -⟩ := IncompleteBoard.genRandomQueens_complete R g gen.gameSize hw
  obtain ⟨hibw, hibcm, ys, hholds, hpl⟩ :=
    IncompleteBoard.genRandomQueens_result R gen.gameSize g hrun hc
  have hsq0 : ib.colorMap.Square gen.gameSize := by rw [hibcm]; exact ColorMap.fill_square _ _
  have hqin : ∀ q ∈ ib.queens, q.inBoard gen.gameSize = true := by
    intro q hq
    rw [← hibw]; exact hholds.queen_inBoard hq
  obtain ⟨colored, hcolor, -, hcq, hsq1, hcol1⟩ :=
    IncompleteBoard.applyColors_spec gen.gameSize ib.queens ib hsq0 hqin
  have hdraw := R.uniformInt_mem g1 0 (gen.gameSize - 1) (by omega)
  -- the colour map of the board
  have hsq2 : (colored.colorMap.fillColor (-1) (R.uniformInt g1 0 (gen.gameSize - 1)).1).Square
      gen.gameSize := ColorMap.fillColor_square hsq1 _ _
  have hcol2 : ∀ p : Point, p.inBoard gen.gameSize = true →
      (colored.colorMap.fillColor (-1) (R.uniformInt g1 0 (gen.gameSize - 1)).1).getPointColor p =
        Except.ok (if p ∈ ib.queens then p.x else (R.uniformInt g1 0 (gen.gameSize - 1)).1) := by
    intro p hp
    have h1 := hcol1 p hp
    by_cases hmem : p ∈ ib.queens
    · rw [if_pos hmem] at h1
      rw [ColorMap.fillColor_getPointColor h1, if_pos hmem]
      have : p.x ≠ -1 := by rw [inBoard_iff] at hp; omega
      rw [if_neg this]
    · rw [if_neg hmem, hibcm] at h1
      have h0 : ((ColorMap.mk gen.gameSize []).fill (-1)).getPointColor p = Except.ok (-1) :=
        ColorMap.fill_getPointColor _ _ hp
      rw [show (IncompleteBoard.new gen.gameSize []).colorMap =
        (ColorMap.mk gen.gameSize []).fill (-1) from rfl, h0] at h1
      rw [ColorMap.fillColor_getPointColor h1, if_neg hmem]
      simp
  have hqcols : (colored.colorMap.fillColor (-1)
      (R.uniformInt g1 0 (gen.gameSize - 1)).1).queenColors ib.queens =
      Except.ok (ib.queens.map (fun q => q.x)) :=
    ColorMap.queenColors_eq _ _ _ (fun q hq => by rw [hcol2 q (hqin q hq), if_pos hq])
  have hlen : (ys.length : Int) = gen.gameSize := hpl.1
  refine ⟨⟨(ib.queens.length : Int), ib.queens, ib.queens.map (fun q => q.x),
    colored.colorMap.fillColor (-1) (R.uniformInt g1 0 (gen.gameSize - 1)).1⟩,
    (R.uniformInt g1 0 (gen.gameSize - 1)).1, (R.uniformInt g1 0 (gen.gameSize - 1)).2, ys,
    ?_, ?_, by omega, ?_⟩
  · simp only [GameGenerator.seedBoard, hrun, hcolor, IncompleteBoard.makeBoard,
      IncompleteBoard.fillColor, Board.new, hcq, hqcols]
  · refine ⟨?_, hsq2, hholds.2.1, ⟨hlen, (isPartial_false_congr _ _ _ _).1 hpl.2⟩, ?_, ?_, ?_⟩
    · show (ib.queens.length : Int) = gen.gameSize
      rw [hholds.2.1, columnsFrom_length]; exact hlen
    · show ib.queens.map (fun q => q.x) = loopRange gen.gameSize
      rw [hholds.2.1, columnsFrom_map_x, hlen]
    · intro q hq
      exact (hcol2 q (hqin q hq)).trans (by rw [if_pos hq])
    · intro p hp
      refine ⟨_, hcol2 p hp, ?_⟩
      split
      · rw [inBoard_iff] at hp; exact hp.1
      · omega
  · intro p hp hnq
    exact (hcol2 p hp).trans (by rw [if_neg hnq])

/-! ## The spreading loop -/

/-- One spread keeps the invariant of the generated board, and keeps the board
uniquely solvable. -/
theorem GameGenerator.doOneColorSpread_inv {G : Type} (R : RandomSource G)
    (gen : GameGenerator) (uninit : Point) {b : Board} {ys : List Int} (e : Int) (g : G)
    (h : b.GameInv gen.gameSize ys) :
    ∃ r b' g', gen.doOneColorSpread R uninit b e g = Except.ok (r, b', g') ∧
      b'.GameInv gen.gameSize ys ∧
      (GameGenerator.isValidGame b = Except.ok true →
        GameGenerator.isValidGame b' = Except.ok true) := by
  obtain ⟨r, b', g', hrun⟩ := gen.doOneColorSpread_total R uninit e g h.1.symm
    (by rw [h.1]; exact h.2.1) h.toCovered
  refine ⟨r, b', g', hrun, ?_⟩
  rcases gen.doOneColorSpread_post R uninit b e g hrun with
    ⟨-, rfl⟩ | ⟨-, cp, ⟨hin, -, -, ⟨p0, hp0, hp0c, -⟩, hnq, -⟩, hset, hv⟩
  · exact ⟨h, fun hv => hv⟩
  · obtain ⟨c, hc, hcr⟩ := h.2.2.2.2.2.2 p0 (mem_scanPoints.1 hp0)
    rw [hp0c] at hc
    cases hc
    exact ⟨h.setPointColor hin (by simpa [Board.pointIsQueen] using hnq) hcr hset, fun _ => hv⟩

theorem GameGenerator.spreadLoop_inv {G : Type} (R : RandomSource G) (gen : GameGenerator)
    (uninit : Point) (e : Int) {ys : List Int} :
    ∀ (n : Nat) (b : Board) (g : G), b.GameInv gen.gameSize ys →
      GameGenerator.isValidGame b = Except.ok true →
      ∃ b' g', gen.spreadLoop R uninit e n b g = Except.ok (b', g') ∧
        b'.GameInv gen.gameSize ys ∧ GameGenerator.isValidGame b' = Except.ok true := by
  intro n
  induction n with
  | zero => intro b g h hv; exact ⟨b, g, rfl, h, hv⟩
  | succ n ih =>
    intro b g h hv
    obtain ⟨r, b1, g1, hrun, h1, hv1⟩ := gen.doOneColorSpread_inv R uninit e g h
    obtain ⟨b', g', hloop, h', hv'⟩ := ih b1 g1 h1 (hv1 hv)
    exact ⟨b', g', by simp only [GameGenerator.spreadLoop, hrun]; exact hloop, h', hv'⟩

theorem columnsFrom_injective {k : Int} {ys zs : List Int}
    (h : columnsFrom k ys = columnsFrom k zs) : ys = zs := by
  rw [← columnsFrom_map_y k ys, ← columnsFrom_map_y k zs, h]

theorem Board.GameInv.labelsOK {b : Board} {w : Int} {ys : List Int} (h : b.GameInv w ys) :
    b.LabelsOK w := by
  have hnd : b.queenColors.Nodup := by rw [h.2.2.2.2.1]; exact loopRange_nodup w
  refine ⟨?_, hnd, ?_⟩
  · intro p hp
    obtain ⟨c, hc, hr⟩ := h.2.2.2.2.2.2 p hp
    obtain ⟨y, -, hq, -⟩ := h.queenOf hr
    refine ⟨c, hc, hr, ?_, _, hq⟩
    apply List.count_eq_one_of_mem hnd
    rw [h.2.2.2.2.1]
    exact mem_loopRange.2 hr
  · intro i q hi
    have hq : q ∈ b.queens := List.getElem?_mem hi
    have hcol := h.2.2.2.2.2.1 q hq
    obtain ⟨-, -, hqs, ⟨hlen, -⟩, hqc, -, -⟩ := h
    rw [hqs, columnsFrom_getElem?] at hi
    cases hy : ys[i]? with
    | none => rw [hy] at hi; simp at hi
    | some y =>
      rw [hy] at hi
      simp only [Option.map_some', Option.some.injEq, zero_add] at hi
      subst hi
      have hilt : i < ys.length := by
        by_contra hge
        rw [List.getElem?_eq_none (by omega)] at hy; cases hy
      refine ⟨rfl, hcol, ?_⟩
      rw [hqc, loopRange_getElem?, if_pos (by omega)]
theorem GameGenerator.spreadLoop_add {G : Type} (R : RandomSource G) (gen : GameGenerator)
    (uninit : Point) (e : Int) :
    ∀ (k m : Nat) (b : Board) (g : G),
      gen.spreadLoop R uninit e (k + m) b g =
        match gen.spreadLoop R uninit e k b g with
        | Except.ok (b', g') => gen.spreadLoop R uninit e m b' g'
        | Except.error err => Except.error err := by
  intro k
  induction k with
  | zero => intro m b g; simp [GameGenerator.spreadLoop]
  | succ k ih =>
    intro m b g
    have : k + 1 + m = (k + m) + 1 := by omega
    rw [this]
    simp only [GameGenerator.spreadLoop]
    split
    · rfl
    · exact ih m _ _

/-- The run of `generateGame` for a width of at least 4: the seeding returns a
board satisfying the invariant, and after every number `k` of spreads the board
satisfies the invariant and is uniquely solvable. -/
theorem GameGenerator.generateGame_inv {G : Type} (R : RandomSource G) (gen : GameGenerator)
    (uninit : Point) (g : G) (hw : 4 ≤ gen.gameSize) :
    ∃ seed e g1 ys, gen.seedBoard R g = Except.ok (seed, e, g1) ∧
      ∀ k : Nat, ∃ board gk, gen.spreadLoop R uninit e k seed g1 = Except.ok (board, gk) ∧
        board.GameInv gen.gameSize ys ∧ GameGenerator.isValidGame board = Except.ok true := by
  obtain ⟨seed, e, g1, ys, hseed, hinv, he, hcols⟩ := gen.seedBoard_spec R g hw
  exact ⟨seed, e, g1, ys, hseed, fun k =>
    gen.spreadLoop_inv R uninit e k seed g1 hinv (hinv.seed_valid he hcols)⟩

/-! ## The solver leaves its board as it found it -/

theorem hasOneSolutionLoop_frame (rec : IncompleteBoard → Int → M (Bool × IncompleteBoard × Int))
    (hrec : ∀ b n r b' n', rec b n = Except.ok (r, b', n') → b' = b) :
    ∀ (ys : List Int) (b : IncompleteBoard) (n : Int) (r : Bool) (b' : IncompleteBoard)
      (n' : Int), hasOneSolutionLoop rec ys b n = Except.ok (r, b', n') → b' = b := by
  intro ys
  induction ys with
  | nil =>
    intro b n r b' n' h
    simp only [hasOneSolutionLoop, Except.ok.injEq, Prod.mk.injEq] at h
    exact h.2.1.symm
  | cons y ys ih =>
    intro b n r b' n' h
    simp only [hasOneSolutionLoop] at h
    split at h
    · cases h
    · exact ih b n r b' n' h
    · split at h
      · cases h
      · next r1 b1 n1 hr =>
        have hb1 := hrec _ _ _ _ _ hr
        subst hb1
        rw [IncompleteBoard.removeQueen_addQueen] at h
        split at h
        · simp only [Except.ok.injEq, Prod.mk.injEq] at h
          exact h.2.1.symm
        · exact ih b n1 r b' n' h

/-- Whenever the recursive solver returns, from any state and any counter, the
board it leaves is the board it was given. -/
theorem IncompleteBoard.hasOneSolutionAux_frame :
    ∀ (fuel : Nat) (b : IncompleteBoard) (n : Int) (r : Bool) (b' : IncompleteBoard) (n' : Int),
      b.hasOneSolutionAux fuel n = Except.ok (r, b', n') → b' = b := by
  intro fuel
  induction fuel with
  | zero => intro b n r b' n' h; simp [IncompleteBoard.hasOneSolutionAux] at h
  | succ fuel ih =>
    intro b n r b' n' h
    simp only [IncompleteBoard.hasOneSolutionAux] at h
    split at h
    · simp only [Except.ok.injEq, Prod.mk.injEq] at h
      exact h.2.1.symm
    · exact hasOneSolutionLoop_frame _ ih _ b n r b' n' h
/-! ## The search without the early exit -/

theorem fullSearchLoop_spec (rec : IncompleteBoard → Int → M (Bool × IncompleteBoard × Int))
    {b : IncompleteBoard} {rs : List Int} (h : b.Holds rs) (hlt : (rs.length : Int) < b.width)
    (k : Nat)
    (hrec : ∀ (y : Int) (m : Int), (0 ≤ y ∧ y < b.width) →
      ∃ r, rec (b.addQueen ⟨b.xDepth, y⟩) m = Except.ok (r, b.addQueen ⟨b.xDepth, y⟩,
        m + ((b.addQueen ⟨b.xDepth, y⟩).completions k).length)) :
    ∀ (ys : List Int) (m : Int), (∀ y ∈ ys, 0 ≤ y ∧ y < b.width) →
      fullSearchLoop rec ys b m = Except.ok
        (decide (m + ((ys.flatMap (fun y =>
          if b.queenIsValid ⟨b.xDepth, y⟩ true = Except.ok true then
            ((b.addQueen ⟨b.xDepth, y⟩).completions k).map (fun l => y :: l)
          else [])).length : Int) = 1), b,
         m + ((ys.flatMap (fun y =>
          if b.queenIsValid ⟨b.xDepth, y⟩ true = Except.ok true then
            ((b.addQueen ⟨b.xDepth, y⟩).completions k).map (fun l => y :: l)
          else [])).length : Int)) := by
  intro ys
  induction ys with
  | nil => intro m _; simp [fullSearchLoop]
  | cons y ys ih =>
    intro m hys
    have hy := hys y (List.mem_cons_self _ _)
    have hys' : ∀ y' ∈ ys, 0 ≤ y' ∧ y' < b.width :=
      fun y' hy' => hys y' (List.mem_cons_of_mem _ hy')
    obtain ⟨r, hr, -⟩ := h.queenIsValid hlt hy true
    simp only [fullSearchLoop, hr, List.flatMap_cons, List.length_append]
    cases r with
    | false =>
      simp only [Bool.false_eq_true, if_false, List.length_nil, Nat.cast_zero, zero_add,
        reduceCtorEq]
      have := ih m hys'
      simpa using this
    | true =>
      obtain ⟨r1, hr1⟩ := hrec y m hy
      simp only [hr1, if_true, List.length_map, IncompleteBoard.removeQueen_addQueen]
      rw [ih _ hys']
      push_cast
      simp only [add_assoc]

theorem IncompleteBoard.fullSearchAux_spec :
    ∀ (fuel : Nat) (b : IncompleteBoard) (rs : List Int) (n : Int), b.Holds rs →
      (b.width - rs.length).toNat < fuel →
      ∃ r, b.fullSearchAux fuel n = Except.ok
          (r, b, n + ((b.completions (b.width - rs.length).toNat).length : Int)) ∧
        (r = true ↔ b.isComplete = true ∨
          n + ((b.completions (b.width - rs.length).toNat).length : Int) = 1) := by
  intro fuel
  induction fuel with
  | zero => intro b rs n _ hf; omega
  | succ fuel ih =>
    intro b rs n h hf
    simp only [IncompleteBoard.fullSearchAux]
    by_cases hc : b.isComplete = true
    · have hk : (b.width - rs.length).toNat = 0 := by
        have := h.isComplete_iff.1 hc
        omega
      simp only [hc, if_true, hk, IncompleteBoard.completions, List.length_singleton,
        Nat.cast_one, true_or, iff_true]
      exact ⟨true, rfl, rfl⟩
    · have hlt : (rs.length : Int) < b.width := by
        rcases lt_or_eq_of_le h.2.2.2.1 with h' | h'
        · exact h'
        · exact absurd (h.isComplete_iff.2 h') hc
      obtain ⟨k, hk⟩ : ∃ k, (b.width - rs.length).toNat = k + 1 :=
        ⟨(b.width - rs.length).toNat - 1, by omega⟩
      have hloop := fullSearchLoop_spec (IncompleteBoard.fullSearchAux fuel) h hlt k
        (fun y m hy => by
          have hh := h.addQueen hlt hy
          have hk' : ((b.addQueen ⟨b.xDepth, y⟩).width -
              ((rs ++ [y]).length : Nat)).toNat = k := by
            simp only [IncompleteBoard.addQueen, List.length_append, List.length_singleton]
            push_cast; omega
          obtain ⟨r, hr, -⟩ := ih (b.addQueen ⟨b.xDepth, y⟩) (rs ++ [y]) m hh (by omega)
          rw [hk'] at hr
          exact ⟨r, hr⟩)
        (loopRange b.width) n (fun y hy => mem_loopRange.1 hy)
      simp only [hc, Bool.false_eq_true, if_false, hk, IncompleteBoard.completions, false_or]
      exact ⟨_, hloop, by simp⟩

/-- The number of complete valid placements is the length of their enumeration. -/
theorem ncard_placements (width : Int) (cm : ColorMap) (hw : 0 ≤ width)
    (hcm : cm.Square width) :
    Set.ncard {ys : List Int | IsValidPlacement cm width ys} =
      ((IncompleteBoard.mk width cm [] 0).completions width.toNat).length := by
  have hh : (IncompleteBoard.mk width cm [] 0).Holds [] :=
    ⟨hcm, rfl, rfl, by simpa using hw, by simp⟩
  have hmem := IncompleteBoard.mem_completions width.toNat (IncompleteBoard.mk width cm [] 0) []
    hh (isPartial_nil _ _ _) (by simp)
  have hnd := IncompleteBoard.completions_nodup width.toNat (IncompleteBoard.mk width cm [] 0)
  have hset : {ys : List Int | IsValidPlacement cm width ys} =
      ↑(((IncompleteBoard.mk width cm [] 0).completions width.toNat).toFinset) := by
    ext ys
    simp only [Set.mem_setOf_eq, Finset.mem_coe, List.mem_toFinset]
    rw [hmem ys, ← isPlacement_iff]
    simp
  rw [hset, Set.ncard_coe_Finset, List.toFinset_card_of_nodup hnd]

theorem ncard_placements_neg (width : Int) (cm : ColorMap) (hw : width < 0) :
    Set.ncard {ys : List Int | IsValidPlacement cm width ys} = 0 := by
  have : {ys : List Int | IsValidPlacement cm width ys} = ∅ := by
    ext ys
    simp only [Set.mem_setOf_eq, Set.mem_empty_iff_false, iff_false]
    rintro ⟨hlen, -⟩
    omega
  rw [this, Set.ncard_empty]

/-- The solver with and without the early exit, started without queens on a square
grid of any width: both return and leave the board as it was; the counter of the
full search is the number `N` of complete valid placements, the counter of the
solver is `min N 2`, and both answer `true` exactly when `N = 1`. -/
theorem IncompleteBoard.hasOneSolution_counter (width : Int) (cm : ColorMap)
    (hcm : cm.Square width) :
    ∃ r n rf nf,
      (IncompleteBoard.mk width cm [] 0).hasOneSolutionAux
          (IncompleteBoard.mk width cm [] 0).searchFuel 0 =
        Except.ok (r, IncompleteBoard.mk width cm [] 0, n) ∧
      (IncompleteBoard.mk width cm [] 0).fullSearchAux
          (IncompleteBoard.mk width cm [] 0).searchFuel 0 =
        Except.ok (rf, IncompleteBoard.mk width cm [] 0, nf) ∧
      nf = (Set.ncard {ys : List Int | IsValidPlacement cm width ys} : Int) ∧
      n = min (Set.ncard {ys : List Int | IsValidPlacement cm width ys} : Int) 2 ∧
      (r = true ↔ Set.ncard {ys : List Int | IsValidPlacement cm width ys} = 1) ∧
      rf = r := by
  rcases lt_or_le width 0 with hneg | hw
  · have hnil : loopRange width = [] := by
      simp only [loopRange]
      have : width.toNat = 0 := by omega
      rw [this]; rfl
    have hinc : (IncompleteBoard.mk width cm [] 0).isComplete = false := by
      simp [IncompleteBoard.isComplete]; omega
    rw [ncard_placements_neg width cm hneg]
    refine ⟨false, 0, false, 0, ?_, ?_, rfl, by simp, by simp, rfl⟩
    · simp [IncompleteBoard.hasOneSolutionAux, IncompleteBoard.searchFuel, hinc, hnil,
        hasOneSolutionLoop]
    · simp [IncompleteBoard.fullSearchAux, IncompleteBoard.searchFuel, hinc, hnil,
        fullSearchLoop]
  · have hh : (IncompleteBoard.mk width cm [] 0).Holds [] :=
      ⟨hcm, rfl, rfl, by simpa using hw, by simp⟩
    have hk : ((IncompleteBoard.mk width cm [] 0).width - (([] : List Int).length : Int)).toNat =
        width.toNat := by simp
    obtain ⟨r, hr, hiff⟩ := IncompleteBoard.hasOneSolutionAux_spec
      (IncompleteBoard.mk width cm [] 0).searchFuel _ [] 0 hh
      (by simp [IncompleteBoard.searchFuel]) (le_refl _) (by norm_num)
    obtain ⟨rf, hrf, hifff⟩ := IncompleteBoard.fullSearchAux_spec
      (IncompleteBoard.mk width cm [] 0).searchFuel _ [] 0 hh
      (by simp [IncompleteBoard.searchFuel])
    rw [hk] at hr hiff hrf hifff
    rw [ncard_placements width cm hw hcm]
    have hcomplete : (IncompleteBoard.mk width cm [] 0).isComplete = true →
        ((IncompleteBoard.mk width cm [] 0).completions width.toNat).length = 1 := by
      intro hc
      have h0 : 0 = width := by simpa [IncompleteBoard.isComplete] using hc
      subst h0
      simp [IncompleteBoard.completions, IncompleteBoard.isComplete]
    have hr_iff : r = true ↔
        ((IncompleteBoard.mk width cm [] 0).completions width.toNat).length = 1 := by
      rw [hiff]
      constructor
      · rintro (hc | hmin)
        · exact hcomplete hc
        · omega
      · intro hl; right; rw [hl]; simp
    have hrf_iff : rf = true ↔
        ((IncompleteBoard.mk width cm [] 0).completions width.toNat).length = 1 := by
      rw [hifff]
      constructor
      · rintro (hc | hsum)
        · exact hcomplete hc
        · omega
      · intro hl; right; rw [hl]; simp
    refine ⟨r, _, rf, _, hr, hrf, by simp, by simp, hr_iff, ?_⟩
    cases r <;> cases rf <;> simp_all
/-! ## Symmetry of reachability, and the widths without a placement -/

theorem Board.step_symm {b : Board} {c : Int} {p q : Point} (h : b.Step c p q) :
    b.Step c q p := by
  obtain ⟨hp, hq, d, hd, rfl⟩ := h
  exact ⟨hq, hp, (-d.1, -d.2), neg_dir_mem hd, (shift_neg p d).symm⟩

theorem Board.reach_symm {b : Board} {c : Int} {p q : Point} (h : b.Reach c p q) :
    b.Reach c q p :=
  Relation.ReflTransGen.symmetric (fun _ _ hs => Board.step_symm hs) h

/-- On a labelled board the connectivity search gives the same answer in both
directions. -/
theorem Board.pointsAreConnected_comm {b : Board} (hL : b.Labelled) {p q : Point}
    (hp : p.inBoard b.width = true) (hq : q.inBoard b.width = true) :
    ∃ r, b.pointsAreConnected p q = Except.ok r ∧ b.pointsAreConnected q p = Except.ok r := by
  obtain ⟨lp, hlp⟩ := hL p hp
  obtain ⟨lq, hlq⟩ := hL q hq
  obtain ⟨r, hr, hiff⟩ := Board.pointsAreConnected_spec hL hp hlq
  obtain ⟨r', hr', hiff'⟩ := Board.pointsAreConnected_spec hL hq hlp
  refine ⟨r, hr, ?_⟩
  rw [hr']
  congr 1
  have : r' = true ↔ r = true := by
    rw [hiff, hiff', hlp, hlq]
    constructor
    · rintro ⟨h1, h2⟩
      cases h1
      exact ⟨rfl, Board.reach_symm h2⟩
    · rintro ⟨h1, h2⟩
      cases h1
      exact ⟨rfl, Board.reach_symm h2⟩
  cases r <;> cases r' <;> simp_all

/-- The placement search started on the empty board of a width `≥ 0` returns, and
ends complete exactly when a valid placement of that width exists. -/
theorem IncompleteBoard.genRandomQueens_iff {G : Type} (R : RandomSource G) (g : G)
    (width : Int) (hw : 0 ≤ width) :
    ∃ b' g', (IncompleteBoard.new width []).genRandomQueens R g = Except.ok (b', g') ∧
      (b'.isComplete = true ↔
        ∃ ys, IsPlacement (IncompleteBoard.new width []).colorMap width false ys) := by
  obtain ⟨b', g', hrun, hpost⟩ := IncompleteBoard.genRandomQueensAux_spec R
    (IncompleteBoard.new width []).searchFuel (IncompleteBoard.new width []) [] g
    (IncompleteBoard.new_holds hw) (isPartial_nil _ _ _)
    (by simp [IncompleteBoard.searchFuel, IncompleteBoard.new])
  refine ⟨b', g', hrun, ?_⟩
  rcases hpost with ⟨rfl, hinc, hnone⟩ | ⟨hc, hw', -, ys, hh, hp⟩
  · constructor
    · intro hc; rw [hinc] at hc; cases hc
    · rintro ⟨ys, hys⟩
      exact absurd ⟨ys, by simpa [IncompleteBoard.new] using hys⟩ hnone
  · constructor
    · intro _
      refine ⟨ys, ?_, by simpa using hp⟩
      have := (IncompleteBoard.Holds.isComplete_iff hh).1 hc
      rw [hw'] at this
      simpa [IncompleteBoard.new] using this
    · intro _; exact hc

theorem no_placement_two (cm : ColorMap) : ¬ ∃ ys, IsPlacement cm 2 false ys := by
  rintro ⟨ys, hlen, hrange, hnd, -, hchain⟩
  match ys, hlen, hrange, hnd, hchain with
  | [a, c], _, hrange, hnd, hchain =>
    have ha := hrange a (by simp)
    have hc := hrange c (by simp)
    simp only [List.nodup_cons, List.mem_singleton, List.not_mem_nil, not_false_eq_true,
      List.nodup_nil, and_true] at hnd
    simp only [List.chain'_cons, List.chain'_singleton, and_true] at hchain
    apply hchain
    rcases abs_cases (c - a) with ⟨h, h0⟩ | ⟨h, h0⟩ <;> omega

theorem no_placement_three (cm : ColorMap) : ¬ ∃ ys, IsPlacement cm 3 false ys := by
  rintro ⟨ys, hlen, hrange, hnd, -, hchain⟩
  match ys, hlen, hrange, hnd, hchain with
  | [a, c, d], _, hrange, hnd, hchain =>
    have ha := hrange a (by simp)
    have hc := hrange c (by simp)
    have hd := hrange d (by simp)
    simp only [List.nodup_cons, List.mem_cons, List.mem_singleton, List.not_mem_nil,
      not_false_eq_true, List.nodup_nil, and_true, not_or, or_false] at hnd
    simp only [List.chain'_cons, List.chain'_singleton, and_true] at hchain
    obtain ⟨h1, h2⟩ := hchain
    have e1 : |c - a| = 1 ∨ |d - c| = 1 := by
      rcases abs_cases (c - a) with ⟨h, h0⟩ | ⟨h, h0⟩ <;>
        rcases abs_cases (d - c) with ⟨h', h0'⟩ | ⟨h', h0'⟩ <;> omega
    rcases e1 with e | e
    · exact h1 e
    · exact h2 e

theorem placement_one (cm : ColorMap) : IsPlacement cm 1 false [0] := by
  refine ⟨rfl, ?_, by simp, by simp, by simp⟩
  intro y hy
  simp at hy
  omega
/-! ## The plain grid is connected -/

theorem gridStep_symm {w : Int} {p q : Point} (h : GridStep w p q) : GridStep w q p := by
  obtain ⟨hp, hq, d, hd, rfl⟩ := h
  exact ⟨hq, hp, (-d.1, -d.2), neg_dir_mem hd, (shift_neg p d).symm⟩

theorem grid_row (w : Int) (y : Int) :
    ∀ (n : Nat) (x : Int), (⟨x, y⟩ : Point).inBoard w = true →
      (⟨x + n, y⟩ : Point).inBoard w = true →
      Relation.ReflTransGen (GridStep w) ⟨x, y⟩ ⟨x + n, y⟩ := by
  intro n
  induction n with
  | zero => intro x _ _; simp only [Nat.cast_zero, add_zero]; exact Relation.ReflTransGen.refl
  | succ n ih =>
    intro x h0 h1
    rw [inBoard_iff] at h0 h1
    simp only [Nat.cast_add, Nat.cast_one] at h0 h1
    have hmid : (⟨x + n, y⟩ : Point).inBoard w = true := by
      rw [inBoard_iff]; simp only; omega
    refine Relation.ReflTransGen.tail (ih x (inBoard_iff.2 h0) hmid) ?_
    refine ⟨hmid, inBoard_iff.2 (by simpa using h1), (1, 0), by simp [mem_dirs_iff], ?_⟩
    simp only [Point.shift, Nat.cast_add, Nat.cast_one, Point.mk.injEq]
    omega

theorem grid_col (w : Int) (x : Int) :
    ∀ (n : Nat) (y : Int), (⟨x, y⟩ : Point).inBoard w = true →
      (⟨x, y + n⟩ : Point).inBoard w = true →
      Relation.ReflTransGen (GridStep w) ⟨x, y⟩ ⟨x, y + n⟩ := by
  intro n
  induction n with
  | zero => intro y _ _; simp only [Nat.cast_zero, add_zero]; exact Relation.ReflTransGen.refl
  | succ n ih =>
    intro y h0 h1
    rw [inBoard_iff] at h0 h1
    simp only [Nat.cast_add, Nat.cast_one] at h0 h1
    have hmid : (⟨x, y + n⟩ : Point).inBoard w = true := by
      rw [inBoard_iff]; simp only; omega
    refine Relation.ReflTransGen.tail (ih y (inBoard_iff.2 h0) hmid) ?_
    refine ⟨hmid, inBoard_iff.2 (by simpa using h1), (0, 1), by simp [mem_dirs_iff], ?_⟩
    simp only [Point.shift, Nat.cast_add, Nat.cast_one, Point.mk.injEq]
    omega

/-- Any two cells of the grid are joined by a walk through orthogonally adjacent
cells of the grid. -/
theorem grid_connected (w : Int) (u v : Point) (hu : u.inBoard w = true)
    (hv : v.inBoard w = true) : Relation.ReflTransGen (GridStep w) u v := by
  have hsymm : Symmetric (GridStep w) := fun _ _ h => gridStep_symm h
  have hu' := inBoard_iff.1 hu
  have hv' := inBoard_iff.1 hv
  have hmid : (⟨v.x, u.y⟩ : Point).inBoard w = true := inBoard_iff.2 ⟨hv'.1, hu'.2⟩
  have h1 : Relation.ReflTransGen (GridStep w) u ⟨v.x, u.y⟩ := by
    rcases le_total u.x v.x with hle | hle
    · have := grid_row w u.y (v.x - u.x).toNat u.x hu
        (by rw [show u.x + ((v.x - u.x).toNat : Int) = v.x by omega]; exact hmid)
      rw [show u.x + ((v.x - u.x).toNat : Int) = v.x by omega] at this
      exact this
    · have := grid_row w u.y (u.x - v.x).toNat v.x hmid
        (by rw [show v.x + ((u.x - v.x).toNat : Int) = u.x by omega]; exact hu)
      rw [show v.x + ((u.x - v.x).toNat : Int) = u.x by omega] at this
      exact Relation.ReflTransGen.symmetric hsymm this
  have h2 : Relation.ReflTransGen (GridStep w) ⟨v.x, u.y⟩ v := by
    rcases le_total u.y v.y with hle | hle
    · have := grid_col w v.x (v.y - u.y).toNat u.y hmid
        (by rw [show u.y + ((v.y - u.y).toNat : Int) = v.y by omega]; exact hv)
      rw [show u.y + ((v.y - u.y).toNat : Int) = v.y by omega] at this
      exact this
    · have := grid_col w v.x (u.y - v.y).toNat v.y hv
        (by rw [show v.y + ((u.y - v.y).toNat : Int) = u.y by omega]; exact hmid)
      rw [show v.y + ((u.y - v.y).toNat : Int) = u.y by omega] at this
      exact Relation.ReflTransGen.symmetric hsymm this
  exact Relation.ReflTransGen.trans h1 h2
/-! ## The seeded board is connected -/

/-- On the seeded board every in-board cell that touches a queen cell, by a side or
by a corner, holds the base label. -/
theorem Board.GameInv.king_base {b : Board} {w : Int} {ys : List Int} {e : Int}
    (h : b.GameInv w ys)
    (hseed : ∀ p : Point, p.inBoard w = true → p ∉ b.queens → b.getPointColor p = Except.ok e)
    {x k : Point} (hx : x ∈ b.queens) (hk : k.inBoard w = true)
    (hdx : -1 ≤ k.x - x.x ∧ k.x - x.x ≤ 1) (hdy : -1 ≤ k.y - x.y ∧ k.y - x.y ≤ 1)
    (hne : k ≠ x) : b.getPointColor k = Except.ok e := by
  apply hseed k hk
  intro hkq
  obtain ⟨-, -, hqs, ⟨-, -, hnd, -, hchain⟩, -, -, -⟩ := h
  rw [hqs, mem_columnsFrom_zero] at hx hkq
  obtain ⟨hx0, hxy⟩ := hx
  obtain ⟨hk0, hky⟩ := hkq
  have hcases : k.x = x.x ∨ k.x = x.x + 1 ∨ x.x = k.x + 1 := by omega
  rcases hcases with heq | heq | heq
  · rw [heq, hxy] at hky
    apply hne
    cases k; cases x
    simp only [Point.mk.injEq]
    simp only at heq hky
    exact ⟨heq, (Option.some.inj hky).symm⟩
  · have hidx : k.x.toNat = x.x.toNat + 1 := by omega
    rw [hidx] at hky
    have h1 := chain'_getElem? hchain hxy hky
    have h2 := (nodup_iff_getElem? ys).1 hnd _ _ _ _ hxy hky (by omega)
    apply h1
    rcases abs_cases (k.y - x.y) with ⟨ha, ha0⟩ | ⟨ha, ha0⟩ <;> omega
  · have hidx : x.x.toNat = k.x.toNat + 1 := by omega
    rw [hidx] at hxy
    have h1 := chain'_getElem? hchain hky hxy
    have h2 := (nodup_iff_getElem? ys).1 hnd _ _ _ _ hky hxy (by omega)
    apply h1
    rcases abs_cases (x.y - k.y) with ⟨ha, ha0⟩ | ⟨ha, ha0⟩ <;> omega

/-- Two steps round a corner: from the neighbour `x + da` of `x` to the neighbour
`x + dc`, for perpendicular directions, through the cell `x + da + dc`. -/
theorem Board.detour_corner {b : Board} {e : Int} {x : Point}
    (hK : ∀ k : Point, k.inBoard b.width = true → (-1 ≤ k.x - x.x ∧ k.x - x.x ≤ 1) →
      (-1 ≤ k.y - x.y ∧ k.y - x.y ≤ 1) → k ≠ x → b.getPointColor k = Except.ok e)
    {da dc : Int × Int} (hda : da ∈ dirs) (hdc : dc ∈ dirs)
    (hperp : da.1 * dc.1 + da.2 * dc.2 = 0)
    (ha : (x.shift da).inBoard b.width = true) (hc : (x.shift dc).inBoard b.width = true) :
    b.Reach e (x.shift da) (x.shift dc) := by
  have hgood : ∀ k : Point, k.inBoard b.width = true → (-1 ≤ k.x - x.x ∧ k.x - x.x ≤ 1) →
      (-1 ≤ k.y - x.y ∧ k.y - x.y ≤ 1) → k ≠ x →
      (k.inBoard b.width = true ∧ b.getPointColor k = Except.ok e) :=
    fun k h1 h2 h3 h4 => ⟨h1, hK k h1 h2 h3 h4⟩
  have hne : ∀ k : Point, (k.x ≠ x.x ∨ k.y ≠ x.y) → k ≠ x := by
    intro k hk heq; subst heq; omega
  rw [mem_dirs_iff] at hda hdc
  rw [inBoard_iff] at ha hc
  simp only [Point.shift] at ha hc
  have hcorner : ((x.shift da).shift dc).inBoard b.width = true := by
    rw [inBoard_iff]
    simp only [Point.shift]
    rcases hda with rfl | rfl | rfl | rfl <;> rcases hdc with rfl | rfl | rfl | rfl <;>
      simp only at ha hc hperp ⊢ <;> omega
  have g1 : (x.shift da).inBoard b.width = true ∧ b.getPointColor (x.shift da) = Except.ok e := by
    apply hgood _ (inBoard_iff.2 ha)
    · simp only [Point.shift]; rcases hda with rfl | rfl | rfl | rfl <;> simp
    · simp only [Point.shift]; rcases hda with rfl | rfl | rfl | rfl <;> simp
    · apply hne; simp only [Point.shift]
      rcases hda with rfl | rfl | rfl | rfl <;> simp
  have g2 : ((x.shift da).shift dc).inBoard b.width = true ∧
      b.getPointColor ((x.shift da).shift dc) = Except.ok e := by
    apply hgood _ hcorner
    · simp only [Point.shift]
      rcases hda with rfl | rfl | rfl | rfl <;> rcases hdc with rfl | rfl | rfl | rfl <;>
        simp only at hperp ⊢ <;> omega
    · simp only [Point.shift]
      rcases hda with rfl | rfl | rfl | rfl <;> rcases hdc with rfl | rfl | rfl | rfl <;>
        simp only at hperp ⊢ <;> omega
    · apply hne; simp only [Point.shift]
      rcases hda with rfl | rfl | rfl | rfl <;> rcases hdc with rfl | rfl | rfl | rfl <;>
        simp only at hperp ⊢ <;> omega
  have g3 : (x.shift dc).inBoard b.width = true ∧ b.getPointColor (x.shift dc) = Except.ok e := by
    apply hgood _ (inBoard_iff.2 hc)
    · simp only [Point.shift]; rcases hdc with rfl | rfl | rfl | rfl <;> simp
    · simp only [Point.shift]; rcases hdc with rfl | rfl | rfl | rfl <;> simp
    · apply hne; simp only [Point.shift]
      rcases hdc with rfl | rfl | rfl | rfl <;> simp
  have hda' : da ∈ dirs := (mem_dirs_iff da).2 hda
  have hdc' : dc ∈ dirs := (mem_dirs_iff dc).2 hdc
  refine Relation.ReflTransGen.head ⟨g1, g2, dc, hdc', rfl⟩ ?_
  refine Relation.ReflTransGen.single ⟨g2, g3, (-da.1, -da.2), neg_dir_mem hda', ?_⟩
  cases x
  simp only [Point.shift, Point.mk.injEq]
  constructor <;> ring
theorem exists_side {w : Int} {x : Point} (hw : 2 ≤ w) (hx : x.inBoard w = true)
    {da : Int × Int} (hda : da ∈ dirs) :
    ∃ s ∈ dirs, da.1 * s.1 + da.2 * s.2 = 0 ∧ (x.shift s).inBoard w = true := by
  have hx' := inBoard_iff.1 hx
  have hvert : ∃ s ∈ dirs, s.1 = 0 ∧ (x.shift s).inBoard w = true := by
    by_cases hup : x.y + 1 < w
    · exact ⟨(0, 1), by simp [mem_dirs_iff], rfl,
        by rw [inBoard_iff]; simp only [Point.shift]; omega⟩
    · exact ⟨(0, -1), by simp [mem_dirs_iff], rfl,
        by rw [inBoard_iff]; simp only [Point.shift]; omega⟩
  have hhor : ∃ s ∈ dirs, s.2 = 0 ∧ (x.shift s).inBoard w = true := by
    by_cases hright : x.x + 1 < w
    · exact ⟨(1, 0), by simp [mem_dirs_iff], rfl,
        by rw [inBoard_iff]; simp only [Point.shift]; omega⟩
    · exact ⟨(-1, 0), by simp [mem_dirs_iff], rfl,
        by rw [inBoard_iff]; simp only [Point.shift]; omega⟩
  rw [mem_dirs_iff] at hda
  rcases hda with rfl | rfl | rfl | rfl
  · obtain ⟨s, hs, h0, hin⟩ := hvert
    exact ⟨s, hs, by simp [h0], hin⟩
  · obtain ⟨s, hs, h0, hin⟩ := hhor
    exact ⟨s, hs, by simp [h0], hin⟩
  · obtain ⟨s, hs, h0, hin⟩ := hvert
    exact ⟨s, hs, by simp [h0], hin⟩
  · obtain ⟨s, hs, h0, hin⟩ := hhor
    exact ⟨s, hs, by simp [h0], hin⟩

theorem opposite_dir {da dc : Int × Int} (hda : da ∈ dirs) (hdc : dc ∈ dirs) (hne : da ≠ dc)
    (hnp : da.1 * dc.1 + da.2 * dc.2 ≠ 0) : dc = (-da.1, -da.2) := by
  rw [mem_dirs_iff] at hda hdc
  rcases hda with rfl | rfl | rfl | rfl <;> rcases hdc with rfl | rfl | rfl | rfl <;>
    first
    | rfl
    | exact absurd rfl hne
    | exact absurd (by norm_num) hnp

/-- Round a cell `x` all of whose neighbours (by side or corner) hold the label
`e`, any in-board side neighbour of `x` reaches any other through cells labelled
`e`, on a board of width at least 2. -/
theorem Board.detour {b : Board} {e : Int} {x : Point} (hw : 2 ≤ b.width)
    (hx : x.inBoard b.width = true)
    (hK : ∀ k : Point, k.inBoard b.width = true → (-1 ≤ k.x - x.x ∧ k.x - x.x ≤ 1) →
      (-1 ≤ k.y - x.y ∧ k.y - x.y ≤ 1) → k ≠ x → b.getPointColor k = Except.ok e)
    {da dc : Int × Int} (hda : da ∈ dirs) (hdc : dc ∈ dirs)
    (ha : (x.shift da).inBoard b.width = true) (hc : (x.shift dc).inBoard b.width = true) :
    b.Reach e (x.shift da) (x.shift dc) := by
  by_cases heq : da = dc
  · subst heq; exact Relation.ReflTransGen.refl
  by_cases hperp : da.1 * dc.1 + da.2 * dc.2 = 0
  · exact Board.detour_corner hK hda hdc hperp ha hc
  · -- opposite directions: pass by a side neighbour of `x`
    obtain ⟨s, hs, hp1, hsin⟩ := exists_side hw hx hda
    have hopp := opposite_dir hda hdc heq hperp
    have hp2 : s.1 * dc.1 + s.2 * dc.2 = 0 := by
      rw [hopp]
      simp only
      linarith
    exact Relation.ReflTransGen.trans (Board.detour_corner hK hda hs hp1 ha hsin)
      (Board.detour_corner hK hs hdc hp2 hsin hc)

/-- On the seeded board of width at least 2, a walk of the plain grid that ends in
a cell of the base label can be turned into a walk through cells of the base
label: from its first cell when that holds the base label, and otherwise from
every in-board side neighbour of its first cell. -/
theorem Board.GameInv.base_walk {b : Board} {w : Int} {ys : List Int} {e : Int}
    (h : b.GameInv w ys) (hw : 2 ≤ w)
    (hseed : ∀ p : Point, p.inBoard w = true → p ∉ b.queens → b.getPointColor p = Except.ok e)
    {v : Point} (hv : v.inBoard w = true ∧ b.getPointColor v = Except.ok e) :
    ∀ u : Point, Relation.ReflTransGen (GridStep w) u v →
      (b.getPointColor u = Except.ok e → u.inBoard w = true → b.Reach e u v) ∧
      (b.getPointColor u ≠ Except.ok e → u.inBoard w = true →
        ∀ d ∈ dirs, (u.shift d).inBoard w = true → b.Reach e (u.shift d) v) := by
  have hbw : b.width = w := h.1
  intro u hu
  induction hu using Relation.ReflTransGen.head_induction_on with
  | refl =>
    exact ⟨fun _ _ => Relation.ReflTransGen.refl, fun hne _ => absurd hv.2 hne⟩
  | @head u u' hstep _ ih =>
    obtain ⟨hu, hu', d0, hd0, hud⟩ := hstep
    constructor
    · intro hcu _
      by_cases hcu' : b.getPointColor u' = Except.ok e
      · exact Relation.ReflTransGen.head
          ⟨⟨by rw [hbw]; exact hu, hcu⟩, ⟨by rw [hbw]; exact hu', hcu'⟩, d0, hd0, hud⟩
          (ih.1 hcu' hu')
      · have := ih.2 hcu' hu' (-d0.1, -d0.2) (neg_dir_mem hd0)
          (by rw [hud, shift_neg]; exact hu)
        rw [hud, shift_neg] at this
        exact this
    · intro hcu _ d hd hin
      have huq : u ∈ b.queens := by
        by_contra hnq
        exact hcu (hseed u hu hnq)
      have hK : ∀ k : Point, k.inBoard b.width = true → (-1 ≤ k.x - u.x ∧ k.x - u.x ≤ 1) →
          (-1 ≤ k.y - u.y ∧ k.y - u.y ≤ 1) → k ≠ u → b.getPointColor k = Except.ok e :=
        fun k hk h1 h2 h3 => h.king_base hseed huq (by rw [← hbw]; exact hk) h1 h2 h3
      have hcu' : b.getPointColor u' = Except.ok e := by
        rw [hud]
        apply hK _ (by rw [hbw, ← hud]; exact hu')
        · simp only [Point.shift]
          rcases (mem_dirs_iff d0).1 hd0 with rfl | rfl | rfl | rfl <;> simp
        · simp only [Point.shift]
          rcases (mem_dirs_iff d0).1 hd0 with rfl | rfl | rfl | rfl <;> simp
        · exact shift_ne u hd0
      have hdet := Board.detour (by rw [hbw]; exact hw) (by rw [hbw]; exact hu) hK hd hd0
        (by rw [hbw]; exact hin) (by rw [hbw, ← hud]; exact hu')
      rw [← hud] at hdet
      exact Relation.ReflTransGen.trans hdet (ih.1 hcu' hu')

/-- On the seeded board of width at least 2 the cells of the base label form one
region. -/
theorem Board.GameInv.base_connected {b : Board} {w : Int} {ys : List Int} {e : Int}
    (h : b.GameInv w ys) (hw : 2 ≤ w)
    (hseed : ∀ p : Point, p.inBoard w = true → p ∉ b.queens → b.getPointColor p = Except.ok e)
    {u v : Point} (hu : u.inBoard w = true) (hcu : b.getPointColor u = Except.ok e)
    (hv : v.inBoard w = true) (hcv : b.getPointColor v = Except.ok e) : b.Reach e u v :=
  (h.base_walk hw hseed ⟨hv, hcv⟩ u (grid_connected w u v hu hv)).1 hcu hu

/-- On the seeded board of width at least 2 every cell reaches the queen of its
label. -/
theorem Board.GameInv.seed_connected {b : Board} {w : Int} {ys : List Int} {e : Int}
    (h : b.GameInv w ys) (hw : 2 ≤ w) (he : 0 ≤ e ∧ e < w)
    (hseed : ∀ p : Point, p.inBoard w = true → p ∉ b.queens → b.getPointColor p = Except.ok e) :
    b.Connected := by
  intro p hp
  rw [h.1] at hp
  by_cases hpq : p ∈ b.queens
  · have hcol := h.2.2.2.2.2.1 p hpq
    have hpx := (inBoard_iff.1 hp).1
    obtain ⟨y, hy, hq, -⟩ := h.queenOf hpx
    have hpy : p.y = y := by
      have := hpq
      rw [h.2.2.1, mem_columnsFrom_zero] at this
      rw [hy] at this
      exact (Option.some.inj this.2).symm
    refine ⟨p.x, p, hcol, ?_, Relation.ReflTransGen.refl⟩
    rw [hq]
    cases p
    simp only at hpy
    simp [hpy]
  · obtain ⟨y, hy, hq, hqin⟩ := h.queenOf he
    have hqmem : (⟨e, y⟩ : Point) ∈ b.queens := Board.queenOf_mem hq
    have hqcol := h.2.2.2.2.2.1 _ hqmem
    exact ⟨e, ⟨e, y⟩, hseed p hp hpq, hq,
      h.base_connected hw hseed hp (hseed p hp hpq) (by rw [← h.1]; exact hqin) hqcol⟩
/-! ## The seeded grid as a board -/

/-- The constructor of `Board` applied to a seeded grid and its queens returns a
board that satisfies the invariant of the generated board, with the base label on
every cell outside the queens. -/
theorem IsSeedGrid.board {cm : ColorMap} {w : Int} {ys : List Int} {e : Int}
    (hseed : IsSeedGrid cm w ys e) (hys : IsPlacement cm w false ys) (he : 0 ≤ e ∧ e < w) :
    ∃ board, Board.new cm (columnsFrom 0 ys) = Except.ok board ∧ board.colorMap = cm ∧
      board.width = w ∧ board.GameInv w ys ∧
      ∀ p : Point, p.inBoard w = true → p ∉ board.queens →
        board.getPointColor p = Except.ok e := by
  obtain ⟨hsq, hcol⟩ := hseed
  have hqin : ∀ q ∈ columnsFrom 0 ys, q.inBoard w = true := by
    intro q hq
    have := mem_columnsFrom hq
    rw [inBoard_iff]
    have hlen := hys.1
    exact ⟨by omega, hys.2.1 _ this.2⟩
  have hqcol : ∀ q ∈ columnsFrom 0 ys, cm.getPointColor q = Except.ok q.x := by
    intro q hq
    rw [hcol q (hqin q hq), if_pos hq]
  have hqcs : cm.queenColors (columnsFrom 0 ys) =
      Except.ok ((columnsFrom 0 ys).map (fun q => q.x)) :=
    ColorMap.queenColors_eq cm _ _ hqcol
  have hwid : ((columnsFrom 0 ys).length : Int) = w := by
    rw [columnsFrom_length]; exact hys.1
  refine ⟨⟨((columnsFrom 0 ys).length : Int), columnsFrom 0 ys,
    (columnsFrom 0 ys).map (fun q => q.x), cm⟩, by simp [Board.new, hqcs], rfl, hwid, ?_, ?_⟩
  · refine ⟨hwid, hsq, rfl, hys, ?_, hqcol, ?_⟩
    · show (columnsFrom 0 ys).map (fun q => q.x) = loopRange w
      rw [columnsFrom_map_x, hys.1]
    · intro p hp
      refine ⟨_, hcol p hp, ?_⟩
      split
      · exact (inBoard_iff.1 hp).1
      · exact he
  · intro p hp hnq
    exact (hcol p hp).trans (by rw [if_neg hnq])

/-! ## The sample seed -/

theorem sample_placement : IsPlacement sampleBoard.colorMap 4 false [1, 3, 0, 2] := by
  refine ⟨by decide, by decide, by decide, by decide, ?_⟩
  simp [List.chain'_cons]

theorem sample_seed : IsSeedGrid sampleBoard.colorMap 4 [1, 3, 0, 2] 0 :=
  have h : ∀ p ∈ scanPoints 4, sampleBoard.colorMap.getPointColor p =
      Except.ok (if p ∈ columnsFrom 0 [1, 3, 0, 2] then p.x else 0) := by decide
  ⟨by decide, fun p hp => h p (mem_scanPoints.2 hp)⟩

/-! ## The continuity probe, both directions -/

theorem Board.setPointColor_labels {b b1 : Board} {p : Point} {c : Int}
    (hset : b.setPointColor p c = Except.ok b1) (x : Point) {l : Int}
    (hx : b.getPointColor x = Except.ok l) :
    b1.getPointColor x = Except.ok c ∨ b1.getPointColor x = Except.ok l := by
  obtain ⟨-, -, -, hcm⟩ := Board.setPointColor_fields hset
  rw [ColorMap.setMatrixValue_eq_ok] at hcm
  obtain ⟨-, hilt, hmat⟩ := hcm
  rw [Board.getPointColor, ColorMap.getPointColor_eq_ok] at hx
  simp only [Board.getPointColor, ColorMap.getPointColor_eq_ok, hmat, List.getElem?_set]
  by_cases hi : (p.y * b.colorMap.width + p.x).toNat = (x.y * b.colorMap.width + x.x).toNat
  · left
    rw [if_pos hi, if_pos hilt]
    exact ⟨hx.1, rfl⟩
  · right
    rw [if_neg hi]
    exact hx

theorem Board.queenOf_of_mem {b : Board} (hlen : b.queenColors.length = b.queens.length)
    {l : Int} (hl : l ∈ b.queenColors) : ∃ q, b.queenOf l = some q ∧ q ∈ b.queens := by
  have hlt : b.queenColors.indexOf l < b.queenColors.length := List.indexOf_lt_length.2 hl
  have hlt' : b.queenColors.indexOf l < b.queens.length := hlen ▸ hlt
  refine ⟨b.queens[b.queenColors.indexOf l], ?_, List.getElem_mem _⟩
  simp only [Board.queenOf, hlt, if_true]
  exact List.getElem?_eq_getElem hlt'

theorem isOk_iff {α : Type} (r : M α) : r.isOk = true ↔ ∃ a, r = Except.ok a := by
  cases r with
  | error e => simp [Except.isOk, Except.toBool]
  | ok a => simp [Except.isOk, Except.toBool]

theorem Board.colorChangeLoop_iff {b1 b : Board} {uninit p : Point} {c c0 : Int}
    (hrestore : b1.setPointColor p c0 = Except.ok b) :
    ∀ ds : List (Int × Int),
      (∀ d ∈ ds, (p.shift d).inBoard b1.width = true →
        ∃ c', b1.getPointColor (p.shift d) = Except.ok c' ∧
          (c' ≠ c → ∃ r, b1.pointConnectsToQueen uninit (p.shift d) = Except.ok r)) →
      ∃ r, b1.colorChangeLoop uninit p c c0 ds = Except.ok (r, b) ∧
        (r = true ↔ ∃ d ∈ ds, (p.shift d).inBoard b1.width = true ∧
          ∃ c', b1.getPointColor (p.shift d) = Except.ok c' ∧ c' ≠ c ∧
            b1.pointConnectsToQueen uninit (p.shift d) = Except.ok false) := by
  intro ds
  induction ds with
  | nil =>
    intro _
    exact ⟨false, by simp [Board.colorChangeLoop, hrestore], by simp⟩
  | cons d ds ih =>
    intro H
    obtain ⟨r, hr, hiff⟩ := ih (fun d' hd' => H d' (List.mem_cons_of_mem _ hd'))
    have hup : (∃ d' ∈ ds, (p.shift d').inBoard b1.width = true ∧
          ∃ c', b1.getPointColor (p.shift d') = Except.ok c' ∧ c' ≠ c ∧
            b1.pointConnectsToQueen uninit (p.shift d') = Except.ok false) →
        ∃ d' ∈ d :: ds, (p.shift d').inBoard b1.width = true ∧
          ∃ c', b1.getPointColor (p.shift d') = Except.ok c' ∧ c' ≠ c ∧
            b1.pointConnectsToQueen uninit (p.shift d') = Except.ok false := by
      rintro ⟨d', hd', h⟩
      exact ⟨d', List.mem_cons_of_mem _ hd', h⟩
    simp only [Board.colorChangeLoop]
    by_cases hin : (p.shift d).inBoard b1.width = true
    · obtain ⟨c', hc', hconn⟩ := H d (List.mem_cons_self _ _) hin
      simp only [hin, if_true, hc']
      by_cases hne : c' ≠ c
      · obtain ⟨r0, hr0⟩ := hconn hne
        simp only [hne, ne_eq, not_false_eq_true, if_true, hr0]
        cases r0 with
        | true =>
          refine ⟨r, hr, ?_⟩
          rw [hiff]
          refine ⟨hup, ?_⟩
          rintro ⟨d', hd', h⟩
          rcases List.mem_cons.1 hd' with rfl | hd'
          · obtain ⟨-, c'', -, -, hf⟩ := h
            rw [hr0] at hf
            cases hf
          · exact ⟨d', hd', h⟩
        | false =>
          refine ⟨true, by simp [hrestore], ?_⟩
          simp only [true_iff]
          exact ⟨d, List.mem_cons_self _ _, hin, c', hc', hne, hr0⟩
      · simp only [hne, if_false]
        refine ⟨r, hr, ?_⟩
        rw [hiff]
        refine ⟨hup, ?_⟩
        rintro ⟨d', hd', h⟩
        rcases List.mem_cons.1 hd' with rfl | hd'
        · obtain ⟨-, c'', hc'', hne'', -⟩ := h
          rw [hc'] at hc''
          cases hc''
          exact absurd hne'' hne
        · exact ⟨d', hd', h⟩
    · simp only [hin, Bool.false_eq_true, if_false]
      refine ⟨r, hr, ?_⟩
      rw [hiff]
      refine ⟨hup, ?_⟩
      rintro ⟨d', hd', h⟩
      rcases List.mem_cons.1 hd' with rfl | hd'
      · exact absurd h.1 hin
      · exact ⟨d', hd', h⟩

/-- The continuity probe on a board in which every label has a queen: it returns,
leaves the board as it was, and answers `true` exactly when some in-board
neighbour of another label than the candidate fails to reach its queen in the
recoloured grid. -/
theorem Board.colorChangeBreaksContinuity_spec {b : Board} (uninit : Point) {p : Point}
    (c : Int) (hq : b.QueensOK)
    (hlab : ∀ x : Point, x.inBoard b.width = true →
      ∃ l ∈ b.queenColors, b.getPointColor x = Except.ok l)
    (hp : p.inBoard b.width = true) :
    ∃ r b1, b.colorChangeBreaksContinuity uninit p c = Except.ok (r, b) ∧
      b.setPointColor p c = Except.ok b1 ∧
      (r = true ↔ ∃ n : Point, p.orthAdjacent n ∧ n.inBoard b.width = true ∧
        ∃ l q, b1.getPointColor n = Except.ok l ∧ l ≠ c ∧ b1.queenOf l = some q ∧
          b1.pointsAreConnected n q = Except.ok false) := by
  obtain ⟨c0, -, hc0⟩ := hlab p hp
  have hset : ∃ b1, b.setPointColor p c = Except.ok b1 := by
    have h := hc0
    rw [Board.getPointColor, ColorMap.getPointColor_eq_ok] at h
    have hlt : (p.y * b.colorMap.width + p.x).toNat < b.colorMap.matrix.length := by
      by_contra hge
      rw [List.getElem?_eq_none (not_lt.1 hge)] at h
      cases h.2
    have hcm : b.colorMap.setMatrixValue p c =
        Except.ok ⟨b.colorMap.width, b.colorMap.matrix.set (p.y * b.colorMap.width + p.x).toNat c⟩ :=
      ColorMap.setMatrixValue_eq_ok.2 ⟨h.1, hlt, rfl⟩
    exact ⟨⟨b.width, b.queens, b.queenColors, ⟨b.colorMap.width,
      b.colorMap.matrix.set (p.y * b.colorMap.width + p.x).toNat c⟩⟩,
      by simp only [Board.setPointColor, hcm]⟩
  obtain ⟨b1, hset⟩ := hset
  obtain ⟨hw, hqs, hqc, -⟩ := Board.setPointColor_fields hset
  have hqof : ∀ l, b1.queenOf l = b.queenOf l := Board.queenOf_congr hqs hqc
  have hL1 : b1.Labelled := by
    intro x hx
    rw [hw] at hx
    obtain ⟨l, -, hl⟩ := hlab x hx
    rcases Board.setPointColor_labels hset x hl with h | h
    · exact ⟨_, h⟩
    · exact ⟨_, h⟩
  -- the label in the recoloured grid of a cell is the candidate or the old label
  have hkey : ∀ n : Point, n.inBoard b.width = true → ∀ l, b1.getPointColor n = Except.ok l →
      l ≠ c → ∃ q, b1.queenOf l = some q ∧
        (∃ r, b1.pointsAreConnected n q = Except.ok r) := by
    intro n hn l hl hne
    obtain ⟨l0, hl0mem, hl0⟩ := hlab n hn
    have hll : l = l0 := by
      rcases Board.setPointColor_labels hset n hl0 with h | h
      · rw [hl] at h
        exact absurd (Except.ok.inj h) hne
      · rw [hl] at h
        exact Except.ok.inj h
    subst hll
    obtain ⟨q, hqo, hqmem⟩ := Board.queenOf_of_mem hq.1 hl0mem
    obtain ⟨lq, hlq⟩ := (isOk_iff _).1 (hq.2 q hqmem)
    have hlq1 : ∃ ct, b1.getPointColor q = Except.ok ct := by
      rcases Board.setPointColor_labels hset q hlq with h | h
      · exact ⟨_, h⟩
      · exact ⟨_, h⟩
    obtain ⟨ct, hct⟩ := hlq1
    obtain ⟨r, hr, -⟩ := Board.pointsAreConnected_spec hL1 (by rw [hw]; exact hn) hct
    exact ⟨q, by rw [hqof]; exact hqo, r, hr⟩
  obtain ⟨r, hr, hiff⟩ := Board.colorChangeLoop_iff
    (Board.setPointColor_restore hc0 hset) dirs (by
      intro d _ hin
      rw [hw] at hin
      obtain ⟨l, hl⟩ := hL1 (p.shift d) (by rw [hw]; exact hin)
      refine ⟨l, hl, fun hne => ?_⟩
      obtain ⟨q, hqo, r, hr⟩ := hkey _ hin l hl hne
      exact ⟨r, by rw [Board.pointConnectsToQueen_eq uninit hl hqo]; exact hr⟩)
  refine ⟨r, b1, by simp only [Board.colorChangeBreaksContinuity, hc0, hset, hr], hset, ?_⟩
  rw [hiff]
  constructor
  · rintro ⟨d, hd, hin, l, hl, hne, hf⟩
    rw [hw] at hin
    obtain ⟨q, hqo, -⟩ := hkey _ hin l hl hne
    refine ⟨p.shift d, (orthAdjacent_iff _ _).2 ⟨d, hd, rfl⟩, hin, l, q, hl, hne, hqo, ?_⟩
    rw [← Board.pointConnectsToQueen_eq uninit hl hqo]
    exact hf
  · rintro ⟨n, hadj, hin, l, q, hl, hne, hqo, hf⟩
    obtain ⟨d, hd, rfl⟩ := (orthAdjacent_iff _ _).1 hadj
    refine ⟨d, hd, by rw [hw]; exact hin, l, hl, hne, ?_⟩
    rw [Board.pointConnectsToQueen_eq uninit hl hqo]
    exact hf
/-! ## The bounds check of the colour lookup -/

theorem wrapInt_of_fits {n : Int} (h : fitsInt n) : wrapInt n = n := by
  unfold fitsInt at h
  unfold wrapInt
  omega

/-- For a cell whose flat index is computed within the range of `int`, the machine
arithmetic gives the exact flat index. -/
theorem ColorMap.machineIndex_exact {cm : ColorMap} {p : Point} (hfit : cm.IndexFits p) :
    cm.machineIndex p = p.y * cm.width + p.x := by
  obtain ⟨-, -, -, hmul, hsum⟩ := hfit
  unfold ColorMap.machineIndex
  rw [wrapInt_of_fits hmul, wrapInt_of_fits hsum]

/-- On a `w` by `w` colour map, for a cell whose flat index is computed within the
range of `int`, the machine arithmetic gives the exact flat index and the lookup
fails exactly when that index is outside `[0, w*w)`. -/
theorem ColorMap.getPointColor_bounds {cm : ColorMap} {w : Int} {p : Point}
    (hcm : cm.Square w) (hfit : cm.IndexFits p) :
    cm.machineIndex p = p.y * w + p.x ∧
    (cm.getPointColor p = Except.error Err.outOfRange ↔
      (p.y * w + p.x < 0 ∨ w * w ≤ p.y * w + p.x)) ∧
    ((∃ c, cm.getPointColor p = Except.ok c) ↔ (0 ≤ p.y * w + p.x ∧ p.y * w + p.x < w * w)) ∧
    ((0 ≤ p.x ∧ p.x < w) → ¬ (0 ≤ p.y ∧ p.y < w) →
      cm.getPointColor p = Except.error Err.outOfRange) := by
  have hidx : cm.machineIndex p = p.y * w + p.x := by
    rw [ColorMap.machineIndex_exact hfit, hcm.1]
  have hok : (∃ c, cm.getPointColor p = Except.ok c) ↔
      (0 ≤ p.y * w + p.x ∧ p.y * w + p.x < w * w) := by
    constructor
    · rintro ⟨c, hc⟩
      rw [ColorMap.getPointColor_eq_ok, hcm.1] at hc
      obtain ⟨h0, hget⟩ := hc
      have hlt : (p.y * w + p.x).toNat < cm.matrix.length := by
        by_contra hge
        rw [List.getElem?_eq_none (by omega)] at hget
        cases hget
      rw [hcm.2] at hlt
      omega
    · rintro ⟨h0, h1⟩
      have hlt : (p.y * w + p.x).toNat < cm.matrix.length := by rw [hcm.2]; omega
      refine ⟨cm.matrix[(p.y * w + p.x).toNat], ?_⟩
      rw [ColorMap.getPointColor_eq_ok, hcm.1]
      exact ⟨h0, List.getElem?_eq_getElem hlt⟩
  have herr : cm.getPointColor p = Except.error Err.outOfRange ↔
      (p.y * w + p.x < 0 ∨ w * w ≤ p.y * w + p.x) := by
    constructor
    · intro he
      by_contra hne
      have : 0 ≤ p.y * w + p.x ∧ p.y * w + p.x < w * w := by omega
      obtain ⟨c, hc⟩ := hok.2 this
      rw [hc] at he
      cases he
    · intro hout
      cases hget : cm.getPointColor p with
      | ok c =>
        have := hok.1 ⟨c, hget⟩
        omega
      | error e => cases e with
        | outOfRange => rfl
        | outOfFuel =>
          exfalso
          unfold ColorMap.getPointColor vecAt at hget
          split at hget
          · cases hget
          · split at hget <;> cases hget
  refine ⟨hidx, herr, hok, ?_⟩
  intro hx hy
  rw [herr]
  by_cases hneg : p.y < 0
  · left
    have : p.y * w ≤ -1 * w := by nlinarith
    omega
  · right
    have hyw : w ≤ p.y := by omega
    have : w * w ≤ p.y * w := by nlinarith
    omega
/-! ## Claims on the generated board -/

/-- C1: for every width of at least 4, every outcome of the shuffles and every
draw of the base colour, `generateGame` returns a board on whose colour map
`hasOneSolution` is `true`, and the valid placements on it are exactly the rows of
the board's own queen list. -/
theorem generateGame_unique {G : Type} (R : RandomSource G) (gen : GameGenerator)
    (uninit : Point) (g : G) (hw : 4 ≤ gen.gameSize) :
    ∃ board g', gen.generateGame R uninit g = Except.ok (board, g') ∧
      (IncompleteBoard.ofBoard board).hasOneSolution = Except.ok true ∧
      ∀ ys, IsValidPlacement board.colorMap gen.gameSize ys ↔ columnsFrom 0 ys = board.queens := by
  obtain ⟨seed, e, g1, ys0, hseed, hall⟩ := gen.generateGame_inv R uninit g hw
  obtain ⟨board, g', hloop, hinv, hv⟩ := hall gen.numSpreads.toNat
  refine ⟨board, g', by simp only [GameGenerator.generateGame, hseed]; exact hloop, hv, ?_⟩
  intro ys
  rw [← isPlacement_iff, hinv.unique_is_queens hv ys, hinv.2.2.1]
  constructor
  · rintro rfl; rfl
  · exact columnsFrom_injective

theorem generateGame_unique_witness :
    (4 : Int) ≤ (GameGenerator.mk 4 true).gameSize ∧
    ∃ board g', (GameGenerator.mk 4 true).generateGame identitySource ⟨0, 0⟩ () =
        Except.ok (board, g') ∧
      (IncompleteBoard.ofBoard board).hasOneSolution = Except.ok true ∧
      ∀ ys, IsValidPlacement board.colorMap (GameGenerator.mk 4 true).gameSize ys ↔
        columnsFrom 0 ys = board.queens :=
  ⟨by decide, generateGame_unique identitySource (GameGenerator.mk 4 true) ⟨0, 0⟩ () (by decide)⟩

/-- C10: for every width of at least 4 and every outcome of the random choices,
`generateGame` returns, and in the board it returns as well as in the board after
any number `k` of its spreads (from which the run continues with the remaining
spreads), every cell holds a label of `[0,width)` that is the colour of exactly one
queen, so that the lookup of `pointConnectsToQueen` finds a queen; the queens'
colours are pairwise distinct and queen `i` holds the label `i`. -/
theorem generateGame_labels {G : Type} (R : RandomSource G) (gen : GameGenerator)
    (uninit : Point) (g : G) (hw : 4 ≤ gen.gameSize) :
    (∃ board g', gen.generateGame R uninit g = Except.ok (board, g') ∧
      board.LabelsOK gen.gameSize) ∧
    ∃ seed e g1, gen.seedBoard R g = Except.ok (seed, e, g1) ∧
      ∀ k : Nat, k ≤ gen.numSpreads.toNat →
        ∃ board gk, gen.spreadLoop R uninit e k seed g1 = Except.ok (board, gk) ∧
          board.LabelsOK gen.gameSize ∧
          gen.generateGame R uninit g =
            gen.spreadLoop R uninit e (gen.numSpreads.toNat - k) board gk := by
  obtain ⟨seed, e, g1, ys0, hseed, hall⟩ := gen.generateGame_inv R uninit g hw
  constructor
  · obtain ⟨board, g', hloop, hinv, -⟩ := hall gen.numSpreads.toNat
    exact ⟨board, g', by simp only [GameGenerator.generateGame, hseed]; exact hloop,
      hinv.labelsOK⟩
  · refine ⟨seed, e, g1, hseed, ?_⟩
    intro k hk
    obtain ⟨board, gk, hloop, hinv, -⟩ := hall k
    refine ⟨board, gk, hloop, hinv.labelsOK, ?_⟩
    have hsplit := gen.spreadLoop_add R uninit e k (gen.numSpreads.toNat - k) seed g1
    rw [Nat.add_sub_cancel' hk, hloop] at hsplit
    simp only [GameGenerator.generateGame, hseed]
    exact hsplit

theorem generateGame_labels_witness :
    (4 : Int) ≤ (GameGenerator.mk 4 true).gameSize ∧
    ((∃ board g', (GameGenerator.mk 4 true).generateGame identitySource ⟨0, 0⟩ () =
        Except.ok (board, g') ∧ board.LabelsOK (GameGenerator.mk 4 true).gameSize) ∧
    ∃ seed e g1, (GameGenerator.mk 4 true).seedBoard identitySource () =
        Except.ok (seed, e, g1) ∧
      ∀ k : Nat, k ≤ (GameGenerator.mk 4 true).numSpreads.toNat →
        ∃ board gk, (GameGenerator.mk 4 true).spreadLoop identitySource ⟨0, 0⟩ e k seed g1 =
            Except.ok (board, gk) ∧
          board.LabelsOK (GameGenerator.mk 4 true).gameSize ∧
          (GameGenerator.mk 4 true).generateGame identitySource ⟨0, 0⟩ () =
            (GameGenerator.mk 4 true).spreadLoop identitySource ⟨0, 0⟩ e
              ((GameGenerator.mk 4 true).numSpreads.toNat - k) board gk) :=
  ⟨by decide, generateGame_labels identitySource (GameGenerator.mk 4 true) ⟨0, 0⟩ () (by decide)⟩

/-! ## Claims on symmetry, bounds, small widths and the solver as an oracle -/

/-- C11: on a board whose in-board cells all carry a label, for every pair of
in-board cells `a` and `c` the calls `pointsAreConnected(a, c)` and
`pointsAreConnected(c, a)` both return, with the same result. -/
theorem pointsAreConnected_symmetric (b : Board) (a c : Point) (hL : b.Labelled)
    (ha : a.inBoard b.width = true) (hc : c.inBoard b.width = true) :
    b.pointsAreConnected a c = b.pointsAreConnected c a ∧
      ∃ r, b.pointsAreConnected a c = Except.ok r := by
  obtain ⟨r, h1, h2⟩ := Board.pointsAreConnected_comm hL ha hc
  exact ⟨by rw [h1, h2], r, h1⟩

theorem pointsAreConnected_symmetric_witness :
    sampleBoard.Labelled ∧ (⟨0, 0⟩ : Point).inBoard sampleBoard.width = true ∧
    (⟨3, 3⟩ : Point).inBoard sampleBoard.width = true ∧
    sampleBoard.pointsAreConnected ⟨0, 0⟩ ⟨3, 3⟩ = sampleBoard.pointsAreConnected ⟨3, 3⟩ ⟨0, 0⟩ ∧
      ∃ r, sampleBoard.pointsAreConnected ⟨0, 0⟩ ⟨3, 3⟩ = Except.ok r :=
  ⟨Board.labelled_of_square (by decide), by decide, by decide,
    pointsAreConnected_symmetric sampleBoard ⟨0, 0⟩ ⟨3, 3⟩
      (Board.labelled_of_square (by decide)) (by decide) (by decide)⟩

/-- C13, as stated, fails: on the empty board of width 2 the placement search
returns without having completed the board. -/
theorem genRandomQueens_fails_width_two :
    (1 : Int) ≤ 2 ∧
    (IncompleteBoard.new 2 []).genRandomQueens identitySource () =
      Except.ok (IncompleteBoard.new 2 [], ()) ∧
    (IncompleteBoard.new 2 []).isComplete = false := by
  decide

/-- C13, amended: for every width `≥ 1` and every outcome of the shuffles,
`genRandomQueens` started on the empty board returns, and it ends complete exactly
when the width is neither 2 nor 3 (it completes for width 1 and every width `≥ 4`,
and fails for the widths 2 and 3). -/
theorem genRandomQueens_completes_iff {G : Type} (R : RandomSource G) (g : G) (width : Int)
    (hw : 1 ≤ width) :
    ∃ b' g', (IncompleteBoard.new width []).genRandomQueens R g = Except.ok (b', g') ∧
      (b'.isComplete = true ↔ (width ≠ 2 ∧ width ≠ 3)) := by
  obtain ⟨b', g', hrun, hiff⟩ := IncompleteBoard.genRandomQueens_iff R g width (by omega)
  refine ⟨b', g', hrun, hiff.trans ?_⟩
  constructor
  · rintro hex
    constructor
    · rintro rfl; exact no_placement_two _ hex
    · rintro rfl; exact no_placement_three _ hex
  · rintro ⟨h2, h3⟩
    rcases (by omega : width = 1 ∨ 4 ≤ width) with rfl | h4
    · exact ⟨[0], placement_one _⟩
    · refine ⟨skeleton width.toNat, ?_⟩
      have := skeleton_isPlacement (IncompleteBoard.new width []).colorMap width.toNat (by omega)
      have hcast : ((width.toNat : Nat) : Int) = width := by omega
      rw [hcast] at this
      exact this

theorem genRandomQueens_completes_iff_witness :
    (1 : Int) ≤ 3 ∧
    ∃ b' g', (IncompleteBoard.new 3 []).genRandomQueens reverseSource 0 = Except.ok (b', g') ∧
      (b'.isComplete = true ↔ ((3 : Int) ≠ 2 ∧ (3 : Int) ≠ 3)) :=
  ⟨by decide, genRandomQueens_completes_iff reverseSource 0 3 (by decide)⟩

/-- C14: whenever `hasOneSolution(numSolutions)` returns, from any state and with
either result (also after an early exit), the colour map, the queen list and
`xDepth` are what they were before the call; and when the call is the one that
`isValidGame(board)` makes on its working copy of the board, `isValidGame` returns
that result and the working copy still holds the board's colour map and no queen
(the `Board` itself is only read). -/
theorem hasOneSolution_pure_oracle (b : IncompleteBoard) (fuel : Nat) (numSolutions : Int)
    (r : Bool) (b' : IncompleteBoard) (n' : Int)
    (h : b.hasOneSolutionAux fuel numSolutions = Except.ok (r, b', n')) :
    (b'.colorMap = b.colorMap ∧ b'.queens = b.queens ∧ b'.xDepth = b.xDepth) ∧
    ∀ board : Board, b = IncompleteBoard.ofBoard board → fuel = b.searchFuel →
      numSolutions = 0 →
      GameGenerator.isValidGame board = Except.ok r ∧ b'.colorMap = board.colorMap ∧
        b'.queens = [] := by
  have hb := IncompleteBoard.hasOneSolutionAux_frame fuel b numSolutions r b' n' h
  subst hb
  refine ⟨⟨rfl, rfl, rfl⟩, ?_⟩
  rintro board rfl rfl rfl
  exact ⟨by simp [GameGenerator.isValidGame, IncompleteBoard.hasOneSolution, h], rfl, rfl⟩

theorem hasOneSolution_pure_oracle_witness :
    (IncompleteBoard.mk 4 distinctGrid [⟨0, 1⟩] 1).hasOneSolutionAux 5 1 =
      Except.ok (false, IncompleteBoard.mk 4 distinctGrid [⟨0, 1⟩] 1, 2) ∧
    (distinctGrid = distinctGrid ∧ ([⟨0, 1⟩] : List Point) = [⟨0, 1⟩] ∧ (1 : Int) = 1) :=
  have hrun : (IncompleteBoard.mk 4 distinctGrid [⟨0, 1⟩] 1).hasOneSolutionAux 5 1 =
      Except.ok (false, IncompleteBoard.mk 4 distinctGrid [⟨0, 1⟩] 1, 2) := by decide
  ⟨hrun, (hasOneSolution_pure_oracle _ 5 1 false _ 2 hrun).1⟩

/-- C16, evaluated: on `orphanBoard` the cell (1,0) holds the label 7, which no
queen carries; `pointConnectsToQueen` then reads the unassigned local `queen`, and
its answer follows the value found there: `true` when it is the cell itself, an
out-of-range exception when it is far off the grid, `false` when it is (0,0). -/
theorem pointConnectsToQueen_missing_queen :
    (7 : Int) ∉ orphanBoard.queenColors ∧
    orphanBoard.getPointColor ⟨1, 0⟩ = Except.ok 7 ∧
    orphanBoard.pointConnectsToQueen ⟨1, 0⟩ ⟨1, 0⟩ = Except.ok true ∧
    orphanBoard.pointConnectsToQueen ⟨5, 5⟩ ⟨1, 0⟩ = Except.error Err.outOfRange ∧
    orphanBoard.pointConnectsToQueen ⟨0, 0⟩ ⟨1, 0⟩ = Except.ok false := by
  decide

/-- C17: for every width and every grid of `width*width` labels, the top-level
`hasOneSolution()` on a board without queens returns and leaves the counter at
`min N 2`, where `N` is the number of complete valid placements; the counter never
exceeds 2, the boolean returned is `true` exactly when `N = 1`, and the search
without the early exit returns the same boolean with its counter at `N`. -/
theorem hasOneSolution_agrees_with_enumeration (width : Int) (cm : ColorMap)
    (hcm : cm.Square width) :
    ∃ r n rf nf,
      (IncompleteBoard.mk width cm [] 0).hasOneSolutionAux
          (IncompleteBoard.mk width cm [] 0).searchFuel 0 =
        Except.ok (r, IncompleteBoard.mk width cm [] 0, n) ∧
      (IncompleteBoard.mk width cm [] 0).hasOneSolution = Except.ok r ∧
      (IncompleteBoard.mk width cm [] 0).fullSearchAux
          (IncompleteBoard.mk width cm [] 0).searchFuel 0 =
        Except.ok (rf, IncompleteBoard.mk width cm [] 0, nf) ∧
      nf = (Set.ncard {ys : List Int | IsValidPlacement cm width ys} : Int) ∧
      n = min (Set.ncard {ys : List Int | IsValidPlacement cm width ys} : Int) 2 ∧
      n ≤ 2 ∧
      (r = true ↔ Set.ncard {ys : List Int | IsValidPlacement cm width ys} = 1) ∧
      rf = r := by
  obtain ⟨r, n, rf, nf, h1, h2, h3, h4, h5, h6⟩ :=
    IncompleteBoard.hasOneSolution_counter width cm hcm
  refine ⟨r, n, rf, nf, h1, ?_, h2, h3, h4, ?_, h5, h6⟩
  · simp [IncompleteBoard.hasOneSolution, h1]
  · rw [h4]; exact min_le_right _ _

theorem hasOneSolution_agrees_with_enumeration_witness :
    distinctGrid.Square 4 ∧
    ∃ r n rf nf,
      (IncompleteBoard.mk 4 distinctGrid [] 0).hasOneSolutionAux
          (IncompleteBoard.mk 4 distinctGrid [] 0).searchFuel 0 =
        Except.ok (r, IncompleteBoard.mk 4 distinctGrid [] 0, n) ∧
      (IncompleteBoard.mk 4 distinctGrid [] 0).hasOneSolution = Except.ok r ∧
      (IncompleteBoard.mk 4 distinctGrid [] 0).fullSearchAux
          (IncompleteBoard.mk 4 distinctGrid [] 0).searchFuel 0 =
        Except.ok (rf, IncompleteBoard.mk 4 distinctGrid [] 0, nf) ∧
      nf = (Set.ncard {ys : List Int | IsValidPlacement distinctGrid 4 ys} : Int) ∧
      n = min (Set.ncard {ys : List Int | IsValidPlacement distinctGrid 4 ys} : Int) 2 ∧
      n ≤ 2 ∧
      (r = true ↔ Set.ncard {ys : List Int | IsValidPlacement distinctGrid 4 ys} = 1) ∧
      rf = r :=
  ⟨by decide, hasOneSolution_agrees_with_enumeration 4 distinctGrid (by decide)⟩
/-! ## Claims on accepted spreads and on the seeded board -/

/-- C18: whenever `doOneColorSpread` returns `true`, exactly one entry of the
colour matrix has changed: that of a cell `p` of the scanned square that held the
excluded label `e`, is no queen cell, and now holds a label `c ≠ e` which before
the call was the label of an in-board orthogonal neighbour `n` of `p`; the width,
the queen list and the queen colours are unchanged, and on a square colour map
every other cell keeps its label. -/
theorem doOneColorSpread_changes_one_cell {G : Type} (R : RandomSource G)
    (gen : GameGenerator) (uninit : Point) (board : Board) (e : Int) (g : G)
    (board' : Board) (g' : G)
    (h : gen.doOneColorSpread R uninit board e g = Except.ok (true, board', g')) :
    ∃ (p : Point) (c : Int) (n : Point),
      (p.inBoard gen.gameSize = true ∧ board.getPointColor p = Except.ok e ∧
        board.pointIsQueen p = false) ∧
      (c ≠ e ∧ board'.getPointColor p = Except.ok c) ∧
      (n.inBoard gen.gameSize = true ∧ p.orthAdjacent n ∧
        board.getPointColor n = Except.ok c) ∧
      (board'.width = board.width ∧ board'.queens = board.queens ∧
        board'.queenColors = board.queenColors ∧
        board'.colorMap.width = board.colorMap.width) ∧
      (∃ i : Nat, board.colorMap.matrix[i]? = some e ∧
        board'.colorMap.matrix = board.colorMap.matrix.set i c ∧
        ∀ j : Nat, j ≠ i → board'.colorMap.matrix[j]? = board.colorMap.matrix[j]?) ∧
      (board.colorMap.Square gen.gameSize → ∀ q : Point, q.inBoard gen.gameSize = true →
        q ≠ p → board'.getPointColor q = board.getPointColor q) := by
  rcases gen.doOneColorSpread_post R uninit board e g h with
    ⟨hf, -⟩ | ⟨-, cp, ⟨hin, hpe, hce, ⟨p0, hp0, hp0c, d, hd, hadj⟩, hnq, -⟩, hset, -⟩
  · cases hf
  · obtain ⟨hw, hqs, hqc, hcm⟩ := Board.setPointColor_fields hset
    have hcm' := hcm
    rw [ColorMap.setMatrixValue_eq_ok] at hcm'
    obtain ⟨hi0, hilt, hmat⟩ := hcm'
    have hget := hpe
    rw [Board.getPointColor, ColorMap.getPointColor_eq_ok] at hget
    refine ⟨cp.p, cp.color, p0, ⟨hin, hpe, hnq⟩, ⟨hce, ?_⟩,
      ⟨mem_scanPoints.1 hp0, ?_, hp0c⟩, ⟨hw, hqs, hqc, ?_⟩, ?_, ?_⟩
    · rw [Board.getPointColor, ColorMap.getPointColor_eq_ok, hmat]
      exact ⟨hi0, by simp [List.getElem?_set, hilt]⟩
    · rw [orthAdjacent_iff]
      exact ⟨(-d.1, -d.2), neg_dir_mem hd, by rw [hadj, shift_neg]⟩
    · rw [hmat]
    · refine ⟨(cp.p.y * board.colorMap.width + cp.p.x).toNat, hget.2, by rw [hmat], ?_⟩
      intro j hj
      rw [hmat]
      simp only [List.getElem?_set]
      rw [if_neg (fun hij => hj hij.symm)]
    · intro hsq q hq hqp
      obtain ⟨cm', hset', -, -, hother⟩ := hsq.setMatrixValue hin cp.color
      rw [hcm] at hset'
      cases hset'
      exact hother q hq hqp

theorem doOneColorSpread_changes_one_cell_witness :
    (GameGenerator.mk 4 true).doOneColorSpread identitySource ⟨0, 0⟩ sampleBoard 0 () =
      Except.ok (true, sampleBoardSpread, ()) ∧
    ∃ (p : Point) (c : Int) (n : Point),
      (p.inBoard (GameGenerator.mk 4 true).gameSize = true ∧
        sampleBoard.getPointColor p = Except.ok 0 ∧ sampleBoard.pointIsQueen p = false) ∧
      (c ≠ 0 ∧ sampleBoardSpread.getPointColor p = Except.ok c) ∧
      (n.inBoard (GameGenerator.mk 4 true).gameSize = true ∧ p.orthAdjacent n ∧
        sampleBoard.getPointColor n = Except.ok c) ∧
      (sampleBoardSpread.width = sampleBoard.width ∧
        sampleBoardSpread.queens = sampleBoard.queens ∧
        sampleBoardSpread.queenColors = sampleBoard.queenColors ∧
        sampleBoardSpread.colorMap.width = sampleBoard.colorMap.width) ∧
      (∃ i : Nat, sampleBoard.colorMap.matrix[i]? = some 0 ∧
        sampleBoardSpread.colorMap.matrix = sampleBoard.colorMap.matrix.set i c ∧
        ∀ j : Nat, j ≠ i →
          sampleBoardSpread.colorMap.matrix[j]? = sampleBoard.colorMap.matrix[j]?) ∧
      (sampleBoard.colorMap.Square (GameGenerator.mk 4 true).gameSize →
        ∀ q : Point, q.inBoard (GameGenerator.mk 4 true).gameSize = true →
          q ≠ p → sampleBoardSpread.getPointColor q = sampleBoard.getPointColor q) :=
  have hrun : (GameGenerator.mk 4 true).doOneColorSpread identitySource ⟨0, 0⟩ sampleBoard 0 () =
      Except.ok (true, sampleBoardSpread, ()) := by decide
  ⟨hrun, doOneColorSpread_changes_one_cell identitySource (GameGenerator.mk 4 true) ⟨0, 0⟩
    sampleBoard 0 () sampleBoardSpread () hrun⟩

/-- C19: for every valid queen skeleton `ys` of a board of width `width` (one queen
per column, distinct rows inside the board, rows of consecutive columns not
differing by one) and every base label `e` of `[0,width)` (so `width ≥ 1`), on the
grid in which the queen cell of column `i` holds the label `i` and every other cell
holds `e`, `hasOneSolution()` returns `true`, and the only valid placement is
`ys`. -/
theorem seeded_grid_unique (width : Int) (cm : ColorMap) (ys : List Int) (e : Int)
    (hys : IsPlacement cm width false ys) (he : 0 ≤ e ∧ e < width)
    (hseed : IsSeedGrid cm width ys e) :
    (IncompleteBoard.mk width cm [] 0).hasOneSolution = Except.ok true ∧
      ∀ zs, IsValidPlacement cm width zs ↔ zs = ys := by
  obtain ⟨board, -, hcm, hw, hinv, hbase⟩ := hseed.board hys he
  have hv := hinv.seed_valid he hbase
  have huniq := hinv.unique_is_queens hv
  simp only [GameGenerator.isValidGame, IncompleteBoard.ofBoard, hcm, hw] at hv
  refine ⟨hv, fun zs => ?_⟩
  rw [← isPlacement_iff, ← hcm]
  exact huniq zs

theorem seeded_grid_unique_witness :
    IsPlacement sampleBoard.colorMap 4 false [1, 3, 0, 2] ∧ ((0 : Int) ≤ 0 ∧ (0 : Int) < 4) ∧
    IsSeedGrid sampleBoard.colorMap 4 [1, 3, 0, 2] 0 ∧
    (IncompleteBoard.mk 4 sampleBoard.colorMap [] 0).hasOneSolution = Except.ok true ∧
      ∀ zs, IsValidPlacement sampleBoard.colorMap 4 zs ↔ zs = [1, 3, 0, 2] :=
  ⟨sample_placement, by decide, sample_seed,
    seeded_grid_unique 4 sampleBoard.colorMap [1, 3, 0, 2] 0 sample_placement (by decide)
      sample_seed⟩

/-- C20: for every width of at least 4, every valid queen skeleton `ys` and every
base label `e` of `[0,width)`, the board that the constructor builds on the seeded
grid (queen cell `i` labelled `i`, every other cell labelled `e`) is connected:
every cell passes `pointConnectsToQueen`; in particular the cells of the base label
are exactly the cells that are not queen cells of another column, any two of them
are joined by a path of orthogonally adjacent cells of the base label, and the
queen of column `e` is one of them. -/
theorem seeded_board_connected (width : Int) (cm : ColorMap) (ys : List Int) (e : Int)
    (uninit : Point) (hw : 4 ≤ width) (hys : IsPlacement cm width false ys)
    (he : 0 ≤ e ∧ e < width) (hseed : IsSeedGrid cm width ys e) :
    ∃ board, Board.new cm (columnsFrom 0 ys) = Except.ok board ∧
      (∀ p : Point, p.inBoard width = true →
        board.pointConnectsToQueen uninit p = Except.ok true) ∧
      (∀ p : Point, p.inBoard width = true →
        (board.getPointColor p = Except.ok e ↔ ¬ (p ∈ board.queens ∧ p.x ≠ e))) ∧
      (∀ u v : Point, u.inBoard width = true → v.inBoard width = true →
        board.getPointColor u = Except.ok e → board.getPointColor v = Except.ok e →
        ∃ path, board.SameLabelPath u v path) ∧
      ∃ q, board.queens[e.toNat]? = some q ∧ q.x = e ∧ board.getPointColor q = Except.ok e := by
  obtain ⟨board, hnew, hcm, hbw, hinv, hbase⟩ := hseed.board hys he
  have hconn := hinv.seed_connected (by omega) he hbase
  refine ⟨board, hnew, ?_, ?_, ?_, ?_⟩
  · intro p hp
    exact hconn.pointConnectsToQueen uninit (by rw [hbw]; exact hp)
  · intro p hp
    constructor
    · rintro hc ⟨hq, hne⟩
      have := hinv.2.2.2.2.2.1 p hq
      rw [hc] at this
      exact hne (Except.ok.inj this).symm
    · intro hn
      by_cases hq : p ∈ board.queens
      · have hpx : p.x = e := by
          by_contra hne
          exact hn ⟨hq, hne⟩
        rw [hinv.2.2.2.2.2.1 p hq, hpx]
      · exact hbase p hp hq
  · intro u v hu hv hcu hcv
    have hreach := hinv.base_connected (by omega) hbase hu hcu hv hcv
    exact (Board.reach_iff_path (by rw [hbw]; exact hu) hcv).1 ⟨hcu, hreach⟩
  · obtain ⟨y, hy, hq, -⟩ := hinv.queenOf he
    have hqmem : (⟨e, y⟩ : Point) ∈ board.queens := Board.queenOf_mem hq
    refine ⟨⟨e, y⟩, ?_, rfl, hinv.2.2.2.2.2.1 _ hqmem⟩
    rw [hinv.2.2.1, columnsFrom_getElem?, hy]
    simp only [Option.map_some', zero_add, Option.some.injEq, Point.mk.injEq, and_true]
    omega

theorem seeded_board_connected_witness :
    (4 : Int) ≤ 4 ∧ IsPlacement sampleBoard.colorMap 4 false [1, 3, 0, 2] ∧
    ((0 : Int) ≤ 0 ∧ (0 : Int) < 4) ∧ IsSeedGrid sampleBoard.colorMap 4 [1, 3, 0, 2] 0 ∧
    ∃ board, Board.new sampleBoard.colorMap (columnsFrom 0 [1, 3, 0, 2]) = Except.ok board ∧
      (∀ p : Point, p.inBoard 4 = true →
        board.pointConnectsToQueen ⟨0, 0⟩ p = Except.ok true) ∧
      (∀ p : Point, p.inBoard 4 = true →
        (board.getPointColor p = Except.ok 0 ↔ ¬ (p ∈ board.queens ∧ p.x ≠ 0))) ∧
      (∀ u v : Point, u.inBoard 4 = true → v.inBoard 4 = true →
        board.getPointColor u = Except.ok 0 → board.getPointColor v = Except.ok 0 →
        ∃ path, board.SameLabelPath u v path) ∧
      ∃ q, board.queens[(0 : Int).toNat]? = some q ∧ q.x = 0 ∧
        board.getPointColor q = Except.ok 0 :=
  ⟨by decide, sample_placement, by decide, sample_seed,
    seeded_board_connected 4 sampleBoard.colorMap [1, 3, 0, 2] 0 ⟨0, 0⟩ (by decide)
      sample_placement (by decide) sample_seed⟩

/-- C15: on every board in which one colour is recorded per queen, every queen
stands on a readable cell and the label of every in-board cell is the colour of a
queen, for every in-board cell `p`, every candidate label `c` and every value of the
uninitialised local, `colorChangeBreaksContinuity(p, c)` returns and leaves the
board as it was, and it returns `true` if and only if there is an in-board
orthogonal neighbour `n` of `p` whose label in the grid obtained by setting `p` to
`c` differs from `c` and for which `pointsAreConnected`, in that grid, from `n` to
the queen recorded for the label of `n`, returns `false`. -/
theorem colorChangeBreaksContinuity_iff (b : Board) (uninit p : Point) (c : Int)
    (hq : b.QueensOK)
    (hlab : ∀ x : Point, x.inBoard b.width = true →
      ∃ l ∈ b.queenColors, b.getPointColor x = Except.ok l)
    (hp : p.inBoard b.width = true) :
    ∃ r b1, b.colorChangeBreaksContinuity uninit p c = Except.ok (r, b) ∧
      b.setPointColor p c = Except.ok b1 ∧
      (r = true ↔ ∃ n : Point, p.orthAdjacent n ∧ n.inBoard b.width = true ∧
        ∃ l q, b1.getPointColor n = Except.ok l ∧ l ≠ c ∧ b1.queenOf l = some q ∧
          b1.pointsAreConnected n q = Except.ok false) :=
  Board.colorChangeBreaksContinuity_spec uninit c hq hlab hp

theorem colorChangeBreaksContinuity_iff_witness :
    sampleBoard.QueensOK ∧
    (∀ x ∈ scanPoints sampleBoard.width,
      ∃ l ∈ sampleBoard.queenColors, sampleBoard.getPointColor x = Except.ok l) ∧
    (⟨1, 0⟩ : Point).inBoard sampleBoard.width = true ∧
    ∃ r b1, sampleBoard.colorChangeBreaksContinuity ⟨0, 0⟩ ⟨1, 0⟩ 2 =
        Except.ok (r, sampleBoard) ∧
      sampleBoard.setPointColor ⟨1, 0⟩ 2 = Except.ok b1 ∧
      (r = true ↔ ∃ n : Point, (⟨1, 0⟩ : Point).orthAdjacent n ∧
        n.inBoard sampleBoard.width = true ∧
        ∃ l q, b1.getPointColor n = Except.ok l ∧ l ≠ 2 ∧ b1.queenOf l = some q ∧
          b1.pointsAreConnected n q = Except.ok false) :=
  have h1 : ∀ x ∈ scanPoints sampleBoard.width,
      ∃ l ∈ sampleBoard.queenColors, sampleBoard.getPointColor x = Except.ok l := by decide
  ⟨by decide, h1, by decide,
    colorChangeBreaksContinuity_iff sampleBoard ⟨0, 0⟩ ⟨1, 0⟩ 2 (by decide)
      (forall_inBoard_of_scan _ h1) (by decide)⟩
end Queens
